import Mathlib

/-!
Verification of the JSON-like recursive-descent parser in
`src/metalberto/src/common/json.rs`.

The embedding is a byte-level shallow embedding of the Rust source:

* The document is a `List Nat` of byte values (Rust: `&[u8]` obtained from
  `String::as_bytes`; all concrete test documents here are ASCII, where the
  UTF-8 encoding is the identity on code points).
* Parser state mirrors `struct Parser { line, caret, document }`.
* Fallible operations return `PResult`, mirroring `Result<T, Error>` plus
  two extra outcomes: `abort` models a Rust panic (`.unwrap()` on a failed
  numeric conversion) and `oob` models a Rust slice-index panic
  (`document[a..b]` with `b > len` or `a > b`).  `outOfFuel` is the usual
  fuel-exhaustion marker for the mutual recursion `parse`/`array`/`dict`
  and the scanning loops; the public wrapper supplies fuel far in excess of
  the parser's worst-case step count, which is linear in the input length
  (every loop iteration either consumes a byte or returns).
* `i64emb` conversion (`str::parse::<i64>`) is modelled exactly, including the
  two's-complement range check.  `f64` conversion is modelled by the exact
  decimal rational the literal denotes; rounding to the nearest double is
  abstracted away (no claim depends on it), while the success/failure
  behaviour of `str::parse::<f64>` on the reachable slice shapes is modelled
  exactly.
* `HashMap<String, Value>` is modelled as an association list whose `insert`
  overwrites the value of an existing key in place and appends new keys.
-/

namespace Mb

/-- Byte values of an ASCII string, mirroring `String::as_bytes` (the
documents used in concrete statements are all ASCII). -/
def bytes (s : String) : List Nat :=
  s.data.map Char.toNat

/-- Mirrors `enum ErrorType` in the source. -/
inductive ErrorType where
  | expectedArrayCloseOrComma
  | expectedDictKey
  | expectedDictColonAfterKey (key : List Nat)
  | expectedDictCloseOrComma
  | unexpectedEndOfFile
  | unknownKeyword (keyword : List Nat)
deriving DecidableEq

/-- Mirrors `struct Error { line, error }` in the source. -/
structure Error where
  line : Nat
  error : ErrorType
deriving DecidableEq

/-- Mirrors `enum Value` in the source.  `dict` carries the association-list
model of `HashMap<String, Value>`; `float` carries the exact decimal rational
denoted by the numeral text (f64 rounding abstracted). -/
inductive Value where
  | array (value : List Value)
  | boolean (value : Bool)
  | dict (value : List (List Nat × Value))
  | float (value : ℚ)
  | integer (value : Int)
  | null
  | string (value : List Nat)

/-- Mirrors `struct Parser { line, caret, document }`. -/
structure PState where
  line : Nat
  caret : Nat
  document : List Nat
deriving DecidableEq

/-- Result of one parser operation: the value together with the updated
parser state, or an error, or one of the two panic outcomes, or fuel
exhaustion. -/
inductive PResult (α : Type) where
  | ok (val : α) (s : PState)
  | err (e : Error)
  | abort
  | oob
  | outOfFuel

/-- Sequencing of parser operations; mirrors Rust's `?` propagation on
`Result` (panics and fuel exhaustion propagate likewise). -/
def PResult.bind {α β : Type} : PResult α → (α → PState → PResult β) → PResult β
  | .ok a s, f => f a s
  | .err e, _ => .err e
  | .abort, _ => .abort
  | .oob, _ => .oob
  | .outOfFuel, _ => .outOfFuel

@[simp] theorem PResult.bind_ok {α β : Type} (a : α) (s : PState) (f : α → PState → PResult β) :
    (PResult.ok a s).bind f = f a s := rfl

@[simp] theorem PResult.bind_err {α β : Type} (e : Error) (f : α → PState → PResult β) :
    (PResult.err e).bind f = .err e := rfl

@[simp] theorem PResult.bind_abort {α β : Type} (f : α → PState → PResult β) :
    (PResult.abort : PResult α).bind f = .abort := rfl

@[simp] theorem PResult.bind_oob {α β : Type} (f : α → PState → PResult β) :
    (PResult.oob : PResult α).bind f = .oob := rfl

@[simp] theorem PResult.bind_outOfFuel {α β : Type} (f : α → PState → PResult β) :
    (PResult.outOfFuel : PResult α).bind f = .outOfFuel := rfl

/-- Mirrors `Parser::error`: pairs an `ErrorType` with the current line. -/
def mkErr (s : PState) (t : ErrorType) : Error :=
  ⟨s.line, t⟩

/-- Mirrors `Parser::peek`: the byte at the caret, or `UnexpectedEndOfFile`
when the caret is at or past the end of the document. -/
def peek (s : PState) : PResult Nat :=
  if h : s.caret < s.document.length then .ok (s.document.get ⟨s.caret, h⟩) s
  else .err (mkErr s .unexpectedEndOfFile)

/-- Mirrors `Parser::advance`: `peek` then move the caret one byte forward. -/
def advance (s : PState) : PResult Nat :=
  (peek s).bind fun c s1 => .ok c { s1 with caret := s1.caret + 1 }

/-- Mirrors `Parser::check`: consume the current byte iff it equals
`expected`; propagates `peek`'s end-of-input error. -/
def check (expected : Nat) (s : PState) : PResult Bool :=
  (peek s).bind fun c s1 =>
    if c ≠ expected then .ok false s1
    else (advance s1).bind fun _ s2 => .ok true s2

/-- Mirrors `Parser::skip_whitespace`: consume spaces, tabs and newlines,
incrementing `line` on each newline; propagates end-of-input. -/
def skip_whitespace : Nat → PState → PResult Unit
  | 0, _ => .outOfFuel
  | f + 1, s =>
    (peek s).bind fun c s1 =>
      if c = 32 then skip_whitespace f { s1 with caret := s1.caret + 1 }
      else if c = 9 then skip_whitespace f { s1 with caret := s1.caret + 1 }
      else if c = 10 then
        skip_whitespace f { s1 with caret := s1.caret + 1, line := s1.line + 1 }
      else .ok () s1

/-- Inner loop of `Parser::word`, keeping the full expected byte string for
the `UnknownKeyword` payload (the source reports the expected literal). -/
def wordGo (full : List Nat) : List Nat → PState → PResult Unit
  | [], s => .ok () s
  | ch :: rest, s =>
    (advance s).bind fun c s1 =>
      if c ≠ ch then .err (mkErr s1 (.unknownKeyword full))
      else wordGo full rest s1

/-- Mirrors `Parser::word`. -/
def word (characters : List Nat) (s : PState) : PResult Unit :=
  wordGo characters characters s

/-- Rust slice `document[a..b]`: `oob` (an index panic in the source) is
signalled by `none` when the range is not within bounds. -/
def sliceChk (d : List Nat) (a b : Nat) : Option (List Nat) :=
  if a ≤ b ∧ b ≤ d.length then some ((d.drop a).take (b - a)) else none

/-- Inner loop of `Parser::string` (`start` is the recorded offset of the
first content byte): stop at a quote and slice `[start, caret-1)`; on a
backslash, `check` consumes it and the unconditional `caret += 1` then skips
the escaped byte. -/
def stringGo (start : Nat) : Nat → PState → PResult (List Nat)
  | 0, _ => .outOfFuel
  | f + 1, s =>
    (check 34 s).bind fun b s1 =>
      if b then
        match sliceChk s1.document start (s1.caret - 1) with
        | some content => .ok content s1
        | none => .oob
      else
        (check 92 s1).bind fun _ s2 =>
          stringGo start f { s2 with caret := s2.caret + 1 }

/-- Mirrors `Parser::string`: consume the opening quote, then scan. -/
def stringP (f : Nat) (s : PState) : PResult (List Nat) :=
  (advance s).bind fun _ s1 => stringGo s1.caret f s1

@[simp] def isDigit (c : Nat) : Bool :=
  48 ≤ c && c ≤ 57

/-- Mirrors the `while self.peek()?.is_ascii_digit() { self.advance()?; }`
loops in `Parser::number`; note that a failing `peek` (end of input)
propagates as an error out of the loop. -/
def digitRun : Nat → PState → PResult Unit
  | 0, _ => .outOfFuel
  | f + 1, s =>
    (peek s).bind fun c s1 =>
      if isDigit c then (advance s1).bind fun _ s2 => digitRun f s2
      else .ok () s1

/-- Numeric value of a digit string, most significant first. -/
def digitsVal (ds : List Nat) : Nat :=
  ds.foldl (fun a d => a * 10 + (d - 48)) 0

/-- Mirrors `str::parse::<i64>` on a byte slice: an optional sign followed by
at least one digit, and the value must fit in a 64-bit two's-complement
integer; `none` is the `Err` case (whose `unwrap` panics in the source). -/
def parseI64 (bs : List Nat) : Option Int :=
  match bs with
  | [] => none
  | c :: rest =>
    if c = 43 then
      if rest ≠ [] ∧ rest.all (fun c => isDigit c) then
        if (digitsVal rest : Int) ≤ 2 ^ 63 - 1 then some (digitsVal rest : Int) else none
      else none
    else if c = 45 then
      if rest ≠ [] ∧ rest.all (fun c => isDigit c) then
        if -(2 ^ 63) ≤ -(digitsVal rest : Int) then some (-(digitsVal rest : Int)) else none
      else none
    else
      if (c :: rest).all (fun c => isDigit c) then
        if (digitsVal (c :: rest) : Int) ≤ 2 ^ 63 - 1 then
          some (digitsVal (c :: rest) : Int)
        else none
      else none

/-- Splits off the maximal leading run of ASCII digits. -/
def splitDigits : List Nat → List Nat × List Nat
  | [] => ([], [])
  | c :: r =>
    if isDigit c then
      let p := splitDigits r
      (c :: p.1, p.2)
    else ([], c :: r)

/-- Exponent part of an `f64` literal: empty, or `e`/`E` followed by an
optional sign and at least one digit (Rust's `f64` grammar); returns the
signed exponent. -/
def parseF64Exp : List Nat → Option Int
  | [] => some 0
  | c :: r =>
    if c = 101 ∨ c = 69 then
      match r with
      | [] => none
      | c2 :: r2 =>
        if c2 = 43 then
          let p := splitDigits r2
          if p.1 ≠ [] ∧ p.2 = [] then some (digitsVal p.1 : Int) else none
        else if c2 = 45 then
          let p := splitDigits r2
          if p.1 ≠ [] ∧ p.2 = [] then some (-(digitsVal p.1 : Int)) else none
        else
          let p := splitDigits (c2 :: r2)
          if p.1 ≠ [] ∧ p.2 = [] then some (digitsVal p.1 : Int) else none
    else none

/-- Significand-and-exponent part of `str::parse::<f64>` (after the sign):
digits, an optional dot with more digits, then an optional exponent; the
significand needs at least one digit. -/
def parseF64Core (l : List Nat) : Option ℚ :=
  match (splitDigits l).2 with
  | c :: r2 =>
    if c = 46 then
      if (splitDigits l).1 = [] ∧ (splitDigits r2).1 = [] then none
      else
        match parseF64Exp (splitDigits r2).2 with
        | some e =>
          some (((digitsVal (splitDigits l).1 : ℚ) +
              (digitsVal (splitDigits r2).1 : ℚ) / (10 : ℚ) ^ (splitDigits r2).1.length) *
            (10 : ℚ) ^ e)
        | none => none
    else
      if (splitDigits l).1 = [] then none
      else
        match parseF64Exp (splitDigits l).2 with
        | some e => some ((digitsVal (splitDigits l).1 : ℚ) * (10 : ℚ) ^ e)
        | none => none
  | [] =>
    if (splitDigits l).1 = [] then none
    else
      match parseF64Exp (splitDigits l).2 with
      | some e => some ((digitsVal (splitDigits l).1 : ℚ) * (10 : ℚ) ^ e)
      | none => none

/-- Mirrors `str::parse::<f64>` on the slice shapes the scanner can produce
(sign, digits, one optional dot, digits, optional exponent): the significand
needs at least one digit, an exponent marker needs at least one following
digit.  The resulting value is the exact decimal rational; rounding to the
nearest `f64` is abstracted away. -/
def parseF64 (bs : List Nat) : Option ℚ :=
  match bs with
  | [] => parseF64Core []
  | c :: rest =>
    if c = 43 then parseF64Core rest
    else if c = 45 then (parseF64Core rest).map (fun q => -q)
    else parseF64Core (c :: rest)

/-- Mirrors `Parser::number` (the recorded `start` offset is `s.caret`,
written inline below).  The `e1` / `e2` sequencing reproduces the
short-circuit evaluation of `self.check(b'e')? || self.check(b'E')?`. -/
def number (f : Nat) (s : PState) : PResult Value :=
  (check 45 s).bind fun _ s1 =>
  (peek s1).bind fun c s2 =>
  ((if c = 48 then (advance s2).bind fun _ t => .ok () t else digitRun f s2).bind fun _ s3 =>
  (check 46 s3).bind fun dot s4 =>
  if dot = false then
    match sliceChk s4.document s.caret s4.caret with
    | some bs =>
      match parseI64 bs with
      | some n => .ok (Value.integer n) s4
      | none => .abort
    | none => .oob
  else
  (digitRun f s4).bind fun _ s5 =>
  (check 101 s5).bind fun e1 s6 =>
  ((if e1 then .ok true s6 else check 69 s6).bind fun e2 s7 =>
  (if e2 then digitRun f s7 else .ok () s7).bind fun _ s8 =>
  match sliceChk s8.document s.caret s8.caret with
  | some bs =>
    match parseF64 bs with
    | some q => .ok (Value.float q) s8
    | none => .abort
  | none => .oob))

/-- `HashMap::insert`: overwrite the value of an existing key, otherwise add
the binding (association-list model of the map's contents). -/
def insertKV (m : List (List Nat × Value)) (k : List Nat) (v : Value) :
    List (List Nat × Value) :=
  match m with
  | [] => [(k, v)]
  | (k1, v1) :: rest => if k1 = k then (k, v) :: rest else (k1, v1) :: insertKV rest k v

/-- Bitwise NOT on a byte, mirroring Rust's `!` on `u8` (the source's
object-key test `!self.peek()? == b'\x22'` applies it to the peeked byte). -/
def bitnot8 (b : Nat) : Nat :=
  255 - b % 256

mutual

/-- Mirrors `Parser::parse`: skip whitespace, dispatch on the next byte. -/
def parseF : Nat → PState → PResult Value
  | 0, _ => .outOfFuel
  | f + 1, s =>
    (skip_whitespace f s).bind fun _ s1 =>
    (peek s1).bind fun c s2 =>
    if c = 123 then (advance s2).bind fun _ s3 => dictLoopF f [] s3
    else if c = 91 then (advance s2).bind fun _ s3 => arrayLoopF f [] s3
    else if c = 34 then (stringP f s2).bind fun str s3 => .ok (Value.string str) s3
    else if c = 116 then (word (bytes ("true")) s2).bind fun _ s3 => .ok (Value.boolean true) s3
    else if c = 102 then (word (bytes ("false")) s2).bind fun _ s3 => .ok (Value.boolean false) s3
    else if c = 110 then (word (bytes ("null")) s2).bind fun _ s3 => .ok Value.null s3
    else number f s2

/-- Loop body of `Parser::array` (the `advance` over `[` happens in
`parseF`); `acc` is the `Vec` built so far.  The `peek != b']' &&
!check(b',')` test mirrors the source's short-circuit order. -/
def arrayLoopF : Nat → List Value → PState → PResult Value
  | 0, _, _ => .outOfFuel
  | f + 1, acc, s =>
    (skip_whitespace f s).bind fun _ s1 =>
    (check 93 s1).bind fun b s2 =>
    if b then .ok (Value.array acc) s2
    else
      (parseF f s2).bind fun v s3 =>
      (skip_whitespace f s3).bind fun _ s4 =>
      (peek s4).bind fun c s5 =>
      if c ≠ 93 then
        (check 44 s5).bind fun comma s6 =>
        if comma = false then .err (mkErr s6 .expectedArrayCloseOrComma)
        else arrayLoopF f (acc ++ [v]) s6
      else arrayLoopF f (acc ++ [v]) s5

/-- Loop body of `Parser::dict`.  The key test reproduces the source's
`!self.peek()? == b'\x22'` literally: `!` is bitwise NOT on `u8`, so the
`ExpectedDictKey` branch fires exactly when the peeked byte is 221. -/
def dictLoopF : Nat → List (List Nat × Value) → PState → PResult Value
  | 0, _, _ => .outOfFuel
  | f + 1, acc, s =>
    (skip_whitespace f s).bind fun _ s1 =>
    (check 125 s1).bind fun b s2 =>
    if b then .ok (Value.dict acc) s2
    else
      (peek s2).bind fun c s3 =>
      if bitnot8 c = 34 then .err (mkErr s3 .expectedDictKey)
      else
        (stringP f s3).bind fun key s4 =>
        (skip_whitespace f s4).bind fun _ s5 =>
        (check 58 s5).bind fun colon s6 =>
        if colon = false then .err (mkErr s6 (.expectedDictColonAfterKey key))
        else
          (skip_whitespace f s6).bind fun _ s7 =>
          (parseF f s7).bind fun v s8 =>
          (skip_whitespace f s8).bind fun _ s9 =>
          (peek s9).bind fun c2 s10 =>
          if c2 ≠ 125 then
            (check 44 s10).bind fun comma s11 =>
            if comma = false then .err (mkErr s11 .expectedDictCloseOrComma)
            else dictLoopF f (insertKV acc key v) s11
          else dictLoopF f (insertKV acc key v) s10

end

/-- Outcome of the public entry point `parse_string` (the final parser state
is dropped, as in the Rust signature `Result<Value, Error>`; `abort` / `oob`
record the two panic modes). -/
inductive ParseOutcome where
  | ok (value : Value)
  | err (e : Error)
  | abort
  | oob
  | outOfFuel

/-- Fuel supplied to the mutual recursion: generous linear bound (every loop
iteration of the parser either consumes at least one byte or returns). -/
def fuelFor (d : List Nat) : Nat :=
  8 * d.length + 64

/-- Mirrors `pub fn parse_string`: construct the parser at line 0, caret 0,
and run `parse`. -/
def parse_string (document : List Nat) : ParseOutcome :=
  match parseF (fuelFor document) ⟨0, 0, document⟩ with
  | .ok v _ => .ok v
  | .err e => .err e
  | .abort => .abort
  | .oob => .oob
  | .outOfFuel => .outOfFuel

/-- Spec-side description of string-body scanning (used to state claim C6,
following the specification's words): starting right after the opening
quote, a backslash together with the immediately following byte is skipped
as a two-byte unit and kept verbatim in the content; the first quote not
consumed inside such a unit terminates the string.  Returns the content and
the number of bytes consumed including the closing quote; `none` if the
input ends first. -/
def specScan : List Nat → Option (List Nat × Nat)
  | [] => none
  | c :: rest =>
    if c = 34 then some ([], 1)
    else if c = 92 then
      match rest with
      | [] => none
      | b :: rest2 =>
        match specScan rest2 with
        | some p => some (92 :: b :: p.1, p.2 + 2)
        | none => none
    else
      match specScan rest with
      | some p => some (c :: p.1, p.2 + 1)
      | none => none

/-- Extends the document of a parser state on the right (the caret, line and
prefix of the document are unchanged). -/
def extD (q : List Nat) (s : PState) : PState :=
  { s with document := s.document ++ q }

/-- Transport of a successful run to a longer document: every `ok` result of
the computation on the base document is reproduced verbatim when the
document is extended on the right (used for claim C10). -/
def Arel (q : List Nat) {α : Type} (base ext : PResult α) : Prop :=
  ∀ a t, base = .ok a t → ext = .ok a (extD q t)

/-- Prefix behaviour of a run (used for claim C7): whenever the computation
on the extended document succeeds, the same computation on the base document
either succeeds with the same value and corresponding state, or fails with
`UnexpectedEndOfFile` — never with any other error, a panic, or fuel
exhaustion. -/
def Brel (q : List Nat) {α : Type} (base ext : PResult α) : Prop :=
  ∀ a t, ext = .ok a t →
    (∃ t2, base = .ok a t2 ∧ t = extD q t2) ∨
      ∃ n, base = .err ⟨n, .unexpectedEndOfFile⟩

/-!  ### A spec-side grammar of well-formed single-value documents
(used for claim C3): literal syntax trees, their textual rendering, and the
`Value` each denotes.  -/

/-- Rendering of an optional exponent part. -/
def expRender : Option (List Nat) → List Nat
  | none => []
  | some e => 101 :: e

mutual

/-- Syntax tree of one JSON-like literal document (spec side, claim C3). -/
inductive Lit where
  | bool (b : Bool)
  | nullL
  | str (bs : List Nat)
  | int (neg : Bool) (ds : List Nat)
  | floatL (neg : Bool) (ds fs : List Nat) (es : Option (List Nat))
  | arr (elems : LitList)
  | obj (entries : ObjList)

/-- A list of array elements. -/
inductive LitList where
  | nil
  | cons (hd : Lit) (tl : LitList)

/-- A list of object entries (key bytes and value). -/
inductive ObjList where
  | nil
  | cons (key : List Nat) (val : Lit) (tl : ObjList)

end

mutual

/-- Textual (byte) rendering of a literal. -/
def render : Lit → List Nat
  | .bool true => bytes ("true")
  | .bool false => bytes ("false")
  | .nullL => bytes ("null")
  | .str bs => 34 :: (bs ++ [34])
  | .int neg ds => (if neg then [45] else []) ++ ds
  | .floatL neg ds fs es =>
      (if neg then [45] else []) ++ (ds ++ 46 :: (fs ++ expRender es))
  | .arr elems => 91 :: renderL elems
  | .obj entries => 123 :: renderO entries

/-- Rendering of an array body (everything after the opening bracket). -/
def renderL : LitList → List Nat
  | .nil => [93]
  | .cons x tl => render x ++ renderT tl

/-- Rendering of the rest of an array body after one element: either the
closing bracket, or a comma and the remaining elements. -/
def renderT : LitList → List Nat
  | .nil => [93]
  | .cons x tl => 44 :: (render x ++ renderT tl)

/-- Rendering of an object body (everything after the opening brace). -/
def renderO : ObjList → List Nat
  | .nil => [125]
  | .cons k v tl => 34 :: (k ++ 34 :: (58 :: (render v ++ renderOT tl)))

/-- Rendering of the rest of an object body after one entry. -/
def renderOT : ObjList → List Nat
  | .nil => [125]
  | .cons k v tl => 44 :: (34 :: (k ++ 34 :: (58 :: (render v ++ renderOT tl))))

end

/-- The rational denoted by a decimal literal `ds . fs e es`. -/
def floatVal (neg : Bool) (ds fs : List Nat) (es : Option (List Nat)) : ℚ :=
  (if neg then -1 else 1) *
    (((digitsVal ds : ℚ) + (digitsVal fs : ℚ) / (10 : ℚ) ^ fs.length) *
      (10 : ℚ) ^ (match es with | none => (0 : Int) | some e => (digitsVal e : Int)))

mutual

/-- The `Value` a literal denotes. -/
def denote : Lit → Value
  | .bool b => Value.boolean b
  | .nullL => Value.null
  | .str bs => Value.string bs
  | .int neg ds => Value.integer (if neg then -(digitsVal ds : Int) else (digitsVal ds : Int))
  | .floatL neg ds fs es => Value.float (floatVal neg ds fs es)
  | .arr elems => Value.array (denoteL elems)
  | .obj entries => Value.dict (denoteO [] entries)

/-- Values of a list of elements. -/
def denoteL : LitList → List Value
  | .nil => []
  | .cons x tl => denote x :: denoteL tl

/-- The association list built by inserting the entries left to right into
the accumulator, exactly as the parser's object loop does. -/
def denoteO (acc : List (List Nat × Value)) : ObjList → List (List Nat × Value)
  | .nil => acc
  | .cons k v tl => denoteO (insertKV acc k (denote v)) tl

end

/-- A clean content byte for strings and object keys: no quote, no
backslash (escape-free literals). -/
def cleanByte (b : Nat) : Prop :=
  b ≠ 34 ∧ b ≠ 92

/-- Digit strings acceptable to the number scanner: all ASCII digits, and a
leading zero only for the single literal `0` (the scanner's `0` branch
consumes exactly one digit). -/
def goodDigits (ds : List Nat) : Prop :=
  ds.all (fun c => isDigit c) = true ∧ (ds.head? = some 48 → ds = [48])

mutual

/-- Well-formedness of a literal: escape-free strings and keys, digit
strings the scanner accepts, and integers within the 64-bit range. -/
def WF : Lit → Prop
  | .bool _ => True
  | .nullL => True
  | .str bs => ∀ b ∈ bs, cleanByte b
  | .int neg ds =>
      ds ≠ [] ∧ goodDigits ds ∧
        (if neg then (digitsVal ds : Int) ≤ 2 ^ 63 else (digitsVal ds : Int) ≤ 2 ^ 63 - 1)
  | .floatL _ ds fs es =>
      goodDigits ds ∧ fs.all (fun c => isDigit c) = true ∧ (ds = [] → fs ≠ []) ∧
        (match es with
          | none => True
          | some e => e ≠ [] ∧ e.all (fun c => isDigit c) = true)
  | .arr elems => WFL elems
  | .obj entries => WFO entries

/-- Well-formedness of array elements. -/
def WFL : LitList → Prop
  | .nil => True
  | .cons x tl => WF x ∧ WFL tl

/-- Well-formedness of object entries. -/
def WFO : ObjList → Prop
  | .nil => True
  | .cons k v tl => (∀ b ∈ k, cleanByte b) ∧ WF v ∧ WFO tl

end

mutual

/-- Fuel sufficient to parse a rendered literal. -/
def fuelL : Lit → Nat
  | .bool _ => 2
  | .nullL => 2
  | .str bs => bs.length + 4
  | .int _ ds => ds.length + 4
  | .floatL _ ds fs es =>
      ds.length + fs.length + (match es with | none => 0 | some e => e.length) + 8
  | .arr elems => fuelLL elems + 1
  | .obj entries => fuelLO entries + 1

/-- Fuel sufficient for the array loop over the remaining elements. -/
def fuelLL : LitList → Nat
  | .nil => 2
  | .cons x tl => fuelL x + fuelLL tl + 4

/-- Fuel sufficient for the object loop over the remaining entries. -/
def fuelLO : ObjList → Nat
  | .nil => 2
  | .cons k v tl => k.length + fuelL v + fuelLO tl + 8

end

/-- Whether a literal is numeric (its scan only stops at a following
non-numeric byte). -/
def isNumeric : Lit → Prop
  | .int _ _ => True
  | .floatL _ _ _ _ => True
  | _ => False

/-- A byte that ends a numeric scan: not a digit, not `.`, not `e`/`E`. -/
def stopByte (c : Nat) : Prop :=
  isDigit c = false ∧ c ≠ 46 ∧ c ≠ 101 ∧ c ≠ 69

/-!  ### Inversion lemmas for the scanner primitives  -/

theorem peek_of_lt {s : PState} (h : s.caret < s.document.length) :
    peek s = .ok (s.document.get ⟨s.caret, h⟩) s := by
  simp [peek, h]

theorem peek_of_ge {s : PState} (h : s.document.length ≤ s.caret) :
    peek s = .err ⟨s.line, .unexpectedEndOfFile⟩ := by
  simp [peek, Nat.not_lt.mpr h, mkErr]

theorem peek_ok {s : PState} {c : Nat} {t : PState} (h : peek s = .ok c t) :
    t = s ∧ s.caret < s.document.length ∧ s.document.get? s.caret = some c := by
  by_cases hc : s.caret < s.document.length
  · rw [peek_of_lt hc] at h
    cases h
    exact ⟨rfl, hc, (List.get?_eq_get hc).symm ▸ rfl⟩
  · rw [peek_of_ge (Nat.le_of_not_lt hc)] at h
    cases h

theorem advance_of_lt {s : PState} (h : s.caret < s.document.length) :
    advance s = .ok (s.document.get ⟨s.caret, h⟩) { s with caret := s.caret + 1 } := by
  unfold advance
  rw [peek_of_lt h]
  rfl

theorem advance_of_ge {s : PState} (h : s.document.length ≤ s.caret) :
    advance s = .err ⟨s.line, .unexpectedEndOfFile⟩ := by
  unfold advance
  rw [peek_of_ge h]
  rfl

theorem advance_ok {s : PState} {c : Nat} {t : PState} (h : advance s = .ok c t) :
    t = { s with caret := s.caret + 1 } ∧ s.caret < s.document.length ∧
      s.document.get? s.caret = some c := by
  by_cases hlt : s.caret < s.document.length
  · rw [advance_of_lt hlt] at h
    cases h
    exact ⟨rfl, hlt, List.get?_eq_get hlt⟩
  · rw [advance_of_ge (Nat.le_of_not_lt hlt)] at h
    cases h

theorem check_of_eq {expected : Nat} {s : PState} (h : s.caret < s.document.length)
    (hc : s.document.get ⟨s.caret, h⟩ = expected) :
    check expected s = .ok true { s with caret := s.caret + 1 } := by
  unfold check
  rw [peek_of_lt h]
  simp only [PResult.bind_ok, hc, ne_eq, not_true_eq_false, if_false]
  rw [advance_of_lt h]
  rfl

theorem check_of_ne {expected : Nat} {s : PState} (h : s.caret < s.document.length)
    (hc : s.document.get ⟨s.caret, h⟩ ≠ expected) :
    check expected s = .ok false s := by
  unfold check
  rw [peek_of_lt h]
  simp only [PResult.bind_ok]
  rw [if_pos hc]

theorem check_of_ge {expected : Nat} {s : PState} (h : s.document.length ≤ s.caret) :
    check expected s = .err ⟨s.line, .unexpectedEndOfFile⟩ := by
  unfold check
  rw [peek_of_ge h]
  rfl

theorem check_ok {expected : Nat} {s : PState} {b : Bool} {t : PState}
    (h : check expected s = .ok b t) :
    s.caret < s.document.length ∧
      ((b = false ∧ t = s ∧ s.document.get? s.caret ≠ some expected) ∨
        (b = true ∧ t = { s with caret := s.caret + 1 } ∧
          s.document.get? s.caret = some expected)) := by
  by_cases hlt : s.caret < s.document.length
  · refine ⟨hlt, ?_⟩
    by_cases hc : s.document.get ⟨s.caret, hlt⟩ = expected
    · rw [check_of_eq hlt hc] at h
      cases h
      exact Or.inr ⟨rfl, rfl, by rw [List.get?_eq_get hlt, hc]⟩
    · rw [check_of_ne hlt hc] at h
      cases h
      refine Or.inl ⟨rfl, rfl, fun hx => hc ?_⟩
      rw [List.get?_eq_get hlt] at hx
      exact Option.some.inj hx
  · rw [check_of_ge (Nat.le_of_not_lt hlt)] at h
    cases h

/-!  ### Shape invariants of the scanning loops: the document is never
mutated, the caret only moves forward, and the line counter is touched only
by `skip_whitespace` (once per newline byte it consumes).  -/

theorem newline_count_step {d : List Nat} {i : Nat} (k : Nat) (hlt : i < d.length) :
    ((d.drop i).take (k + 1)).count 10
      = (if d.get ⟨i, hlt⟩ = 10 then 1 else 0) + ((d.drop (i + 1)).take k).count 10 := by
  rw [List.drop_eq_getElem_cons hlt, List.take_succ_cons, List.count_cons]
  simp only [List.get_eq_getElem]
  by_cases h : d[i] = 10
  · simp [h]
    omega
  · simp [h]

theorem skip_whitespace_ok {f : Nat} {s t : PState} {u : Unit}
    (h : skip_whitespace f s = .ok u t) :
    t.document = s.document ∧ s.caret ≤ t.caret ∧
      t.line = s.line + ((s.document.drop s.caret).take (t.caret - s.caret)).count 10 := by
  induction f generalizing s with
  | zero => cases h
  | succ f ih =>
    unfold skip_whitespace at h
    by_cases hlt : s.caret < s.document.length
    · rw [peek_of_lt hlt] at h
      simp only [PResult.bind_ok] at h
      by_cases h32 : s.document.get ⟨s.caret, hlt⟩ = 32
      · rw [if_pos (by simpa using h32)] at h
        obtain ⟨hd, hc, hl⟩ := ih h
        dsimp only at hd hc hl
        refine ⟨hd, Nat.le_trans (Nat.le_succ _) hc, ?_⟩
        have hgap : t.caret - s.caret = (t.caret - (s.caret + 1)) + 1 := by omega
        rw [hgap, newline_count_step _ hlt, if_neg (by rw [h32]; norm_num)]
        omega
      · rw [if_neg (by simpa using h32)] at h
        by_cases h9 : s.document.get ⟨s.caret, hlt⟩ = 9
        · rw [if_pos (by simpa using h9)] at h
          obtain ⟨hd, hc, hl⟩ := ih h
          dsimp only at hd hc hl
          refine ⟨hd, Nat.le_trans (Nat.le_succ _) hc, ?_⟩
          have hgap : t.caret - s.caret = (t.caret - (s.caret + 1)) + 1 := by omega
          rw [hgap, newline_count_step _ hlt, if_neg (by rw [h9]; norm_num)]
          omega
        · rw [if_neg (by simpa using h9)] at h
          by_cases h10 : s.document.get ⟨s.caret, hlt⟩ = 10
          · rw [if_pos (by simpa using h10)] at h
            obtain ⟨hd, hc, hl⟩ := ih h
            dsimp only at hd hc hl
            refine ⟨hd, Nat.le_trans (Nat.le_succ _) hc, ?_⟩
            have hgap : t.caret - s.caret = (t.caret - (s.caret + 1)) + 1 := by omega
            rw [hgap, newline_count_step _ hlt, if_pos h10]
            omega
          · rw [if_neg (by simpa using h10)] at h
            cases h
            simp
    · rw [peek_of_ge (Nat.le_of_not_lt hlt)] at h
      cases h

theorem PResult.bind_eq_ok {α β : Type} {r : PResult α} {k : α → PState → PResult β}
    {b : β} {t : PState} (h : r.bind k = .ok b t) :
    ∃ a s, r = .ok a s ∧ k a s = .ok b t := by
  cases r with
  | ok a s => exact ⟨a, s, rfl, h⟩
  | err e => cases h
  | abort => cases h
  | oob => cases h
  | outOfFuel => cases h

theorem wordGo_ok {full cs : List Nat} {s t : PState} {u : Unit}
    (h : wordGo full cs s = .ok u t) :
    t.document = s.document ∧ s.caret ≤ t.caret ∧ t.line = s.line := by
  induction cs generalizing s with
  | nil =>
    cases h
    exact ⟨rfl, Nat.le_refl _, rfl⟩
  | cons ch rest ih =>
    unfold wordGo at h
    obtain ⟨c, s1, ha, h⟩ := PResult.bind_eq_ok h
    obtain ⟨hs1, hlt, hg⟩ := advance_ok ha
    subst hs1
    by_cases hc : c = ch
    · rw [if_neg (by simp [hc])] at h
      obtain ⟨hd, hcar, hl⟩ := ih h
      dsimp only at hd hcar hl
      exact ⟨hd, by omega, hl⟩
    · rw [if_pos hc] at h
      cases h

theorem digitRun_ok {f : Nat} {s t : PState} {u : Unit} (h : digitRun f s = .ok u t) :
    t.document = s.document ∧ s.caret ≤ t.caret ∧ t.line = s.line ∧
      t.caret < t.document.length := by
  induction f generalizing s with
  | zero => cases h
  | succ f ih =>
    unfold digitRun at h
    obtain ⟨c, s1, hp, hrest⟩ := PResult.bind_eq_ok h
    clear h
    obtain ⟨hs1, hlt, hg⟩ := peek_ok hp
    subst hs1
    by_cases hdig : isDigit c = true
    · rw [if_pos hdig] at hrest
      obtain ⟨c2, s2, ha, hrec⟩ := PResult.bind_eq_ok hrest
      obtain ⟨hs2, _, _⟩ := advance_ok ha
      subst hs2
      obtain ⟨hdoc, hcar, hline, hend⟩ := ih hrec
      dsimp only at hdoc hcar hline
      exact ⟨hdoc, by omega, hline, hend⟩
    · rw [if_neg hdig] at hrest
      cases hrest
      exact ⟨rfl, Nat.le_refl _, rfl, hlt⟩

theorem stringGo_ok {start f : Nat} {s t : PState} {r : List Nat}
    (h : stringGo start f s = .ok r t) :
    t.document = s.document ∧ s.caret + 1 ≤ t.caret ∧ t.line = s.line ∧
      t.caret ≤ t.document.length := by
  induction f generalizing s with
  | zero => cases h
  | succ f ih =>
    unfold stringGo at h
    obtain ⟨b, s1, hc, hbody⟩ := PResult.bind_eq_ok h
    clear h
    obtain ⟨hlt, hsh⟩ := check_ok hc
    cases hsh with
    | inr htrue =>
      obtain ⟨hb, hs1, hq⟩ := htrue
      subst hb
      subst hs1
      simp only [if_true] at hbody
      cases hsl : sliceChk s.document start s.caret with
      | some content =>
        rw [show (s.caret + 1) - 1 = s.caret by omega] at hbody
        rw [hsl] at hbody
        cases hbody
        exact ⟨rfl, Nat.le_refl _, rfl, hlt⟩
      | none =>
        rw [show (s.caret + 1) - 1 = s.caret by omega] at hbody
        rw [hsl] at hbody
        cases hbody
    | inl hfalse =>
      obtain ⟨hb, hs1, hne⟩ := hfalse
      subst hb
      subst hs1
      rw [if_neg Bool.false_ne_true] at hbody
      obtain ⟨b2, s2, hc2, hrec⟩ := PResult.bind_eq_ok hbody
      obtain ⟨hlt2, hsh2⟩ := check_ok hc2
      obtain ⟨hdoc, hcar, hline, hend⟩ := ih hrec
      cases hsh2 with
      | inl hf2 =>
        obtain ⟨_, hs2, _⟩ := hf2
        subst hs2
        dsimp only at hdoc hcar hline
        exact ⟨hdoc, by omega, hline, hend⟩
      | inr ht2 =>
        obtain ⟨_, hs2, _⟩ := ht2
        subst hs2
        dsimp only at hdoc hcar hline
        exact ⟨hdoc, by omega, hline, hend⟩

theorem check_shape {expected : Nat} {s : PState} {b : Bool} {t : PState}
    (h : check expected s = .ok b t) :
    t.document = s.document ∧ t.line = s.line ∧ s.caret ≤ t.caret ∧
      t.caret ≤ s.caret + 1 ∧ s.caret < s.document.length ∧ (b = false → t = s) := by
  obtain ⟨hlt, hsh⟩ := check_ok h
  cases hsh with
  | inl hf =>
    obtain ⟨hb, ht, _⟩ := hf
    subst ht
    exact ⟨rfl, rfl, Nat.le_refl _, Nat.le_succ _, hlt, fun _ => rfl⟩
  | inr ht =>
    obtain ⟨hb, ht, _⟩ := ht
    subst ht
    subst hb
    exact ⟨rfl, rfl, Nat.le_succ _, Nat.le_refl _, hlt, fun hx => by cases hx⟩

theorem intDigitsShape {f : Nat} {c : Nat} {s2 s3 : PState} {u : Unit}
    (h : (if c = 48 then (advance s2).bind fun _ t => PResult.ok () t else digitRun f s2)
      = .ok u s3) :
    s3.document = s2.document ∧ s3.line = s2.line ∧ s2.caret ≤ s3.caret := by
  by_cases hc : c = 48
  · rw [if_pos hc] at h
    obtain ⟨c2, s9, ha, hrest⟩ := PResult.bind_eq_ok h
    obtain ⟨hs9, _, _⟩ := advance_ok ha
    subst hs9
    cases hrest
    exact ⟨rfl, rfl, Nat.le_succ _⟩
  · rw [if_neg hc] at h
    obtain ⟨hd, hcar, hl, _⟩ := digitRun_ok h
    exact ⟨hd, hl, hcar⟩

theorem number_ok {f : Nat} {s t : PState} {v : Value} (h : number f s = .ok v t) :
    t.document = s.document ∧ s.caret ≤ t.caret ∧ t.line = s.line ∧
      t.caret < t.document.length := by
  unfold number at h
  obtain ⟨b45, s1, hc45, h1⟩ := PResult.bind_eq_ok h
  clear h
  obtain ⟨hd1, hl1, hcar1, _, _, _⟩ := check_shape hc45
  obtain ⟨c, s2, hp, h2⟩ := PResult.bind_eq_ok h1
  clear h1
  obtain ⟨hs2, hlt2, _⟩ := peek_ok hp
  subst hs2
  obtain ⟨u3, s3, hint, h3⟩ := PResult.bind_eq_ok h2
  clear h2
  obtain ⟨hd3, hl3, hcar3⟩ := intDigitsShape hint
  obtain ⟨dot, s4, hc46, h4⟩ := PResult.bind_eq_ok h3
  clear h3
  obtain ⟨hd4, hl4, hcar4, _, hlt4, hfalse4⟩ := check_shape hc46
  by_cases hdot : dot = false
  · rw [if_pos hdot] at h4
    have hs4 : s4 = s3 := hfalse4 hdot
    cases hsl : sliceChk s4.document s.caret s4.caret with
    | some bs =>
      rw [hsl] at h4
      dsimp only at h4
      cases hpi : parseI64 bs with
      | some n =>
        rw [hpi] at h4
        cases h4
        refine ⟨by rw [hd4, hd3, hd1], by omega, by rw [hl4, hl3, hl1], ?_⟩
        rw [hs4]
        exact hlt4
      | none =>
        rw [hpi] at h4
        cases h4
    | none =>
      rw [hsl] at h4
      cases h4
  · rw [if_neg hdot] at h4
    obtain ⟨u5, s5, hdr5, h5⟩ := PResult.bind_eq_ok h4
    clear h4
    obtain ⟨hd5, hcar5, hl5, _⟩ := digitRun_ok hdr5
    obtain ⟨e1, s6, hc101, h6⟩ := PResult.bind_eq_ok h5
    clear h5
    obtain ⟨hd6, hl6, hcar6, _, hlt6, hfalse6⟩ := check_shape hc101
    obtain ⟨e2, s7, he2, h7⟩ := PResult.bind_eq_ok h6
    clear h6
    obtain ⟨u8, s8, he8, h8⟩ := PResult.bind_eq_ok h7
    clear h7
    have hshape7 : s7.document = s6.document ∧ s7.line = s6.line ∧ s6.caret ≤ s7.caret ∧
        (e2 = false → s7 = s6 ∧ s6.caret < s6.document.length) := by
      by_cases he1 : e1 = true
      · rw [if_pos he1] at he2
        cases he2
        exact ⟨rfl, rfl, Nat.le_refl _, fun hx => by cases hx⟩
      · rw [if_neg he1] at he2
        obtain ⟨hd7, hl7, hcar7, _, hlt7, hfalse7⟩ := check_shape he2
        exact ⟨hd7, hl7, hcar7, fun hx => ⟨hfalse7 hx, hlt7⟩⟩
    obtain ⟨hd7, hl7, hcar7, hF7⟩ := hshape7
    have hshape8 : s8.document = s7.document ∧ s8.line = s7.line ∧ s7.caret ≤ s8.caret ∧
        s8.caret < s8.document.length := by
      by_cases he2b : e2 = true
      · rw [if_pos he2b] at he8
        obtain ⟨hd8, hcar8, hl8, hend8⟩ := digitRun_ok he8
        exact ⟨hd8, hl8, hcar8, hend8⟩
      · rw [if_neg he2b] at he8
        cases he8
        obtain ⟨hs7, hlt7⟩ := hF7 (by revert he2b; cases e2 <;> simp)
        subst hs7
        exact ⟨rfl, rfl, Nat.le_refl _, hlt7⟩
    obtain ⟨hd8, hl8, hcar8, hend8⟩ := hshape8
    cases hsl : sliceChk s8.document s.caret s8.caret with
    | some bs =>
      rw [hsl] at h8
      dsimp only at h8
      cases hpf : parseF64 bs with
      | some q =>
        rw [hpf] at h8
        cases h8
        refine ⟨?_, by omega, ?_, hend8⟩
        · rw [hd8, hd7, hd6, hd5, hd4, hd3, hd1]
        · rw [hl8, hl7, hl6, hl5, hl4, hl3, hl1]
      | none =>
        rw [hpf] at h8
        cases h8
    | none =>
      rw [hsl] at h8
      cases h8

theorem stringP_ok {f : Nat} {s t : PState} {r : List Nat}
    (h : stringP f s = .ok r t) :
    t.document = s.document ∧ s.caret + 2 ≤ t.caret ∧ t.line = s.line ∧
      t.caret ≤ t.document.length := by
  unfold stringP at h
  obtain ⟨c, s1, ha, h⟩ := PResult.bind_eq_ok h
  obtain ⟨hs1, hlt, hg⟩ := advance_ok ha
  subst hs1
  obtain ⟨hdoc, hcar, hline, hend⟩ := stringGo_ok h
  dsimp only at hdoc hcar hline
  exact ⟨hdoc, by omega, hline, hend⟩

/-!  ### Out-of-bounds freedom (for claim C9).  -/

theorem PResult.bind_eq_oob {α β : Type} {r : PResult α} {k : α → PState → PResult β}
    (h : r.bind k = .oob) : r = .oob ∨ ∃ a s, r = .ok a s ∧ k a s = .oob := by
  cases r with
  | ok a s => exact Or.inr ⟨a, s, rfl, h⟩
  | err e => cases h
  | abort => cases h
  | oob => exact Or.inl rfl
  | outOfFuel => cases h

theorem peek_ne_oob (s : PState) : peek s ≠ .oob := by
  unfold peek
  split
  · intro h
    cases h
  · intro h
    cases h

theorem advance_ne_oob (s : PState) : advance s ≠ .oob := by
  intro h
  rcases PResult.bind_eq_oob h with hp | ⟨a, t, _, hk⟩
  · exact peek_ne_oob s hp
  · cases hk

theorem check_ne_oob (expected : Nat) (s : PState) : check expected s ≠ .oob := by
  intro h
  rcases PResult.bind_eq_oob h with hp | ⟨a, t, _, hk⟩
  · exact peek_ne_oob s hp
  · revert hk
    split
    · intro hk
      cases hk
    · intro hk
      rcases PResult.bind_eq_oob hk with ha | ⟨a2, t2, _, hk2⟩
      · exact advance_ne_oob t ha
      · cases hk2

theorem skip_whitespace_ne_oob (f : Nat) (s : PState) : skip_whitespace f s ≠ .oob := by
  induction f generalizing s with
  | zero =>
    intro h
    cases h
  | succ f ih =>
    intro h
    unfold skip_whitespace at h
    rcases PResult.bind_eq_oob h with hp | ⟨c, t, _, hk⟩
    · exact peek_ne_oob s hp
    · revert hk
      split
      · exact fun hk => ih _ hk
      · split
        · exact fun hk => ih _ hk
        · split
          · exact fun hk => ih _ hk
          · intro hk
            cases hk

theorem wordGo_ne_oob (full cs : List Nat) (s : PState) : wordGo full cs s ≠ .oob := by
  induction cs generalizing s with
  | nil =>
    intro h
    cases h
  | cons ch rest ih =>
    intro h
    unfold wordGo at h
    rcases PResult.bind_eq_oob h with ha | ⟨c, t, _, hk⟩
    · exact advance_ne_oob s ha
    · revert hk
      split
      · intro hk
        cases hk
      · exact fun hk => ih _ hk

theorem digitRun_ne_oob (f : Nat) (s : PState) : digitRun f s ≠ .oob := by
  induction f generalizing s with
  | zero =>
    intro h
    cases h
  | succ f ih =>
    intro h
    unfold digitRun at h
    rcases PResult.bind_eq_oob h with hp | ⟨c, t, _, hk⟩
    · exact peek_ne_oob s hp
    · revert hk
      split
      · intro hk
        rcases PResult.bind_eq_oob hk with ha | ⟨c2, t2, _, hk2⟩
        · exact advance_ne_oob t ha
        · exact ih _ hk2
      · intro hk
        cases hk

theorem stringGo_ne_oob (f : Nat) {start : Nat} {s : PState} (hle : start ≤ s.caret) :
    stringGo start f s ≠ .oob := by
  induction f generalizing s with
  | zero =>
    intro h
    cases h
  | succ f ih =>
    intro h
    unfold stringGo at h
    rcases PResult.bind_eq_oob h with hc | ⟨b, t, hok, hk⟩
    · exact check_ne_oob 34 s hc
    · obtain ⟨hlt, hsh⟩ := check_ok hok
      revert hk
      cases hsh with
      | inr htrue =>
        obtain ⟨hb, ht, _⟩ := htrue
        subst hb
        subst ht
        simp only [if_true]
        rw [show (s.caret + 1) - 1 = s.caret by omega]
        have hsome : sliceChk s.document start s.caret
            = some ((s.document.drop start).take (s.caret - start)) := by
          unfold sliceChk
          rw [if_pos ⟨hle, Nat.le_of_lt hlt⟩]
        rw [hsome]
        intro hk
        cases hk
      | inl hfalse =>
        obtain ⟨hb, ht, _⟩ := hfalse
        subst hb
        rw [if_neg Bool.false_ne_true]
        intro hk
        rcases PResult.bind_eq_oob hk with hc2 | ⟨b2, t2, hok2, hk2⟩
        · exact check_ne_oob 92 t hc2
        · obtain ⟨hd2, hl2, hcar2, _, _, _⟩ := check_shape hok2
          have htc : t.caret = s.caret := by rw [ht]
          exact ih (by dsimp only; omega) hk2

theorem stringP_ne_oob (f : Nat) (s : PState) : stringP f s ≠ .oob := by
  intro h
  unfold stringP at h
  rcases PResult.bind_eq_oob h with ha | ⟨c, t, hok, hk⟩
  · exact advance_ne_oob s ha
  · exact stringGo_ne_oob f (Nat.le_refl _) hk

theorem number_ne_oob (f : Nat) (s : PState) : number f s ≠ .oob := by
  intro h
  unfold number at h
  rcases PResult.bind_eq_oob h with hc | ⟨b45, s1, hc45, h1⟩
  · exact check_ne_oob 45 s hc
  obtain ⟨hd1, hl1, hcar1, _, _, _⟩ := check_shape hc45
  rcases PResult.bind_eq_oob h1 with hp | ⟨c, s2, hp, h2⟩
  · exact peek_ne_oob s1 hp
  obtain ⟨hs2, hlt2, _⟩ := peek_ok hp
  rw [← hs2] at hlt2
  rcases PResult.bind_eq_oob h2 with hint | ⟨u3, s3, hint, h3⟩
  · revert hint
    split
    · intro hint
      rcases PResult.bind_eq_oob hint with ha | ⟨c2, t2, _, hk2⟩
      · exact advance_ne_oob s2 ha
      · cases hk2
    · exact fun hint => digitRun_ne_oob f s2 hint
  obtain ⟨hd3, hl3, hcar3⟩ := intDigitsShape hint
  rcases PResult.bind_eq_oob h3 with hc46 | ⟨dot, s4, hc46, h4⟩
  · exact check_ne_oob 46 s3 hc46
  obtain ⟨hd4, hl4, hcar4, _, hlt4, hfalse4⟩ := check_shape hc46
  have hcar2 : s.caret ≤ s2.caret := by rw [hs2]; exact hcar1
  revert h4
  by_cases hdot : dot = false
  · rw [if_pos hdot]
    have hs4 : s4 = s3 := hfalse4 hdot
    have hsome : sliceChk s4.document s.caret s4.caret
        = some ((s4.document.drop s.caret).take (s4.caret - s.caret)) := by
      unfold sliceChk
      refine if_pos ⟨?_, ?_⟩
      · omega
      · rw [hs4]
        exact Nat.le_of_lt hlt4
    intro h4
    rw [hsome] at h4
    dsimp only at h4
    cases hpi : parseI64 ((s4.document.drop s.caret).take (s4.caret - s.caret)) with
    | some n =>
      rw [hpi] at h4
      cases h4
    | none =>
      rw [hpi] at h4
      cases h4
  · rw [if_neg hdot]
    intro h4
    rcases PResult.bind_eq_oob h4 with hdr | ⟨u5, s5, hdr5, h5⟩
    · exact digitRun_ne_oob f s4 hdr
    obtain ⟨hd5, hcar5, hl5, hend5⟩ := digitRun_ok hdr5
    rcases PResult.bind_eq_oob h5 with hc101 | ⟨e1, s6, hc101, h6⟩
    · exact check_ne_oob 101 s5 hc101
    obtain ⟨hd6, hl6, hcar6, _, _, hfalse6⟩ := check_shape hc101
    rcases PResult.bind_eq_oob h6 with he2 | ⟨e2, s7, he2, h7⟩
    · revert he2
      by_cases he1 : e1 = true
      · rw [if_pos he1]
        intro he2
        cases he2
      · rw [if_neg he1]
        exact check_ne_oob 69 s6
    have hshape7 : s7.document = s6.document ∧ s6.caret ≤ s7.caret ∧
        (e2 = false → s7 = s6 ∧ s6.caret < s6.document.length) := by
      by_cases he1 : e1 = true
      · rw [if_pos he1] at he2
        cases he2
        exact ⟨rfl, Nat.le_refl _, fun hx => by cases hx⟩
      · rw [if_neg he1] at he2
        obtain ⟨hd7, hl7, hcar7, _, hlt7, hfalse7⟩ := check_shape he2
        exact ⟨hd7, hcar7, fun hx => ⟨hfalse7 hx, hlt7⟩⟩
    obtain ⟨hd7, hcar7, hF7⟩ := hshape7
    rcases PResult.bind_eq_oob h7 with he8 | ⟨u8, s8, he8, h8⟩
    · revert he8
      by_cases he2b : e2 = true
      · rw [if_pos he2b]
        exact digitRun_ne_oob f s7
      · rw [if_neg he2b]
        intro he8
        cases he8
    have hshape8 : s8.document = s7.document ∧ s7.caret ≤ s8.caret ∧
        s8.caret < s8.document.length := by
      by_cases he2b : e2 = true
      · rw [if_pos he2b] at he8
        obtain ⟨hd8, hcar8, hl8, hend8⟩ := digitRun_ok he8
        exact ⟨hd8, hcar8, hend8⟩
      · rw [if_neg he2b] at he8
        cases he8
        obtain ⟨hs7, hlt7⟩ := hF7 (by revert he2b; cases e2 <;> simp)
        subst hs7
        exact ⟨rfl, Nat.le_refl _, hlt7⟩
    obtain ⟨hd8, hcar8, hend8⟩ := hshape8
    have hsome : sliceChk s8.document s.caret s8.caret
        = some ((s8.document.drop s.caret).take (s8.caret - s.caret)) := by
      unfold sliceChk
      refine if_pos ⟨by omega, Nat.le_of_lt hend8⟩
    rw [hsome] at h8
    dsimp only at h8
    cases hpf : parseF64 ((s8.document.drop s.caret).take (s8.caret - s.caret)) with
    | some q =>
      rw [hpf] at h8
      cases h8
    | none =>
      rw [hpf] at h8
      cases h8

theorem parse_ne_oob (f : Nat) :
    (∀ s, parseF f s ≠ .oob) ∧ (∀ acc s, arrayLoopF f acc s ≠ .oob) ∧
      (∀ acc s, dictLoopF f acc s ≠ .oob) := by
  induction f with
  | zero =>
    refine ⟨fun s h => ?_, fun acc s h => ?_, fun acc s h => ?_⟩
    · cases h
    · cases h
    · cases h
  | succ f ih =>
    obtain ⟨ihP, ihA, ihD⟩ := ih
    refine ⟨fun s h => ?_, fun acc s h => ?_, fun acc s h => ?_⟩
    · unfold parseF at h
      rcases PResult.bind_eq_oob h with hws | ⟨u, s1, _, h1⟩
      · exact skip_whitespace_ne_oob f s hws
      rcases PResult.bind_eq_oob h1 with hp | ⟨c, s2, hp, h2⟩
      · exact peek_ne_oob s1 hp
      revert h2
      split
      · intro h2
        rcases PResult.bind_eq_oob h2 with ha | ⟨c2, s3, _, h3⟩
        · exact advance_ne_oob s2 ha
        · exact ihD [] s3 h3
      split
      · intro h2
        rcases PResult.bind_eq_oob h2 with ha | ⟨c2, s3, _, h3⟩
        · exact advance_ne_oob s2 ha
        · exact ihA [] s3 h3
      split
      · intro h2
        rcases PResult.bind_eq_oob h2 with hstr | ⟨r, s3, _, h3⟩
        · exact stringP_ne_oob f s2 hstr
        · cases h3
      split
      · intro h2
        rcases PResult.bind_eq_oob h2 with hw | ⟨u2, s3, _, h3⟩
        · exact wordGo_ne_oob _ _ s2 hw
        · cases h3
      split
      · intro h2
        rcases PResult.bind_eq_oob h2 with hw | ⟨u2, s3, _, h3⟩
        · exact wordGo_ne_oob _ _ s2 hw
        · cases h3
      split
      · intro h2
        rcases PResult.bind_eq_oob h2 with hw | ⟨u2, s3, _, h3⟩
        · exact wordGo_ne_oob _ _ s2 hw
        · cases h3
      · exact fun h2 => number_ne_oob f s2 h2
    · unfold arrayLoopF at h
      rcases PResult.bind_eq_oob h with hws | ⟨u, s1, _, h1⟩
      · exact skip_whitespace_ne_oob f s hws
      rcases PResult.bind_eq_oob h1 with hc | ⟨b, s2, _, h2⟩
      · exact check_ne_oob 93 s1 hc
      revert h2
      split
      · intro h2
        cases h2
      · intro h2
        rcases PResult.bind_eq_oob h2 with hpv | ⟨v, s3, _, h3⟩
        · exact ihP s2 hpv
        rcases PResult.bind_eq_oob h3 with hws2 | ⟨u2, s4, _, h4⟩
        · exact skip_whitespace_ne_oob f s3 hws2
        rcases PResult.bind_eq_oob h4 with hp | ⟨c, s5, _, h5⟩
        · exact peek_ne_oob s4 hp
        revert h5
        split
        · intro h5
          rcases PResult.bind_eq_oob h5 with hc2 | ⟨b2, s6, _, h6⟩
          · exact check_ne_oob 44 s5 hc2
          revert h6
          split
          · intro h6
            cases h6
          · exact fun h6 => ihA _ s6 h6
        · exact fun h5 => ihA _ s5 h5
    · unfold dictLoopF at h
      rcases PResult.bind_eq_oob h with hws | ⟨u, s1, _, h1⟩
      · exact skip_whitespace_ne_oob f s hws
      rcases PResult.bind_eq_oob h1 with hc | ⟨b, s2, _, h2⟩
      · exact check_ne_oob 125 s1 hc
      revert h2
      split
      · intro h2
        cases h2
      · intro h2
        rcases PResult.bind_eq_oob h2 with hp | ⟨c, s3, _, h3⟩
        · exact peek_ne_oob s2 hp
        revert h3
        split
        · intro h3
          cases h3
        · intro h3
          rcases PResult.bind_eq_oob h3 with hstr | ⟨key, s4, _, h4⟩
          · exact stringP_ne_oob f s3 hstr
          rcases PResult.bind_eq_oob h4 with hws2 | ⟨u2, s5, _, h5⟩
          · exact skip_whitespace_ne_oob f s4 hws2
          rcases PResult.bind_eq_oob h5 with hc2 | ⟨colon, s6, _, h6⟩
          · exact check_ne_oob 58 s5 hc2
          revert h6
          split
          · intro h6
            cases h6
          · intro h6
            rcases PResult.bind_eq_oob h6 with hws3 | ⟨u3, s7, _, h7⟩
            · exact skip_whitespace_ne_oob f s6 hws3
            rcases PResult.bind_eq_oob h7 with hpv | ⟨v, s8, _, h8⟩
            · exact ihP s7 hpv
            rcases PResult.bind_eq_oob h8 with hws4 | ⟨u4, s9, _, h9⟩
            · exact skip_whitespace_ne_oob f s8 hws4
            rcases PResult.bind_eq_oob h9 with hp2 | ⟨c2, s10, _, h10⟩
            · exact peek_ne_oob s9 hp2
            revert h10
            split
            · intro h10
              rcases PResult.bind_eq_oob h10 with hc3 | ⟨b3, s11, _, h11⟩
              · exact check_ne_oob 44 s10 hc3
              revert h11
              split
              · intro h11
                cases h11
              · exact fun h11 => ihD _ s11 h11
            · exact fun h10 => ihD _ s10 h10

/-- C9: every raw read of the document is bounds-guarded.  `peek` returns
`UnexpectedEndOfFile` instead of reading when the caret is at or past the
end; the slices taken by string parsing, number parsing, and hence by any
full parse are always within the document's bounds, so no operation ever
reaches the out-of-bounds (index panic) outcome. -/
theorem c9_bounds_safety :
    (∀ s : PState, s.document.length ≤ s.caret →
      peek s = .err ⟨s.line, .unexpectedEndOfFile⟩) ∧
    (∀ f s, stringP f s ≠ .oob) ∧
    (∀ f s, number f s ≠ .oob) ∧
    (∀ f s, parseF f s ≠ .oob) :=
  ⟨fun _ h => peek_of_ge h, stringP_ne_oob, number_ne_oob,
    fun f => (parse_ne_oob f).1⟩

/-- C9 witness: the end-of-input guard concretely (`peek` on the empty
document), plus the no-out-of-bounds conjuncts applied at the document
`"ab` whose string scan steps past the closing quote position. -/
theorem c9_witness :
    peek ⟨0, 0, []⟩ = .err ⟨0, .unexpectedEndOfFile⟩ ∧
    stringP 9 ⟨0, 0, bytes ("\"ab")⟩ ≠ .oob ∧
    parseF 99 ⟨0, 0, bytes ("\"ab\\")⟩ ≠ .oob :=
  ⟨c9_bounds_safety.1 ⟨0, 0, []⟩ (by decide),
    c9_bounds_safety.2.1 9 ⟨0, 0, bytes ("\"ab")⟩,
    c9_bounds_safety.2.2.2 99 ⟨0, 0, bytes ("\"ab\\")⟩⟩

/-!  ### Transport of successful runs to extended documents (claim C10).

A successful run never peeks out of bounds (a failed `peek` propagates as an
error and is never recovered anywhere), so appending bytes on the right of
the document cannot change it.  The lemmas below also absorb fuel
monotonicity: a run that succeeds with the wrapper's fuel succeeds
identically with any larger fuel.  -/

@[simp] theorem extD_document (q : List Nat) (s : PState) :
    (extD q s).document = s.document ++ q := rfl

@[simp] theorem extD_caret (q : List Nat) (s : PState) : (extD q s).caret = s.caret := rfl

@[simp] theorem extD_line (q : List Nat) (s : PState) : (extD q s).line = s.line := rfl

theorem extD_set_caret (q : List Nat) (s : PState) (n : Nat) :
    extD q { s with caret := n } = { extD q s with caret := n } := rfl

theorem peek_ext {q : List Nat} {s : PState} {c : Nat} {t : PState}
    (h : peek s = .ok c t) : peek (extD q s) = .ok c (extD q t) := by
  obtain ⟨ht, hlt, hg⟩ := peek_ok h
  have hlt2 : (extD q s).caret < (extD q s).document.length := by
    simp only [extD_caret, extD_document, List.length_append]
    omega
  rw [peek_of_lt hlt2, ht]
  have hv : (extD q s).document.get ⟨(extD q s).caret, hlt2⟩ = c := by
    have hv2 : s.document.get ⟨s.caret, hlt⟩ = c := by
      rw [List.get?_eq_get hlt] at hg
      exact Option.some.inj hg
    rw [← hv2]
    exact List.get_append s.caret hlt
  rw [hv]

theorem advance_ext {q : List Nat} {s : PState} {c : Nat} {t : PState}
    (h : advance s = .ok c t) : advance (extD q s) = .ok c (extD q t) := by
  unfold advance at h ⊢
  obtain ⟨cp, sp, hp, hk⟩ := PResult.bind_eq_ok h
  rw [peek_ext hp, PResult.bind_ok]
  cases hk
  rfl

theorem check_ext {q : List Nat} {expected : Nat} {s : PState} {b : Bool} {t : PState}
    (h : check expected s = .ok b t) : check expected (extD q s) = .ok b (extD q t) := by
  unfold check at h ⊢
  obtain ⟨cp, sp, hp, hk⟩ := PResult.bind_eq_ok h
  rw [peek_ext hp, PResult.bind_ok]
  revert hk
  split
  · intro hk
    cases hk
    rfl
  · intro hk
    obtain ⟨ca, sa, ha, hk2⟩ := PResult.bind_eq_ok hk
    rw [advance_ext ha, PResult.bind_ok]
    cases hk2
    rfl

theorem skip_whitespace_ext {q : List Nat} {f f' : Nat} (hf : f ≤ f') {s : PState}
    {u : Unit} {t : PState} (h : skip_whitespace f s = .ok u t) :
    skip_whitespace f' (extD q s) = .ok u (extD q t) := by
  induction f generalizing s f' with
  | zero => cases h
  | succ f ih =>
    cases f' with
    | zero => omega
    | succ f' =>
      unfold skip_whitespace at h ⊢
      obtain ⟨c, sp, hp, hk⟩ := PResult.bind_eq_ok h
      rw [peek_ext hp, PResult.bind_ok]
      revert hk
      split
      · intro hk
        exact ih (by omega) hk
      · split
        · intro hk
          exact ih (by omega) hk
        · split
          · intro hk
            exact ih (by omega) hk
          · intro hk
            cases hk
            rfl

theorem wordGo_ext {q full : List Nat} {cs : List Nat} {s : PState} {u : Unit} {t : PState}
    (h : wordGo full cs s = .ok u t) : wordGo full cs (extD q s) = .ok u (extD q t) := by
  induction cs generalizing s with
  | nil =>
    cases h
    rfl
  | cons ch rest ih =>
    unfold wordGo at h ⊢
    obtain ⟨c, sp, ha, hk⟩ := PResult.bind_eq_ok h
    rw [advance_ext ha, PResult.bind_ok]
    revert hk
    split
    · intro hk
      cases hk
    · intro hk
      exact ih hk

theorem word_ext {q full : List Nat} {s : PState} {u : Unit} {t : PState}
    (h : word full s = .ok u t) : word full (extD q s) = .ok u (extD q t) :=
  wordGo_ext h

theorem digitRun_ext {q : List Nat} {f f' : Nat} (hf : f ≤ f') {s : PState}
    {u : Unit} {t : PState} (h : digitRun f s = .ok u t) :
    digitRun f' (extD q s) = .ok u (extD q t) := by
  induction f generalizing s f' with
  | zero => cases h
  | succ f ih =>
    cases f' with
    | zero => omega
    | succ f' =>
      unfold digitRun at h ⊢
      obtain ⟨c, sp, hp, hk⟩ := PResult.bind_eq_ok h
      rw [peek_ext hp, PResult.bind_ok]
      revert hk
      split
      · intro hk
        obtain ⟨ca, sa, ha, hk2⟩ := PResult.bind_eq_ok hk
        rw [advance_ext ha, PResult.bind_ok]
        exact ih (by omega) hk2
      · intro hk
        cases hk
        rfl

theorem sliceChk_ext {q d : List Nat} {a b : Nat} {r : List Nat}
    (h : sliceChk d a b = some r) : sliceChk (d ++ q) a b = some r := by
  unfold sliceChk at h ⊢
  by_cases hab : a ≤ b ∧ b ≤ d.length
  · rw [if_pos hab] at h
    rw [if_pos ⟨hab.1, by rw [List.length_append]; omega⟩]
    rw [List.drop_append_of_le_length (by omega),
      List.take_append_of_le_length (by rw [List.length_drop]; omega)]
    exact h
  · rw [if_neg hab] at h
    cases h

theorem stringGo_ext {q : List Nat} {start f f' : Nat} (hf : f ≤ f') {s : PState}
    {r : List Nat} {t : PState} (h : stringGo start f s = .ok r t) :
    stringGo start f' (extD q s) = .ok r (extD q t) := by
  induction f generalizing s f' with
  | zero => cases h
  | succ f ih =>
    cases f' with
    | zero => omega
    | succ f' =>
      unfold stringGo at h ⊢
      obtain ⟨b, sp, hc, hk⟩ := PResult.bind_eq_ok h
      rw [check_ext hc, PResult.bind_ok]
      revert hk
      split
      · intro hk
        cases hsl : sliceChk sp.document start (sp.caret - 1) with
        | some content =>
          rw [hsl] at hk
          cases hk
          have hsl2 : sliceChk (extD q t).document start ((extD q t).caret - 1)
              = some r := sliceChk_ext hsl
          rw [hsl2]
        | none =>
          rw [hsl] at hk
          cases hk
      · intro hk
        obtain ⟨b2, s2, hc2, hk2⟩ := PResult.bind_eq_ok hk
        rw [check_ext hc2, PResult.bind_ok]
        exact ih (by omega) hk2

theorem stringP_ext {q : List Nat} {f f' : Nat} (hf : f ≤ f') {s : PState}
    {r : List Nat} {t : PState} (h : stringP f s = .ok r t) :
    stringP f' (extD q s) = .ok r (extD q t) := by
  unfold stringP at h ⊢
  obtain ⟨c, sp, ha, hk⟩ := PResult.bind_eq_ok h
  rw [advance_ext ha, PResult.bind_ok]
  exact stringGo_ext hf hk

theorem number_ext {q : List Nat} {f f' : Nat} (hf : f ≤ f') {s : PState}
    {v : Value} {t : PState} (h : number f s = .ok v t) :
    number f' (extD q s) = .ok v (extD q t) := by
  unfold number at h ⊢
  obtain ⟨b45, s1, hc45, h1⟩ := PResult.bind_eq_ok h
  clear h
  rw [check_ext hc45, PResult.bind_ok]
  obtain ⟨c, s2, hp, h2⟩ := PResult.bind_eq_ok h1
  clear h1
  rw [peek_ext hp, PResult.bind_ok]
  obtain ⟨u3, s3, hint, h3⟩ := PResult.bind_eq_ok h2
  clear h2
  have hint2 : (if c = 48 then (advance (extD q s2)).bind fun _ t => PResult.ok () t
      else digitRun f' (extD q s2)) = .ok u3 (extD q s3) := by
    revert hint
    split
    · intro hint
      obtain ⟨c2, s9, ha, hk⟩ := PResult.bind_eq_ok hint
      rw [advance_ext ha, PResult.bind_ok]
      cases hk
      rfl
    · intro hint
      exact digitRun_ext hf hint
  rw [hint2, PResult.bind_ok]
  obtain ⟨dot, s4, hc46, h4⟩ := PResult.bind_eq_ok h3
  clear h3
  rw [check_ext hc46, PResult.bind_ok]
  revert h4
  by_cases hdot : dot = false
  · rw [if_pos hdot, if_pos hdot]
    intro h4
    cases hsl : sliceChk s4.document s.caret s4.caret with
    | some bs =>
      rw [hsl] at h4
      dsimp only at h4
      rw [show (extD q s4).document = s4.document ++ q from rfl,
        show (extD q s4).caret = s4.caret from rfl,
        show (extD q s).caret = s.caret from rfl, sliceChk_ext hsl]
      dsimp only
      cases hpi : parseI64 bs with
      | some n =>
        rw [hpi] at h4
        cases h4
        rfl
      | none =>
        rw [hpi] at h4
        cases h4
    | none =>
      rw [hsl] at h4
      cases h4
  · rw [if_neg hdot, if_neg hdot]
    intro h4
    obtain ⟨u5, s5, hdr5, h5⟩ := PResult.bind_eq_ok h4
    clear h4
    rw [digitRun_ext hf hdr5, PResult.bind_ok]
    obtain ⟨e1, s6, hc101, h6⟩ := PResult.bind_eq_ok h5
    clear h5
    rw [check_ext hc101, PResult.bind_ok]
    obtain ⟨e2, s7, he2, h7⟩ := PResult.bind_eq_ok h6
    clear h6
    have he2b : (if e1 = true then PResult.ok true (extD q s6) else check 69 (extD q s6))
        = .ok e2 (extD q s7) := by
      revert he2
      split
      · intro he2
        cases he2
        rfl
      · intro he2
        exact check_ext he2
    rw [he2b, PResult.bind_ok]
    obtain ⟨u8, s8, he8, h8⟩ := PResult.bind_eq_ok h7
    clear h7
    have he8b : (if e2 = true then digitRun f' (extD q s7) else PResult.ok () (extD q s7))
        = .ok u8 (extD q s8) := by
      revert he8
      split
      · intro he8
        exact digitRun_ext hf he8
      · intro he8
        cases he8
        rfl
    rw [he8b, PResult.bind_ok]
    cases hsl : sliceChk s8.document s.caret s8.caret with
    | some bs =>
      rw [hsl] at h8
      dsimp only at h8
      rw [show (extD q s8).document = s8.document ++ q from rfl,
        show (extD q s8).caret = s8.caret from rfl,
        show (extD q s).caret = s.caret from rfl, sliceChk_ext hsl]
      dsimp only
      cases hpf : parseF64 bs with
      | some qv =>
        rw [hpf] at h8
        cases h8
        rfl
      | none =>
        rw [hpf] at h8
        cases h8
    | none =>
      rw [hsl] at h8
      cases h8

theorem parse_ext (q : List Nat) (f : Nat) :
    (∀ f', f ≤ f' → ∀ s v t, parseF f s = .ok v t →
      parseF f' (extD q s) = .ok v (extD q t)) ∧
    (∀ f', f ≤ f' → ∀ acc s v t, arrayLoopF f acc s = .ok v t →
      arrayLoopF f' acc (extD q s) = .ok v (extD q t)) ∧
    (∀ f', f ≤ f' → ∀ acc s v t, dictLoopF f acc s = .ok v t →
      dictLoopF f' acc (extD q s) = .ok v (extD q t)) := by
  induction f with
  | zero =>
    refine ⟨fun _ _ _ _ _ h => ?_, fun _ _ _ _ _ _ h => ?_, fun _ _ _ _ _ _ h => ?_⟩
    · cases h
    · cases h
    · cases h
  | succ f ih =>
    obtain ⟨ihP, ihA, ihD⟩ := ih
    refine ⟨?_, ?_, ?_⟩
    · intro f' hf s v t h
      cases f' with
      | zero => omega
      | succ f' =>
        unfold parseF at h ⊢
        obtain ⟨u, s1, hws, h1⟩ := PResult.bind_eq_ok h
        clear h
        rw [skip_whitespace_ext (by omega) hws, PResult.bind_ok]
        obtain ⟨c, s2, hp, h2⟩ := PResult.bind_eq_ok h1
        clear h1
        rw [peek_ext hp, PResult.bind_ok]
        by_cases h123 : c = 123
        · rw [if_pos h123] at h2 ⊢
          obtain ⟨c2, s3, ha, h3⟩ := PResult.bind_eq_ok h2
          rw [advance_ext ha, PResult.bind_ok]
          exact ihD f' (by omega) [] s3 v t h3
        rw [if_neg h123] at h2 ⊢
        by_cases h91 : c = 91
        · rw [if_pos h91] at h2 ⊢
          obtain ⟨c2, s3, ha, h3⟩ := PResult.bind_eq_ok h2
          rw [advance_ext ha, PResult.bind_ok]
          exact ihA f' (by omega) [] s3 v t h3
        rw [if_neg h91] at h2 ⊢
        by_cases h34 : c = 34
        · rw [if_pos h34] at h2 ⊢
          obtain ⟨str, s3, hstr, h3⟩ := PResult.bind_eq_ok h2
          rw [stringP_ext (by omega) hstr, PResult.bind_ok]
          cases h3
          rfl
        rw [if_neg h34] at h2 ⊢
        by_cases h116 : c = 116
        · rw [if_pos h116] at h2 ⊢
          obtain ⟨u2, s3, hw, h3⟩ := PResult.bind_eq_ok h2
          rw [word_ext hw, PResult.bind_ok]
          cases h3
          rfl
        rw [if_neg h116] at h2 ⊢
        by_cases h102 : c = 102
        · rw [if_pos h102] at h2 ⊢
          obtain ⟨u2, s3, hw, h3⟩ := PResult.bind_eq_ok h2
          rw [word_ext hw, PResult.bind_ok]
          cases h3
          rfl
        rw [if_neg h102] at h2 ⊢
        by_cases h110 : c = 110
        · rw [if_pos h110] at h2 ⊢
          obtain ⟨u2, s3, hw, h3⟩ := PResult.bind_eq_ok h2
          rw [word_ext hw, PResult.bind_ok]
          cases h3
          rfl
        rw [if_neg h110] at h2 ⊢
        exact number_ext (by omega) h2
    · intro f' hf acc s v t h
      cases f' with
      | zero => omega
      | succ f' =>
        unfold arrayLoopF at h ⊢
        obtain ⟨u, s1, hws, h1⟩ := PResult.bind_eq_ok h
        clear h
        rw [skip_whitespace_ext (by omega) hws, PResult.bind_ok]
        obtain ⟨b, s2, hcb, h2⟩ := PResult.bind_eq_ok h1
        clear h1
        rw [check_ext hcb, PResult.bind_ok]
        by_cases hb : b = true
        · subst hb
          rw [if_pos rfl] at h2 ⊢
          cases h2
          rfl
        rw [if_neg hb] at h2 ⊢
        obtain ⟨v1, s3, hpv, h3⟩ := PResult.bind_eq_ok h2
        clear h2
        rw [ihP f' (by omega) s2 v1 s3 hpv, PResult.bind_ok]
        obtain ⟨u2, s4, hws2, h4⟩ := PResult.bind_eq_ok h3
        clear h3
        rw [skip_whitespace_ext (by omega) hws2, PResult.bind_ok]
        obtain ⟨c, s5, hp, h5⟩ := PResult.bind_eq_ok h4
        clear h4
        rw [peek_ext hp, PResult.bind_ok]
        by_cases hne : c ≠ 93
        · rw [if_pos hne] at h5 ⊢
          obtain ⟨b2, s6, hcb2, h6⟩ := PResult.bind_eq_ok h5
          rw [check_ext hcb2, PResult.bind_ok]
          by_cases hb2 : b2 = false
          · rw [if_pos hb2] at h6
            cases h6
          · rw [if_neg hb2] at h6 ⊢
            exact ihA f' (by omega) _ s6 v t h6
        · rw [if_neg hne] at h5 ⊢
          exact ihA f' (by omega) _ s5 v t h5
    · intro f' hf acc s v t h
      cases f' with
      | zero => omega
      | succ f' =>
        unfold dictLoopF at h ⊢
        obtain ⟨u, s1, hws, h1⟩ := PResult.bind_eq_ok h
        clear h
        rw [skip_whitespace_ext (by omega) hws, PResult.bind_ok]
        obtain ⟨b, s2, hcb, h2⟩ := PResult.bind_eq_ok h1
        clear h1
        rw [check_ext hcb, PResult.bind_ok]
        by_cases hb : b = true
        · subst hb
          rw [if_pos rfl] at h2 ⊢
          cases h2
          rfl
        rw [if_neg hb] at h2 ⊢
        obtain ⟨c, s3, hp, h3⟩ := PResult.bind_eq_ok h2
        clear h2
        rw [peek_ext hp, PResult.bind_ok]
        by_cases hkey : bitnot8 c = 34
        · rw [if_pos hkey] at h3
          cases h3
        rw [if_neg hkey] at h3 ⊢
        obtain ⟨key, s4, hstr, h4⟩ := PResult.bind_eq_ok h3
        clear h3
        rw [stringP_ext (by omega) hstr, PResult.bind_ok]
        obtain ⟨u2, s5, hws2, h5⟩ := PResult.bind_eq_ok h4
        clear h4
        rw [skip_whitespace_ext (by omega) hws2, PResult.bind_ok]
        obtain ⟨colon, s6, hcol, h6⟩ := PResult.bind_eq_ok h5
        clear h5
        rw [check_ext hcol, PResult.bind_ok]
        by_cases hcolf : colon = false
        · rw [if_pos hcolf] at h6
          cases h6
        rw [if_neg hcolf] at h6 ⊢
        obtain ⟨u3, s7, hws3, h7⟩ := PResult.bind_eq_ok h6
        clear h6
        rw [skip_whitespace_ext (by omega) hws3, PResult.bind_ok]
        obtain ⟨v1, s8, hpv, h8⟩ := PResult.bind_eq_ok h7
        clear h7
        rw [ihP f' (by omega) s7 v1 s8 hpv, PResult.bind_ok]
        obtain ⟨u4, s9, hws4, h9⟩ := PResult.bind_eq_ok h8
        clear h8
        rw [skip_whitespace_ext (by omega) hws4, PResult.bind_ok]
        obtain ⟨c2, s10, hp2, h10⟩ := PResult.bind_eq_ok h9
        clear h9
        rw [peek_ext hp2, PResult.bind_ok]
        by_cases hne : c2 ≠ 125
        · rw [if_pos hne] at h10 ⊢
          obtain ⟨b3, s11, hcb3, h11⟩ := PResult.bind_eq_ok h10
          rw [check_ext hcb3, PResult.bind_ok]
          by_cases hb3 : b3 = false
          · rw [if_pos hb3] at h11
            cases h11
          · rw [if_neg hb3] at h11 ⊢
            exact ihD f' (by omega) _ s11 v t h11
        · rw [if_neg hne] at h10 ⊢
          exact ihD f' (by omega) _ s10 v t h10

/-!  ### Prefix runs (claim C7).

Running the parser on a prefix `p` of a longer document `p ++ q` mirrors
the longer run byte for byte until the first `peek` beyond `p`; at that
moment the prefix run returns `UnexpectedEndOfFile`, and — since every call
site propagates errors unchanged with `?` — that exact error becomes the
final result.  `Brel` (defined above) captures this: if the extended run
succeeds, the prefix run either succeeds identically or fails with
`UnexpectedEndOfFile` — never with another error kind, a panic, or fuel
exhaustion.  -/

theorem Brel.pure {q : List Nat} {α : Type} (a : α) (t : PState) :
    Brel q (.ok a t) (.ok a (extD q t)) := by
  intro a2 t2 h
  cases h
  exact Or.inl ⟨t, rfl, rfl⟩

theorem Brel.not_ok {q : List Nat} {α : Type} {base ext : PResult α}
    (h : ∀ a t, ext ≠ .ok a t) : Brel q base ext := by
  intro a t hok
  exact absurd hok (h a t)

theorem Brel.bindS {q : List Nat} {α β : Type} {b e : PResult α}
    {k1 : α → PState → PResult β} {k2 : α → PState → PResult β}
    (h1 : Brel q b e)
    (h2 : ∀ a t2, b = .ok a t2 → Brel q (k1 a t2) (k2 a (extD q t2))) :
    Brel q (b.bind k1) (e.bind k2) := by
  intro a t hok
  cases e with
  | ok x te =>
    rw [PResult.bind_ok] at hok
    rcases h1 x te rfl with ⟨t2, hb, hte⟩ | ⟨n, hb⟩
    · rw [hb, PResult.bind_ok]
      subst hte
      exact h2 x t2 hb a t hok
    · rw [hb]
      exact Or.inr ⟨n, rfl⟩
  | err e2 => cases hok
  | abort => cases hok
  | oob => cases hok
  | outOfFuel => cases hok

theorem peek_pre (q : List Nat) (s : PState) : Brel q (peek s) (peek (extD q s)) := by
  intro a t h
  by_cases hlt : s.caret < s.document.length
  · obtain ⟨ht, _, hg⟩ := peek_ok (peek_of_lt hlt)
    rcases peek_ok h with ⟨ht2, hlt2, hg2⟩
    subst ht2
    refine Or.inl ⟨s, ?_, rfl⟩
    have : (extD q s).document.get? (extD q s).caret = s.document.get? s.caret := by
      simp only [extD_document, extD_caret]
      rw [List.get?_eq_get hlt]
      rw [List.get?_eq_get (show s.caret < (s.document ++ q).length by
        rw [List.length_append]; omega)]
      rw [show (s.document ++ q).get ⟨s.caret, _⟩ = s.document.get ⟨s.caret, hlt⟩ from
        List.get_append s.caret hlt]
    rw [this] at hg2
    rw [peek_of_lt hlt]
    have hv : s.document.get ⟨s.caret, hlt⟩ = a := by
      rw [List.get?_eq_get hlt] at hg2
      exact Option.some.inj hg2
    rw [hv]
  · exact Or.inr ⟨s.line, peek_of_ge (Nat.le_of_not_lt hlt)⟩

theorem advance_pre (q : List Nat) (s : PState) :
    Brel q (advance s) (advance (extD q s)) := by
  unfold advance
  exact Brel.bindS (peek_pre q s) (fun c t2 _ => Brel.pure c { t2 with caret := t2.caret + 1 })

theorem check_pre (q : List Nat) (expected : Nat) (s : PState) :
    Brel q (check expected s) (check expected (extD q s)) := by
  unfold check
  refine Brel.bindS (peek_pre q s) (fun c t2 _ => ?_)
  by_cases hc : c ≠ expected
  · rw [if_pos hc, if_pos hc]
    exact Brel.pure false t2
  · rw [if_neg hc, if_neg hc]
    exact Brel.bindS (advance_pre q t2) (fun c2 t3 _ => Brel.pure true t3)

theorem skip_whitespace_pre (q : List Nat) (f : Nat) (s : PState) :
    Brel q (skip_whitespace f s) (skip_whitespace f (extD q s)) := by
  induction f generalizing s with
  | zero => exact Brel.not_ok (fun a t h => by cases h)
  | succ f ih =>
    unfold skip_whitespace
    refine Brel.bindS (peek_pre q s) (fun c t2 _ => ?_)
    by_cases h32 : c = 32
    · rw [if_pos h32, if_pos h32]
      exact ih _
    rw [if_neg h32, if_neg h32]
    by_cases h9 : c = 9
    · rw [if_pos h9, if_pos h9]
      exact ih _
    rw [if_neg h9, if_neg h9]
    by_cases h10 : c = 10
    · rw [if_pos h10, if_pos h10]
      exact ih _
    rw [if_neg h10, if_neg h10]
    exact Brel.pure () t2

theorem wordGo_pre (q full : List Nat) (cs : List Nat) (s : PState) :
    Brel q (wordGo full cs s) (wordGo full cs (extD q s)) := by
  induction cs generalizing s with
  | nil => exact Brel.pure () s
  | cons ch rest ih =>
    unfold wordGo
    refine Brel.bindS (advance_pre q s) (fun c t2 _ => ?_)
    by_cases hc : c ≠ ch
    · rw [if_pos hc, if_pos hc]
      exact Brel.not_ok (fun a t h => by cases h)
    · rw [if_neg hc, if_neg hc]
      exact ih _

theorem digitRun_pre (q : List Nat) (f : Nat) (s : PState) :
    Brel q (digitRun f s) (digitRun f (extD q s)) := by
  induction f generalizing s with
  | zero => exact Brel.not_ok (fun a t h => by cases h)
  | succ f ih =>
    unfold digitRun
    refine Brel.bindS (peek_pre q s) (fun c t2 _ => ?_)
    by_cases hd : isDigit c = true
    · rw [if_pos hd, if_pos hd]
      exact Brel.bindS (advance_pre q t2) (fun c2 t3 _ => ih _)
    · rw [if_neg hd, if_neg hd]
      exact Brel.pure () t2

theorem sliceChk_pre {q d : List Nat} {a b : Nat} {r : List Nat} (hb : b ≤ d.length)
    (h : sliceChk (d ++ q) a b = some r) : sliceChk d a b = some r := by
  unfold sliceChk at h ⊢
  by_cases hab : a ≤ b
  · rw [if_pos ⟨hab, by rw [List.length_append]; omega⟩] at h
    rw [if_pos ⟨hab, hb⟩]
    rw [List.drop_append_of_le_length (by omega),
      List.take_append_of_le_length (by rw [List.length_drop]; omega)] at h
    exact h
  · rw [if_neg (fun hx => hab hx.1)] at h
    cases h

theorem stringGo_pre (q : List Nat) (start f : Nat) (s : PState) :
    Brel q (stringGo start f s) (stringGo start f (extD q s)) := by
  induction f generalizing s with
  | zero => exact Brel.not_ok (fun a t h => by cases h)
  | succ f ih =>
    unfold stringGo
    refine Brel.bindS (check_pre q 34 s) (fun b t2 hb => ?_)
    by_cases hbt : b = true
    · subst hbt
      rw [if_pos rfl, if_pos rfl]
      obtain ⟨hlt, hsh⟩ := check_ok hb
      intro a t h
      rcases hsh with ⟨hfb, _, _⟩ | ⟨_, ht2, _⟩
      · cases hfb
      · subst ht2
        cases hsl : sliceChk ((extD q s).document) start ((extD q s).caret + 1 - 1) with
        | some content =>
          rw [show extD q { s with caret := s.caret + 1 }
              = { extD q s with caret := (extD q s).caret + 1 } from rfl] at h
          rw [hsl] at h
          cases h
          have hsl2 : sliceChk s.document start (s.caret + 1 - 1) = some a := by
            refine sliceChk_pre ?_ hsl
            omega
          rw [show ({ s with caret := s.caret + 1 } : PState).document = s.document
            from rfl, show ({ s with caret := s.caret + 1 } : PState).caret = s.caret + 1
            from rfl, hsl2]
          exact Or.inl ⟨{ s with caret := s.caret + 1 }, rfl, rfl⟩
        | none =>
          rw [show extD q { s with caret := s.caret + 1 }
              = { extD q s with caret := (extD q s).caret + 1 } from rfl] at h
          rw [hsl] at h
          cases h
    · rw [if_neg hbt, if_neg hbt]
      exact Brel.bindS (check_pre q 92 t2) (fun b2 t3 _ => ih _)

theorem stringP_pre (q : List Nat) (f : Nat) (s : PState) :
    Brel q (stringP f s) (stringP f (extD q s)) := by
  unfold stringP
  exact Brel.bindS (advance_pre q s) (fun c t2 _ => stringGo_pre q t2.caret f t2)

theorem number_pre (q : List Nat) (f : Nat) (s : PState) :
    Brel q (number f s) (number f (extD q s)) := by
  unfold number
  refine Brel.bindS (check_pre q 45 s) (fun b45 s1 hc45 => ?_)
  refine Brel.bindS (peek_pre q s1) (fun c s2 hp => ?_)
  refine Brel.bindS ?_ (fun u3 s3 hint => ?_)
  · by_cases h48 : c = 48
    · rw [if_pos h48, if_pos h48]
      exact Brel.bindS (advance_pre q s2) (fun c2 t _ => Brel.pure () t)
    · rw [if_neg h48, if_neg h48]
      exact digitRun_pre q f s2
  refine Brel.bindS (check_pre q 46 s3) (fun dot s4 hc46 => ?_)
  by_cases hdot : dot = false
  · rw [if_pos hdot, if_pos hdot]
    obtain ⟨_, _, _, _, hlt4, hfalse4⟩ := check_shape hc46
    have hs4 : s4 = s3 := hfalse4 hdot
    intro a t h
    cases hsl : sliceChk ((extD q s4).document) (extD q s).caret ((extD q s4).caret) with
    | some bs =>
      rw [hsl] at h
      dsimp only at h
      have hsl2 : sliceChk s4.document s.caret s4.caret = some bs := by
        refine sliceChk_pre ?_ hsl
        rw [hs4]
        exact Nat.le_of_lt hlt4
      rw [show (extD q s4).document = s4.document ++ q from rfl] at hsl
      rw [hsl2]
      dsimp only
      cases hpi : parseI64 bs with
      | some n =>
        rw [hpi] at h
        cases h
        exact Or.inl ⟨s4, rfl, rfl⟩
      | none =>
        rw [hpi] at h
        cases h
    | none =>
      rw [hsl] at h
      cases h
  · rw [if_neg hdot, if_neg hdot]
    refine Brel.bindS (digitRun_pre q f s4) (fun u5 s5 hdr => ?_)
    refine Brel.bindS (check_pre q 101 s5) (fun e1 s6 hc101 => ?_)
    refine Brel.bindS ?_ (fun e2 s7 he2 => ?_)
    · by_cases he1 : e1 = true
      · rw [if_pos he1, if_pos he1]
        exact Brel.pure true s6
      · rw [if_neg he1, if_neg he1]
        exact check_pre q 69 s6
    refine Brel.bindS ?_ (fun u8 s8 he8 => ?_)
    · by_cases he2b : e2 = true
      · rw [if_pos he2b, if_pos he2b]
        exact digitRun_pre q f s7
      · rw [if_neg he2b, if_neg he2b]
        exact Brel.pure () s7
    have hend8 : s8.caret ≤ s8.document.length := by
      by_cases he2b : e2 = true
      · rw [if_pos he2b] at he8
        obtain ⟨_, _, _, hend⟩ := digitRun_ok he8
        exact Nat.le_of_lt hend
      · rw [if_neg he2b] at he8
        cases he8
        by_cases he1 : e1 = true
        · rw [if_pos he1] at he2
          cases he2
          exact absurd rfl he2b
        · rw [if_neg he1] at he2
          obtain ⟨hd7, _, _, _, hlt7, hfalse7⟩ := check_shape he2
          have hs7 : s7 = s6 := hfalse7 (by revert he2b; cases e2 <;> simp)
          rw [hs7]
          exact Nat.le_of_lt hlt7
    intro a t h
    cases hsl : sliceChk ((extD q s8).document) ((extD q s).caret) ((extD q s8).caret) with
    | some bs =>
      rw [hsl] at h
      dsimp only at h
      have hsl2 : sliceChk s8.document s.caret s8.caret = some bs :=
        sliceChk_pre hend8 hsl
      rw [hsl2]
      dsimp only
      cases hpf : parseF64 bs with
      | some qv =>
        rw [hpf] at h
        cases h
        exact Or.inl ⟨s8, rfl, rfl⟩
      | none =>
        rw [hpf] at h
        cases h
    | none =>
      rw [hsl] at h
      cases h

theorem word_pre (q full : List Nat) (s : PState) :
    Brel q (word full s) (word full (extD q s)) :=
  wordGo_pre q full full s

theorem parse_pre (q : List Nat) (f : Nat) :
    (∀ s, Brel q (parseF f s) (parseF f (extD q s))) ∧
    (∀ acc s, Brel q (arrayLoopF f acc s) (arrayLoopF f acc (extD q s))) ∧
    (∀ acc s, Brel q (dictLoopF f acc s) (dictLoopF f acc (extD q s))) := by
  induction f with
  | zero =>
    exact ⟨fun s => Brel.not_ok (fun a t h => by cases h),
      fun acc s => Brel.not_ok (fun a t h => by cases h),
      fun acc s => Brel.not_ok (fun a t h => by cases h)⟩
  | succ f ih =>
    obtain ⟨ihP, ihA, ihD⟩ := ih
    refine ⟨fun s => ?_, fun acc s => ?_, fun acc s => ?_⟩
    · unfold parseF
      refine Brel.bindS (skip_whitespace_pre q f s) (fun u s1 _ => ?_)
      refine Brel.bindS (peek_pre q s1) (fun c s2 _ => ?_)
      by_cases h123 : c = 123
      · rw [if_pos h123, if_pos h123]
        exact Brel.bindS (advance_pre q s2) (fun c2 s3 _ => ihD [] s3)
      rw [if_neg h123, if_neg h123]
      by_cases h91 : c = 91
      · rw [if_pos h91, if_pos h91]
        exact Brel.bindS (advance_pre q s2) (fun c2 s3 _ => ihA [] s3)
      rw [if_neg h91, if_neg h91]
      by_cases h34 : c = 34
      · rw [if_pos h34, if_pos h34]
        exact Brel.bindS (stringP_pre q f s2)
          (fun str s3 _ => Brel.pure (Value.string str) s3)
      rw [if_neg h34, if_neg h34]
      by_cases h116 : c = 116
      · rw [if_pos h116, if_pos h116]
        exact Brel.bindS (word_pre q (bytes ("true")) s2)
          (fun u2 s3 _ => Brel.pure (Value.boolean true) s3)
      rw [if_neg h116, if_neg h116]
      by_cases h102 : c = 102
      · rw [if_pos h102, if_pos h102]
        exact Brel.bindS (word_pre q (bytes ("false")) s2)
          (fun u2 s3 _ => Brel.pure (Value.boolean false) s3)
      rw [if_neg h102, if_neg h102]
      by_cases h110 : c = 110
      · rw [if_pos h110, if_pos h110]
        exact Brel.bindS (word_pre q (bytes ("null")) s2)
          (fun u2 s3 _ => Brel.pure Value.null s3)
      rw [if_neg h110, if_neg h110]
      exact number_pre q f s2
    · unfold arrayLoopF
      refine Brel.bindS (skip_whitespace_pre q f s) (fun u s1 _ => ?_)
      refine Brel.bindS (check_pre q 93 s1) (fun b s2 _ => ?_)
      by_cases hb : b = true
      · subst hb
        rw [if_pos rfl, if_pos rfl]
        exact Brel.pure (Value.array acc) s2
      rw [if_neg hb, if_neg hb]
      refine Brel.bindS (ihP s2) (fun v s3 _ => ?_)
      refine Brel.bindS (skip_whitespace_pre q f s3) (fun u2 s4 _ => ?_)
      refine Brel.bindS (peek_pre q s4) (fun c s5 _ => ?_)
      by_cases hne : c ≠ 93
      · rw [if_pos hne, if_pos hne]
        refine Brel.bindS (check_pre q 44 s5) (fun b2 s6 _ => ?_)
        by_cases hb2 : b2 = false
        · rw [if_pos hb2, if_pos hb2]
          exact Brel.not_ok (fun a t h => by cases h)
        · rw [if_neg hb2, if_neg hb2]
          exact ihA _ s6
      · rw [if_neg hne, if_neg hne]
        exact ihA _ s5
    · unfold dictLoopF
      refine Brel.bindS (skip_whitespace_pre q f s) (fun u s1 _ => ?_)
      refine Brel.bindS (check_pre q 125 s1) (fun b s2 _ => ?_)
      by_cases hb : b = true
      · subst hb
        rw [if_pos rfl, if_pos rfl]
        exact Brel.pure (Value.dict acc) s2
      rw [if_neg hb, if_neg hb]
      refine Brel.bindS (peek_pre q s2) (fun c s3 _ => ?_)
      by_cases hkey : bitnot8 c = 34
      · rw [if_pos hkey, if_pos hkey]
        exact Brel.not_ok (fun a t h => by cases h)
      rw [if_neg hkey, if_neg hkey]
      refine Brel.bindS (stringP_pre q f s3) (fun key s4 _ => ?_)
      refine Brel.bindS (skip_whitespace_pre q f s4) (fun u2 s5 _ => ?_)
      refine Brel.bindS (check_pre q 58 s5) (fun colon s6 _ => ?_)
      by_cases hcolf : colon = false
      · rw [if_pos hcolf, if_pos hcolf]
        exact Brel.not_ok (fun a t h => by cases h)
      rw [if_neg hcolf, if_neg hcolf]
      refine Brel.bindS (skip_whitespace_pre q f s6) (fun u3 s7 _ => ?_)
      refine Brel.bindS (ihP s7) (fun v s8 _ => ?_)
      refine Brel.bindS (skip_whitespace_pre q f s8) (fun u4 s9 _ => ?_)
      refine Brel.bindS (peek_pre q s9) (fun c2 s10 _ => ?_)
      by_cases hne : c2 ≠ 125
      · rw [if_pos hne, if_pos hne]
        refine Brel.bindS (check_pre q 44 s10) (fun b3 s11 _ => ?_)
        by_cases hb3 : b3 = false
        · rw [if_pos hb3, if_pos hb3]
          exact Brel.not_ok (fun a t h => by cases h)
        · rw [if_neg hb3, if_neg hb3]
          exact ihD _ s11
      · rw [if_neg hne, if_neg hne]
        exact ihD _ s10

/-!  ### Positional scanner lemmas (forward computation on a document of
the form `pre ++ suffix` with the caret at `pre.length`), used for the
parser-completeness half of claim C3.  -/

theorem length_mid (pre : List Nat) (c : Nat) (rest : List Nat) :
    pre.length < (pre ++ c :: rest).length := by
  rw [List.length_append]
  simp

theorem get_mid (pre : List Nat) (c : Nat) (rest : List Nat) :
    (pre ++ c :: rest).get ⟨pre.length, length_mid pre c rest⟩ = c := by
  rw [List.get_eq_getElem]
  rw [List.getElem_append_right (Nat.le_refl pre.length)]
  simp

theorem peek_mid (line : Nat) (pre : List Nat) (c : Nat) (rest : List Nat) :
    peek ⟨line, pre.length, pre ++ c :: rest⟩
      = .ok c ⟨line, pre.length, pre ++ c :: rest⟩ := by
  rw [peek_of_lt (length_mid pre c rest)]
  rw [show (⟨line, pre.length, pre ++ c :: rest⟩ : PState).document.get
      ⟨(⟨line, pre.length, pre ++ c :: rest⟩ : PState).caret, length_mid pre c rest⟩
    = c from get_mid pre c rest]

theorem advance_mid (line : Nat) (pre : List Nat) (c : Nat) (rest : List Nat) :
    advance ⟨line, pre.length, pre ++ c :: rest⟩
      = .ok c ⟨line, pre.length + 1, pre ++ c :: rest⟩ := by
  unfold advance
  rw [peek_mid, PResult.bind_ok]

theorem check_mid_eq (line : Nat) (pre : List Nat) (c : Nat) (rest : List Nat) :
    check c ⟨line, pre.length, pre ++ c :: rest⟩
      = .ok true ⟨line, pre.length + 1, pre ++ c :: rest⟩ := by
  unfold check
  rw [peek_mid, PResult.bind_ok, if_neg (by simp), advance_mid, PResult.bind_ok]

theorem check_mid_ne (line : Nat) (pre : List Nat) {c e : Nat} (hne : c ≠ e)
    (rest : List Nat) :
    check e ⟨line, pre.length, pre ++ c :: rest⟩
      = .ok false ⟨line, pre.length, pre ++ c :: rest⟩ := by
  unfold check
  rw [peek_mid, PResult.bind_ok, if_pos hne]

theorem skip_mid (line : Nat) (pre : List Nat) {c : Nat} (h32 : c ≠ 32) (h9 : c ≠ 9)
    (h10 : c ≠ 10) (rest : List Nat) {f : Nat} (hf : 1 ≤ f) :
    skip_whitespace f ⟨line, pre.length, pre ++ c :: rest⟩
      = .ok () ⟨line, pre.length, pre ++ c :: rest⟩ := by
  cases f with
  | zero => omega
  | succ f =>
    unfold skip_whitespace
    rw [peek_mid, PResult.bind_ok, if_neg h32, if_neg h9, if_neg h10]

theorem slice_mid (pre mid rest : List Nat) :
    sliceChk (pre ++ (mid ++ rest)) pre.length (pre.length + mid.length) = some mid := by
  unfold sliceChk
  rw [if_pos ⟨by omega, by rw [List.length_append, List.length_append]; omega⟩]
  rw [Nat.add_sub_cancel_left, List.drop_left pre (mid ++ rest)]
  rw [List.take_left mid rest]

theorem digitRun_render {ds : List Nat} (hds : ds.all (fun c => isDigit c) = true)
    {c : Nat} (hc : isDigit c = false) (rest : List Nat) (line : Nat) (pre : List Nat)
    {f : Nat} (hf : ds.length + 1 ≤ f) :
    digitRun f ⟨line, pre.length, pre ++ (ds ++ c :: rest)⟩
      = .ok () ⟨line, pre.length + ds.length, pre ++ (ds ++ c :: rest)⟩ := by
  induction ds generalizing pre f with
  | nil =>
    cases f with
    | zero => omega
    | succ f =>
      unfold digitRun
      simp only [List.nil_append, List.length_nil, Nat.add_zero]
      rw [peek_mid, PResult.bind_ok, if_neg (by rw [hc]; simp)]
  | cons d ds ih =>
    cases f with
    | zero => omega
    | succ f =>
      have hd : isDigit d = true := by
        simp only [List.all_cons, Bool.and_eq_true] at hds
        exact hds.1
      have hds2 : ds.all (fun c => isDigit c) = true := by
        simp only [List.all_cons, Bool.and_eq_true] at hds
        exact hds.2
      unfold digitRun
      simp only [List.cons_append]
      rw [peek_mid, PResult.bind_ok, if_pos hd, advance_mid, PResult.bind_ok]
      have hre : pre ++ d :: (ds ++ c :: rest) = (pre ++ [d]) ++ (ds ++ c :: rest) :=
        List.append_cons pre d (ds ++ c :: rest)
      rw [hre, show pre.length + 1 = (pre ++ [d]).length by simp]
      rw [ih hds2 (pre ++ [d]) (by simp at hf ⊢ <;> omega)]
      rw [show (pre ++ [d]).length + ds.length = pre.length + (d :: ds).length by
        simp <;> omega]

theorem wordGo_render (full : List Nat) (cs : List Nat) (rest : List Nat) (line : Nat)
    (pre : List Nat) :
    wordGo full cs ⟨line, pre.length, pre ++ (cs ++ rest)⟩
      = .ok () ⟨line, pre.length + cs.length, pre ++ (cs ++ rest)⟩ := by
  induction cs generalizing pre with
  | nil =>
    unfold wordGo
    simp only [List.nil_append, List.length_nil, Nat.add_zero]
  | cons ch cs ih =>
    unfold wordGo
    simp only [List.cons_append]
    rw [advance_mid, PResult.bind_ok, if_neg (by simp)]
    have hre : pre ++ ch :: (cs ++ rest) = (pre ++ [ch]) ++ (cs ++ rest) :=
      List.append_cons pre ch (cs ++ rest)
    rw [hre, show pre.length + 1 = (pre ++ [ch]).length by simp]
    rw [ih (pre ++ [ch])]
    rw [show (pre ++ [ch]).length + cs.length = pre.length + (ch :: cs).length by
      simp <;> omega]

theorem stringGo_render {bs : List Nat} (hbs : ∀ b ∈ bs, cleanByte b)
    (rest : List Nat) (line : Nat) (pre : List Nat) {start : Nat}
    (hst : start ≤ pre.length) {f : Nat} (hf : bs.length + 1 ≤ f) :
    stringGo start f ⟨line, pre.length, pre ++ (bs ++ 34 :: rest)⟩
      = .ok (((pre ++ (bs ++ 34 :: rest)).drop start).take (pre.length + bs.length - start))
          ⟨line, pre.length + bs.length + 1, pre ++ (bs ++ 34 :: rest)⟩ := by
  induction bs generalizing pre f with
  | nil =>
    cases f with
    | zero => omega
    | succ f =>
      unfold stringGo
      simp only [List.nil_append, List.length_nil, Nat.add_zero]
      rw [check_mid_eq, PResult.bind_ok, if_pos rfl]
      rw [show pre.length + 1 - 1 = pre.length by omega]
      have hsl : sliceChk (pre ++ 34 :: rest) start pre.length
          = some (((pre ++ 34 :: rest).drop start).take (pre.length - start)) := by
        unfold sliceChk
        rw [if_pos ⟨hst, by rw [List.length_append]; omega⟩]
      rw [hsl]
  | cons b bs ih =>
    cases f with
    | zero => omega
    | succ f =>
      have hcb : cleanByte b := hbs b (List.mem_cons_self b bs)
      have hbs2 : ∀ x ∈ bs, cleanByte x := fun x hx => hbs x (List.mem_cons_of_mem b hx)
      unfold stringGo
      simp only [List.cons_append]
      rw [check_mid_ne line pre hcb.1, PResult.bind_ok, if_neg Bool.false_ne_true,
        check_mid_ne line pre hcb.2, PResult.bind_ok]
      have hre : pre ++ b :: (bs ++ 34 :: rest) = (pre ++ [b]) ++ (bs ++ 34 :: rest) :=
        List.append_cons pre b (bs ++ 34 :: rest)
      rw [hre, show pre.length + 1 = (pre ++ [b]).length by simp]
      rw [ih hbs2 (pre ++ [b]) (by simp <;> omega) (by simp at hf ⊢ <;> omega)]
      rw [show (pre ++ [b]).length + bs.length + 1 = pre.length + (b :: bs).length + 1 by
        simp <;> omega]
      rw [show (pre ++ [b]).length + bs.length - start
          = pre.length + (b :: bs).length - start by simp <;> omega]

theorem stringP_render {bs : List Nat} (hbs : ∀ b ∈ bs, cleanByte b)
    (rest : List Nat) (line : Nat) (pre : List Nat) {f : Nat} (hf : bs.length + 2 ≤ f) :
    stringP f ⟨line, pre.length, pre ++ (34 :: (bs ++ 34 :: rest))⟩
      = .ok bs ⟨line, pre.length + bs.length + 2, pre ++ (34 :: (bs ++ 34 :: rest))⟩ := by
  unfold stringP
  rw [advance_mid, PResult.bind_ok]
  have hre : pre ++ 34 :: (bs ++ 34 :: rest) = (pre ++ [34]) ++ (bs ++ 34 :: rest) :=
    List.append_cons pre 34 (bs ++ 34 :: rest)
  rw [hre, show pre.length + 1 = (pre ++ [34]).length by simp]
  rw [stringGo_render hbs rest line (pre ++ [34]) (Nat.le_refl _) (by omega)]
  have hcontent : (((pre ++ [34]) ++ (bs ++ 34 :: rest)).drop (pre ++ [34]).length).take
      ((pre ++ [34]).length + bs.length - (pre ++ [34]).length) = bs := by
    rw [List.drop_left, Nat.add_sub_cancel_left]
    exact List.take_left bs (34 :: rest)
  rw [hcontent]
  have hc2 : (pre ++ [34]).length + bs.length + 1 = pre.length + bs.length + 2 := by
    simp
    omega
  rw [hc2]

/-!  ### Numeric conversion of rendered literals.  -/

theorem digit_ge {c : Nat} (h : isDigit c = true) : 48 ≤ c ∧ c ≤ 57 := by
  simp only [isDigit, Bool.and_eq_true, decide_eq_true_eq] at h
  exact h

theorem splitDigits_exact {ds rest : List Nat} (hds : ds.all (fun c => isDigit c) = true)
    (hrest : ∀ c, rest.head? = some c → isDigit c = false) :
    splitDigits (ds ++ rest) = (ds, rest) := by
  induction ds with
  | nil =>
    cases rest with
    | nil => rfl
    | cons c r =>
      unfold splitDigits
      rw [List.nil_append]
      dsimp only
      rw [if_neg (by rw [hrest c rfl]; simp)]
  | cons d ds ih =>
    simp only [List.all_cons, Bool.and_eq_true] at hds
    unfold splitDigits
    rw [List.cons_append]
    dsimp only
    rw [if_pos hds.1, ih hds.2]

theorem parseI64_render (neg : Bool) {ds : List Nat} (h1 : ds ≠ [])
    (h2 : ds.all (fun c => isDigit c) = true)
    (h3 : if neg then (digitsVal ds : Int) ≤ 2 ^ 63 else (digitsVal ds : Int) ≤ 2 ^ 63 - 1) :
    parseI64 ((if neg then [45] else []) ++ ds)
      = some (if neg then -(digitsVal ds : Int) else (digitsVal ds : Int)) := by
  cases neg with
  | true =>
    simp only [if_true]
    rw [List.cons_append, List.nil_append]
    unfold parseI64
    dsimp only
    rw [if_neg (by norm_num), if_pos rfl, if_pos ⟨h1, h2⟩, if_pos (by
      rw [if_pos rfl] at h3
      omega)]
  | false =>
    rw [if_neg Bool.false_ne_true, if_neg Bool.false_ne_true, List.nil_append]
    cases ds with
    | nil => exact absurd rfl h1
    | cons d ds2 =>
      have hd : isDigit d = true := by
        simp only [List.all_cons, Bool.and_eq_true] at h2
        exact h2.1
      obtain ⟨hd48, _⟩ := digit_ge hd
      unfold parseI64
      dsimp only
      rw [if_neg (by omega), if_neg (by omega), if_pos h2, if_pos (by
        rw [if_neg Bool.false_ne_true] at h3
        omega)]

theorem parseF64Exp_none : parseF64Exp [] = some 0 := rfl

theorem parseF64Exp_digits {e : List Nat} (h1 : e ≠ [])
    (h2 : e.all (fun c => isDigit c) = true) :
    parseF64Exp (101 :: e) = some (digitsVal e : Int) := by
  cases e with
  | nil => exact absurd rfl h1
  | cons c2 e2 =>
    have hd : isDigit c2 = true := by
      simp only [List.all_cons, Bool.and_eq_true] at h2
      exact h2.1
    obtain ⟨h48, _⟩ := digit_ge hd
    unfold parseF64Exp
    dsimp only
    rw [if_pos (Or.inl rfl), if_neg (by omega), if_neg (by omega)]
    have hsp : splitDigits ((c2 :: e2) ++ []) = (c2 :: e2, []) :=
      splitDigits_exact h2 (fun c hc => by cases hc)
    rw [List.append_nil] at hsp
    simp only [hsp]
    rw [if_pos ⟨by simp, by simp⟩]

theorem parseF64Core_render {ds fs : List Nat} {es : Option (List Nat)}
    (hds : ds.all (fun c => isDigit c) = true)
    (hfs : fs.all (fun c => isDigit c) = true)
    (hne : ¬(ds = [] ∧ fs = []))
    (hes : match es with
      | none => True
      | some e => e ≠ [] ∧ e.all (fun c => isDigit c) = true) :
    parseF64Core (ds ++ 46 :: (fs ++ expRender es))
      = some (((digitsVal ds : ℚ) + (digitsVal fs : ℚ) / (10 : ℚ) ^ fs.length) *
          (10 : ℚ) ^ (match es with | none => (0 : Int) | some e => (digitsVal e : Int))) := by
  have hsp1 : splitDigits (ds ++ 46 :: (fs ++ expRender es))
      = (ds, 46 :: (fs ++ expRender es)) :=
    splitDigits_exact hds (fun c hc => by cases hc; rfl)
  have hsp2 : splitDigits (fs ++ expRender es) = (fs, expRender es) := by
    refine splitDigits_exact hfs (fun c hc => ?_)
    cases es with
    | none => cases hc
    | some e =>
      unfold expRender at hc
      cases hc
      rfl
  unfold parseF64Core
  rw [hsp1]
  dsimp only
  rw [if_pos rfl, hsp2]
  dsimp only
  rw [if_neg (by
    intro hx
    exact hne ⟨hx.1, hx.2⟩)]
  cases es with
  | none =>
    rw [show expRender none = [] from rfl, parseF64Exp_none]
  | some e =>
    rw [show expRender (some e) = 101 :: e from rfl, parseF64Exp_digits hes.1 hes.2]

theorem parseF64_render (neg : Bool) {ds fs : List Nat} {es : Option (List Nat)}
    (hds : ds.all (fun c => isDigit c) = true)
    (hfs : fs.all (fun c => isDigit c) = true)
    (hne : ¬(ds = [] ∧ fs = []))
    (hes : match es with
      | none => True
      | some e => e ≠ [] ∧ e.all (fun c => isDigit c) = true) :
    parseF64 ((if neg then [45] else []) ++ (ds ++ 46 :: (fs ++ expRender es)))
      = some (floatVal neg ds fs es) := by
  cases neg with
  | true =>
    simp only [if_true]
    rw [List.cons_append, List.nil_append]
    unfold parseF64
    dsimp only
    rw [if_neg (by norm_num), if_pos rfl, parseF64Core_render hds hfs hne hes]
    simp [floatVal]
  | false =>
    rw [if_neg Bool.false_ne_true, List.nil_append]
    cases hds2 : ds with
    | nil =>
      subst hds2
      rw [List.nil_append]
      unfold parseF64
      dsimp only
      rw [if_neg (by norm_num), if_neg (by norm_num)]
      rw [show (46 : Nat) :: (fs ++ expRender es) = [] ++ 46 :: (fs ++ expRender es) from
        rfl, parseF64Core_render hds hfs hne hes]
      simp [floatVal]
    | cons d ds2 =>
      have hd : isDigit d = true := by
        rw [hds2] at hds
        simp only [List.all_cons, Bool.and_eq_true] at hds
        exact hds.1
      obtain ⟨h48, h57⟩ := digit_ge hd
      rw [List.cons_append]
      unfold parseF64
      dsimp only
      rw [if_neg (by omega), if_neg (by omega)]
      rw [← List.cons_append, ← hds2, parseF64Core_render hds hfs hne hes]
      simp [floatVal]

/-!  ### Walking `Parser::number` over a rendered numeric literal.  -/

theorem all_head {d : Nat} {tl : List Nat}
    (h : (d :: tl).all (fun x => isDigit x) = true) :
    isDigit d = true ∧ tl.all (fun x => isDigit x) = true := by
  simp only [List.all_cons, Bool.and_eq_true] at h
  exact h

theorem number_int_render_neg {ds : List Nat} (h1 : ds ≠ []) (h2 : goodDigits ds)
    (h3 : (digitsVal ds : Int) ≤ 2 ^ 63) {c : Nat} (hc : stopByte c)
    (rest : List Nat) (line : Nat) (pre : List Nat) {f : Nat} (hf : ds.length + 1 ≤ f) :
    number f ⟨line, pre.length, pre ++ 45 :: (ds ++ c :: rest)⟩
      = .ok (Value.integer (-(digitsVal ds : Int)))
          ⟨line, pre.length + (1 + ds.length), pre ++ 45 :: (ds ++ c :: rest)⟩ := by
  obtain ⟨d0, tl, rfl⟩ : ∃ d0 tl, ds = d0 :: tl := by
    cases ds with
    | nil => exact absurd rfl h1
    | cons a b => exact ⟨a, b, rfl⟩
  unfold number
  dsimp only
  rw [check_mid_eq, PResult.bind_ok]
  rw [List.append_cons pre 45 ((d0 :: tl) ++ c :: rest),
    show pre.length + 1 = (pre ++ [45]).length by simp]
  rw [List.cons_append]
  rw [peek_mid, PResult.bind_ok]
  have hscan : (if d0 = 48 then
        (advance ⟨line, (pre ++ [45]).length,
          (pre ++ [45]) ++ d0 :: (tl ++ c :: rest)⟩).bind fun _ t => PResult.ok () t
      else digitRun f ⟨line, (pre ++ [45]).length,
          (pre ++ [45]) ++ d0 :: (tl ++ c :: rest)⟩)
      = .ok () ⟨line, (pre ++ [45]).length + (d0 :: tl).length,
          (pre ++ [45]) ++ d0 :: (tl ++ c :: rest)⟩ := by
    by_cases hd0 : d0 = 48
    · have h48 : d0 :: tl = [48] := h2.2 (by rw [hd0]; rfl)
      injection h48 with e1 e2
      subst e1
      subst e2
      rw [if_pos rfl, advance_mid, PResult.bind_ok]
      rfl
    · rw [if_neg hd0, ← List.cons_append]
      exact digitRun_render h2.1 hc.1 rest line (pre ++ [45]) hf
  rw [hscan, PResult.bind_ok]
  rw [show (pre ++ [45]) ++ d0 :: (tl ++ c :: rest)
        = (pre ++ 45 :: d0 :: tl) ++ c :: rest by simp,
    show (pre ++ ([45] : List ℕ)).length + (d0 :: tl).length
        = (pre ++ 45 :: d0 :: tl).length by simp <;> omega]
  rw [check_mid_ne line (pre ++ 45 :: d0 :: tl) hc.2.1 rest, PResult.bind_ok]
  rw [if_pos rfl]
  have hsl : sliceChk ((pre ++ 45 :: d0 :: tl) ++ c :: rest) pre.length
      (pre ++ 45 :: d0 :: tl).length = some (45 :: d0 :: tl) := by
    rw [show (pre ++ 45 :: d0 :: tl) ++ c :: rest
          = pre ++ ((45 :: d0 :: tl) ++ c :: rest) by simp,
      show (pre ++ 45 :: d0 :: tl).length = pre.length + (45 :: d0 :: tl).length by
        simp <;> omega]
    exact slice_mid pre (45 :: d0 :: tl) (c :: rest)
  rw [hsl]
  dsimp only
  have hpi : parseI64 (45 :: d0 :: tl) = some (-(digitsVal (d0 :: tl) : Int)) := by
    have h := parseI64_render true h1 h2.1 (by rw [if_pos rfl]; exact h3)
    rw [if_pos rfl, if_pos rfl, List.singleton_append] at h
    exact h
  rw [hpi]
  dsimp only
  rw [show (pre ++ 45 :: d0 :: tl).length = pre.length + (1 + (d0 :: tl).length) by
    simp <;> omega]

theorem number_int_render_pos {ds : List Nat} (h1 : ds ≠ []) (h2 : goodDigits ds)
    (h3 : (digitsVal ds : Int) ≤ 2 ^ 63 - 1) {c : Nat} (hc : stopByte c)
    (rest : List Nat) (line : Nat) (pre : List Nat) {f : Nat} (hf : ds.length + 1 ≤ f) :
    number f ⟨line, pre.length, pre ++ (ds ++ c :: rest)⟩
      = .ok (Value.integer (digitsVal ds : Int))
          ⟨line, pre.length + ds.length, pre ++ (ds ++ c :: rest)⟩ := by
  obtain ⟨d0, tl, rfl⟩ : ∃ d0 tl, ds = d0 :: tl := by
    cases ds with
    | nil => exact absurd rfl h1
    | cons a b => exact ⟨a, b, rfl⟩
  obtain ⟨hd, htl⟩ := all_head h2.1
  obtain ⟨hd48, hd57⟩ := digit_ge hd
  unfold number
  dsimp only
  rw [List.cons_append]
  rw [check_mid_ne line pre (show d0 ≠ 45 by omega) (tl ++ c :: rest), PResult.bind_ok]
  rw [peek_mid, PResult.bind_ok]
  have hscan : (if d0 = 48 then
        (advance ⟨line, pre.length, pre ++ d0 :: (tl ++ c :: rest)⟩).bind
          fun _ t => PResult.ok () t
      else digitRun f ⟨line, pre.length, pre ++ d0 :: (tl ++ c :: rest)⟩)
      = .ok () ⟨line, pre.length + (d0 :: tl).length,
          pre ++ d0 :: (tl ++ c :: rest)⟩ := by
    by_cases hd0 : d0 = 48
    · have h48 : d0 :: tl = [48] := h2.2 (by rw [hd0]; rfl)
      injection h48 with e1 e2
      subst e1
      subst e2
      rw [if_pos rfl, advance_mid, PResult.bind_ok]
      rfl
    · rw [if_neg hd0, ← List.cons_append]
      exact digitRun_render h2.1 hc.1 rest line pre hf
  rw [hscan, PResult.bind_ok]
  rw [show pre ++ d0 :: (tl ++ c :: rest) = (pre ++ d0 :: tl) ++ c :: rest by simp,
    show pre.length + (d0 :: tl).length = (pre ++ d0 :: tl).length by simp <;> omega]
  rw [check_mid_ne line (pre ++ d0 :: tl) hc.2.1 rest, PResult.bind_ok]
  rw [if_pos rfl]
  have hsl : sliceChk ((pre ++ d0 :: tl) ++ c :: rest) pre.length
      (pre ++ d0 :: tl).length = some (d0 :: tl) := by
    rw [show (pre ++ d0 :: tl) ++ c :: rest = pre ++ ((d0 :: tl) ++ c :: rest) by simp,
      show (pre ++ d0 :: tl).length = pre.length + (d0 :: tl).length by simp <;> omega]
    exact slice_mid pre (d0 :: tl) (c :: rest)
  rw [hsl]
  dsimp only
  have hpi : parseI64 (d0 :: tl) = some (digitsVal (d0 :: tl) : Int) := by
    have h := parseI64_render false h1 h2.1 (by rw [if_neg Bool.false_ne_true]; exact h3)
    rw [if_neg Bool.false_ne_true, if_neg Bool.false_ne_true, List.nil_append] at h
    exact h
  rw [hpi]

theorem number_float_tail (start : Nat) {fs : List Nat}
    (hfs : fs.all (fun x => isDigit x) = true) {es : Option (List Nat)}
    (hes : match es with
      | none => True
      | some e => e ≠ [] ∧ e.all (fun x => isDigit x) = true)
    {c : Nat} (hc : stopByte c) (rest : List Nat) (line : Nat) (pre : List Nat)
    {f : Nat} (hfa : fs.length + 1 ≤ f)
    (hfb : ∀ e, es = some e → e.length + 1 ≤ f) :
    ((digitRun f ⟨line, pre.length, pre ++ ((fs ++ expRender es) ++ c :: rest)⟩).bind
        fun _ s5 =>
      (check 101 s5).bind fun e1 s6 =>
      ((if e1 then PResult.ok true s6 else check 69 s6).bind fun e2 s7 =>
      (if e2 then digitRun f s7 else PResult.ok () s7).bind fun _ s8 =>
      match sliceChk s8.document start s8.caret with
      | some bs =>
        match parseF64 bs with
        | some q => PResult.ok (Value.float q) s8
        | none => PResult.abort
      | none => PResult.oob))
      = (match sliceChk (pre ++ ((fs ++ expRender es) ++ c :: rest)) start
            (pre.length + (fs ++ expRender es).length) with
        | some bs =>
          match parseF64 bs with
          | some q => PResult.ok (Value.float q)
              ⟨line, pre.length + (fs ++ expRender es).length,
                pre ++ ((fs ++ expRender es) ++ c :: rest)⟩
          | none => PResult.abort
        | none => PResult.oob) := by
  cases es with
  | none =>
    rw [show expRender none = ([] : List Nat) from rfl, List.append_nil]
    rw [digitRun_render hfs hc.1 rest line pre hfa, PResult.bind_ok]
    rw [show pre ++ (fs ++ c :: rest) = (pre ++ fs) ++ c :: rest by simp,
      show pre.length + fs.length = (pre ++ fs).length by simp]
    rw [check_mid_ne line (pre ++ fs) hc.2.2.1 rest, PResult.bind_ok]
    rw [if_neg Bool.false_ne_true]
    rw [check_mid_ne line (pre ++ fs) hc.2.2.2 rest, PResult.bind_ok]
    rw [if_neg Bool.false_ne_true, PResult.bind_ok]
  | some e =>
    obtain ⟨he1, he2⟩ := hes
    rw [show expRender (some e) = 101 :: e from rfl]
    rw [show (fs ++ 101 :: e) ++ c :: rest = fs ++ 101 :: (e ++ c :: rest) by simp]
    rw [digitRun_render hfs (by decide) (e ++ c :: rest) line pre hfa, PResult.bind_ok]
    rw [show pre ++ (fs ++ 101 :: (e ++ c :: rest))
          = (pre ++ fs) ++ 101 :: (e ++ c :: rest) by simp,
      show pre.length + fs.length = (pre ++ fs).length by simp]
    rw [check_mid_eq line (pre ++ fs) 101 (e ++ c :: rest), PResult.bind_ok]
    rw [if_pos rfl, PResult.bind_ok]
    rw [if_pos rfl]
    rw [show (pre ++ fs).length + 1 = ((pre ++ fs) ++ [101]).length by simp <;> omega,
      List.append_cons (pre ++ fs) 101 (e ++ c :: rest)]
    rw [digitRun_render he2 hc.1 rest line ((pre ++ fs) ++ [101]) (hfb e rfl),
      PResult.bind_ok]
    have hcaret : ((pre ++ fs) ++ [101]).length + e.length
        = pre.length + (fs ++ 101 :: e).length := by simp <;> omega
    rw [hcaret]

theorem number_float_render_pos {ds fs : List Nat} {es : Option (List Nat)}
    (h2 : goodDigits ds) (hfs : fs.all (fun x => isDigit x) = true)
    (hne : ds = [] → fs ≠ [])
    (hes : match es with
      | none => True
      | some e => e ≠ [] ∧ e.all (fun x => isDigit x) = true)
    {c : Nat} (hc : stopByte c) (rest : List Nat) (line : Nat) (pre : List Nat)
    {f : Nat} (hf1 : ds.length + 1 ≤ f) (hf2 : fs.length + 1 ≤ f)
    (hf3 : ∀ e, es = some e → e.length + 1 ≤ f) :
    number f ⟨line, pre.length, pre ++ ((ds ++ 46 :: (fs ++ expRender es)) ++ c :: rest)⟩
      = .ok (Value.float (floatVal false ds fs es))
          ⟨line, pre.length + (ds ++ 46 :: (fs ++ expRender es)).length,
            pre ++ ((ds ++ 46 :: (fs ++ expRender es)) ++ c :: rest)⟩ := by
  cases ds with
  | nil =>
    simp only [List.nil_append]
    unfold number
    dsimp only
    rw [List.cons_append]
    rw [check_mid_ne line pre (show (46 : ℕ) ≠ 45 by omega)
        ((fs ++ expRender es) ++ c :: rest), PResult.bind_ok]
    rw [peek_mid, PResult.bind_ok]
    rw [if_neg (show (46 : ℕ) ≠ 48 by omega)]
    have hdr := @digitRun_render [] rfl 46 (by decide) ((fs ++ expRender es) ++ c :: rest)
      line pre f hf1
    simp only [List.nil_append, List.length_nil, Nat.add_zero] at hdr
    rw [hdr, PResult.bind_ok]
    rw [check_mid_eq line pre 46 ((fs ++ expRender es) ++ c :: rest), PResult.bind_ok]
    rw [if_neg (show ¬(true = false) by simp)]
    rw [show pre.length + 1 = (pre ++ [46]).length by simp,
      List.append_cons pre 46 ((fs ++ expRender es) ++ c :: rest)]
    rw [number_float_tail pre.length hfs hes hc rest line (pre ++ [46]) hf2 hf3]
    have hsl : sliceChk ((pre ++ [46]) ++ ((fs ++ expRender es) ++ c :: rest)) pre.length
        ((pre ++ [46]).length + (fs ++ expRender es).length)
        = some (46 :: (fs ++ expRender es)) := by
      rw [show (pre ++ [46]) ++ ((fs ++ expRender es) ++ c :: rest)
            = pre ++ ((46 :: (fs ++ expRender es)) ++ c :: rest) by simp]
      rw [show (pre ++ ([46] : List ℕ)).length + (fs ++ expRender es).length
            = pre.length + (46 :: (fs ++ expRender es)).length by simp <;> omega]
      exact slice_mid pre (46 :: (fs ++ expRender es)) (c :: rest)
    rw [hsl]
    dsimp only
    have hpf : parseF64 (46 :: (fs ++ expRender es)) = some (floatVal false [] fs es) := by
      have h := @parseF64_render false [] fs es rfl hfs (fun hx => hne rfl hx.2) hes
      simpa using h
    rw [hpf]
    dsimp only
    have hcaret : (pre ++ [46]).length + (fs ++ expRender es).length
        = pre.length + (46 :: (fs ++ expRender es)).length := by simp <;> omega
    rw [hcaret]
  | cons d0 tl =>
    obtain ⟨hd, htl⟩ := all_head h2.1
    obtain ⟨hd48, hd57⟩ := digit_ge hd
    rw [show ((d0 :: tl) ++ 46 :: (fs ++ expRender es)) ++ c :: rest
          = (d0 :: tl) ++ 46 :: ((fs ++ expRender es) ++ c :: rest) by simp]
    unfold number
    dsimp only
    rw [List.cons_append]
    rw [check_mid_ne line pre (show d0 ≠ 45 by omega)
        (tl ++ 46 :: ((fs ++ expRender es) ++ c :: rest)), PResult.bind_ok]
    rw [peek_mid, PResult.bind_ok]
    have hscan : (if d0 = 48 then
          (advance ⟨line, pre.length,
            pre ++ d0 :: (tl ++ 46 :: ((fs ++ expRender es) ++ c :: rest))⟩).bind
            fun _ t => PResult.ok () t
        else digitRun f ⟨line, pre.length,
            pre ++ d0 :: (tl ++ 46 :: ((fs ++ expRender es) ++ c :: rest))⟩)
        = .ok () ⟨line, pre.length + (d0 :: tl).length,
            pre ++ d0 :: (tl ++ 46 :: ((fs ++ expRender es) ++ c :: rest))⟩ := by
      by_cases hd0 : d0 = 48
      · have h48 : d0 :: tl = [48] := h2.2 (by rw [hd0]; rfl)
        injection h48 with e1 e2
        subst e1
        subst e2
        rw [if_pos rfl, advance_mid, PResult.bind_ok]
        rfl
      · rw [if_neg hd0, ← List.cons_append]
        exact digitRun_render h2.1 (by decide) ((fs ++ expRender es) ++ c :: rest)
          line pre hf1
    rw [hscan, PResult.bind_ok]
    rw [show pre ++ d0 :: (tl ++ 46 :: ((fs ++ expRender es) ++ c :: rest))
          = (pre ++ d0 :: tl) ++ 46 :: ((fs ++ expRender es) ++ c :: rest) by simp,
      show pre.length + (d0 :: tl).length = (pre ++ d0 :: tl).length by simp <;> omega]
    rw [check_mid_eq line (pre ++ d0 :: tl) 46 ((fs ++ expRender es) ++ c :: rest),
      PResult.bind_ok]
    rw [if_neg (show ¬(true = false) by simp)]
    rw [show (pre ++ d0 :: tl).length + 1 = ((pre ++ d0 :: tl) ++ [46]).length by
        simp <;> omega,
      List.append_cons (pre ++ d0 :: tl) 46 ((fs ++ expRender es) ++ c :: rest)]
    rw [number_float_tail pre.length hfs hes hc rest line ((pre ++ d0 :: tl) ++ [46])
      hf2 hf3]
    have hsl : sliceChk (((pre ++ d0 :: tl) ++ [46]) ++ ((fs ++ expRender es) ++ c :: rest))
        pre.length (((pre ++ d0 :: tl) ++ [46]).length + (fs ++ expRender es).length)
        = some ((d0 :: tl) ++ 46 :: (fs ++ expRender es)) := by
      rw [show ((pre ++ d0 :: tl) ++ [46]) ++ ((fs ++ expRender es) ++ c :: rest)
            = pre ++ (((d0 :: tl) ++ 46 :: (fs ++ expRender es)) ++ c :: rest) by simp]
      rw [show ((pre ++ d0 :: tl) ++ ([46] : List ℕ)).length + (fs ++ expRender es).length
            = pre.length + ((d0 :: tl) ++ 46 :: (fs ++ expRender es)).length by
          simp <;> omega]
      exact slice_mid pre ((d0 :: tl) ++ 46 :: (fs ++ expRender es)) (c :: rest)
    rw [hsl]
    dsimp only
    have hpf : parseF64 ((d0 :: tl) ++ 46 :: (fs ++ expRender es))
        = some (floatVal false (d0 :: tl) fs es) := by
      have h := parseF64_render false h2.1 hfs (fun hx => List.cons_ne_nil d0 tl hx.1) hes
      simpa using h
    rw [hpf]
    dsimp only
    have hcaret : ((pre ++ d0 :: tl) ++ [46]).length + (fs ++ expRender es).length
        = pre.length + ((d0 :: tl) ++ 46 :: (fs ++ expRender es)).length := by
      simp <;> omega
    rw [hcaret]

theorem number_float_render_neg {ds fs : List Nat} {es : Option (List Nat)}
    (h2 : goodDigits ds) (hfs : fs.all (fun x => isDigit x) = true)
    (hne : ds = [] → fs ≠ [])
    (hes : match es with
      | none => True
      | some e => e ≠ [] ∧ e.all (fun x => isDigit x) = true)
    {c : Nat} (hc : stopByte c) (rest : List Nat) (line : Nat) (pre : List Nat)
    {f : Nat} (hf1 : ds.length + 1 ≤ f) (hf2 : fs.length + 1 ≤ f)
    (hf3 : ∀ e, es = some e → e.length + 1 ≤ f) :
    number f ⟨line, pre.length, pre ++ 45 :: ((ds ++ 46 :: (fs ++ expRender es)) ++ c :: rest)⟩
      = .ok (Value.float (floatVal true ds fs es))
          ⟨line, pre.length + (1 + (ds ++ 46 :: (fs ++ expRender es)).length),
            pre ++ 45 :: ((ds ++ 46 :: (fs ++ expRender es)) ++ c :: rest)⟩ := by
  unfold number
  dsimp only
  rw [check_mid_eq, PResult.bind_ok]
  rw [List.append_cons pre 45 ((ds ++ 46 :: (fs ++ expRender es)) ++ c :: rest),
    show pre.length + 1 = (pre ++ [45]).length by simp]
  cases ds with
  | nil =>
    simp only [List.nil_append]
    rw [List.cons_append]
    rw [peek_mid, PResult.bind_ok]
    rw [if_neg (show (46 : ℕ) ≠ 48 by omega)]
    have hdr := @digitRun_render [] rfl 46 (by decide) ((fs ++ expRender es) ++ c :: rest)
      line (pre ++ [45]) f hf1
    simp only [List.nil_append, List.length_nil, Nat.add_zero] at hdr
    rw [hdr, PResult.bind_ok]
    rw [check_mid_eq line (pre ++ [45]) 46 ((fs ++ expRender es) ++ c :: rest),
      PResult.bind_ok]
    rw [if_neg (show ¬(true = false) by simp)]
    rw [show (pre ++ ([45] : List ℕ)).length + 1 = ((pre ++ [45]) ++ [46]).length by simp,
      List.append_cons (pre ++ [45]) 46 ((fs ++ expRender es) ++ c :: rest)]
    rw [number_float_tail pre.length hfs hes hc rest line ((pre ++ [45]) ++ [46]) hf2 hf3]
    have hsl : sliceChk (((pre ++ [45]) ++ [46]) ++ ((fs ++ expRender es) ++ c :: rest))
        pre.length (((pre ++ [45]) ++ [46]).length + (fs ++ expRender es).length)
        = some (45 :: 46 :: (fs ++ expRender es)) := by
      rw [show ((pre ++ [45]) ++ [46]) ++ ((fs ++ expRender es) ++ c :: rest)
            = pre ++ ((45 :: 46 :: (fs ++ expRender es)) ++ c :: rest) by simp]
      rw [show ((pre ++ ([45] : List ℕ)) ++ ([46] : List ℕ)).length
              + (fs ++ expRender es).length
            = pre.length + (45 :: 46 :: (fs ++ expRender es)).length by simp <;> omega]
      exact slice_mid pre (45 :: 46 :: (fs ++ expRender es)) (c :: rest)
    rw [hsl]
    dsimp only
    have hpf : parseF64 (45 :: 46 :: (fs ++ expRender es))
        = some (floatVal true [] fs es) := by
      have h := @parseF64_render true [] fs es rfl hfs (fun hx => hne rfl hx.2) hes
      simpa using h
    rw [hpf]
    dsimp only
    have hcaret : ((pre ++ [45]) ++ [46]).length + (fs ++ expRender es).length
        = pre.length + (1 + (46 :: (fs ++ expRender es)).length) := by simp <;> omega
    rw [hcaret]
  | cons d0 tl =>
    obtain ⟨hd, htl⟩ := all_head h2.1
    obtain ⟨hd48, hd57⟩ := digit_ge hd
    rw [show ((d0 :: tl) ++ 46 :: (fs ++ expRender es)) ++ c :: rest
          = (d0 :: tl) ++ 46 :: ((fs ++ expRender es) ++ c :: rest) by simp]
    rw [List.cons_append]
    rw [peek_mid, PResult.bind_ok]
    have hscan : (if d0 = 48 then
          (advance ⟨line, (pre ++ [45]).length,
            (pre ++ [45]) ++ d0 :: (tl ++ 46 :: ((fs ++ expRender es) ++ c :: rest))⟩).bind
            fun _ t => PResult.ok () t
        else digitRun f ⟨line, (pre ++ [45]).length,
            (pre ++ [45]) ++ d0 :: (tl ++ 46 :: ((fs ++ expRender es) ++ c :: rest))⟩)
        = .ok () ⟨line, (pre ++ [45]).length + (d0 :: tl).length,
            (pre ++ [45]) ++ d0 :: (tl ++ 46 :: ((fs ++ expRender es) ++ c :: rest))⟩ := by
      by_cases hd0 : d0 = 48
      · have h48 : d0 :: tl = [48] := h2.2 (by rw [hd0]; rfl)
        injection h48 with e1 e2
        subst e1
        subst e2
        rw [if_pos rfl, advance_mid, PResult.bind_ok]
        rfl
      · rw [if_neg hd0, ← List.cons_append]
        exact digitRun_render h2.1 (by decide) ((fs ++ expRender es) ++ c :: rest)
          line (pre ++ [45]) hf1
    rw [hscan, PResult.bind_ok]
    rw [show (pre ++ [45]) ++ d0 :: (tl ++ 46 :: ((fs ++ expRender es) ++ c :: rest))
          = (pre ++ 45 :: d0 :: tl) ++ 46 :: ((fs ++ expRender es) ++ c :: rest) by simp]
    have hclen : (pre ++ ([45] : List ℕ)).length + (d0 :: tl).length
        = (pre ++ 45 :: d0 :: tl).length := by simp <;> omega
    rw [hclen]
    rw [check_mid_eq line (pre ++ 45 :: d0 :: tl) 46 ((fs ++ expRender es) ++ c :: rest),
      PResult.bind_ok]
    rw [if_neg (show ¬(true = false) by simp)]
    rw [show (pre ++ 45 :: d0 :: tl).length + 1
          = ((pre ++ 45 :: d0 :: tl) ++ [46]).length by simp <;> omega,
      List.append_cons (pre ++ 45 :: d0 :: tl) 46 ((fs ++ expRender es) ++ c :: rest)]
    rw [number_float_tail pre.length hfs hes hc rest line
      ((pre ++ 45 :: d0 :: tl) ++ [46]) hf2 hf3]
    have hsl : sliceChk
        (((pre ++ 45 :: d0 :: tl) ++ [46]) ++ ((fs ++ expRender es) ++ c :: rest))
        pre.length
        (((pre ++ 45 :: d0 :: tl) ++ [46]).length + (fs ++ expRender es).length)
        = some (45 :: ((d0 :: tl) ++ 46 :: (fs ++ expRender es))) := by
      rw [show ((pre ++ 45 :: d0 :: tl) ++ [46]) ++ ((fs ++ expRender es) ++ c :: rest)
            = pre ++ ((45 :: ((d0 :: tl) ++ 46 :: (fs ++ expRender es))) ++ c :: rest) by
          simp]
      rw [show ((pre ++ 45 :: d0 :: tl) ++ ([46] : List ℕ)).length
              + (fs ++ expRender es).length
            = pre.length + (45 :: ((d0 :: tl) ++ 46 :: (fs ++ expRender es))).length by
          simp <;> omega]
      exact slice_mid pre (45 :: ((d0 :: tl) ++ 46 :: (fs ++ expRender es))) (c :: rest)
    rw [hsl]
    dsimp only
    have hpf : parseF64 (45 :: ((d0 :: tl) ++ 46 :: (fs ++ expRender es)))
        = some (floatVal true (d0 :: tl) fs es) := by
      have h := parseF64_render true h2.1 hfs (fun hx => List.cons_ne_nil d0 tl hx.1) hes
      simpa using h
    rw [hpf]
    dsimp only
    have hcaret : ((pre ++ 45 :: d0 :: tl) ++ [46]).length + (fs ++ expRender es).length
        = pre.length + (1 + ((d0 :: tl) ++ 46 :: (fs ++ expRender es)).length) := by
      simp <;> omega
    rw [hcaret]

/-!  ### Dispatch facts for rendered literals.  -/

theorem stopByte32 : stopByte 32 := ⟨by decide, by decide, by decide, by decide⟩

theorem stopByte44 : stopByte 44 := ⟨by decide, by decide, by decide, by decide⟩

theorem stopByte93 : stopByte 93 := ⟨by decide, by decide, by decide, by decide⟩

theorem stopByte125 : stopByte 125 := ⟨by decide, by decide, by decide, by decide⟩

theorem fuelL_pos (l : Lit) : 1 ≤ fuelL l := by
  cases l <;> simp only [fuelL] <;> omega

theorem fuelLL_pos (ll : LitList) : 1 ≤ fuelLL ll := by
  cases ll <;> simp only [fuelLL] <;> omega

theorem fuelLO_pos (ol : ObjList) : 1 ≤ fuelLO ol := by
  cases ol <;> simp only [fuelLO] <;> omega

/-- The first byte of a rendered well-formed literal is never whitespace and
never a closing bracket, so the loops' whitespace skipping and close-checks
pass over it unchanged. -/
theorem render_head (l : Lit) (hwf : WF l) :
    ∃ h t, render l = h :: t ∧ h ≠ 32 ∧ h ≠ 9 ∧ h ≠ 10 ∧ h ≠ 93 := by
  cases l with
  | bool b =>
    cases b with
    | true => exact ⟨116, _, rfl, by decide, by decide, by decide, by decide⟩
    | false => exact ⟨102, _, rfl, by decide, by decide, by decide, by decide⟩
  | nullL => exact ⟨110, _, rfl, by decide, by decide, by decide, by decide⟩
  | str bs => exact ⟨34, bs ++ [34], rfl, by decide, by decide, by decide, by decide⟩
  | int neg ds =>
    cases neg with
    | true => exact ⟨45, ds, rfl, by decide, by decide, by decide, by decide⟩
    | false =>
      obtain ⟨d0, tl, rfl⟩ : ∃ d0 tl, ds = d0 :: tl := by
        cases ds with
        | nil => exact absurd rfl hwf.1
        | cons a b => exact ⟨a, b, rfl⟩
      obtain ⟨hd, -⟩ := all_head hwf.2.1.1
      obtain ⟨h48, h57⟩ := digit_ge hd
      exact ⟨d0, tl, rfl, by omega, by omega, by omega, by omega⟩
  | floatL neg ds fs es =>
    cases neg with
    | true =>
      exact ⟨45, ds ++ 46 :: (fs ++ expRender es), rfl,
        by decide, by decide, by decide, by decide⟩
    | false =>
      cases ds with
      | nil =>
        exact ⟨46, fs ++ expRender es, rfl, by decide, by decide, by decide, by decide⟩
      | cons d0 tl =>
        obtain ⟨hd, -⟩ := all_head hwf.1.1
        obtain ⟨h48, h57⟩ := digit_ge hd
        exact ⟨d0, tl ++ 46 :: (fs ++ expRender es), rfl,
          by omega, by omega, by omega, by omega⟩
  | arr elems => exact ⟨91, renderL elems, rfl, by decide, by decide, by decide, by decide⟩
  | obj entries =>
    exact ⟨123, renderO entries, rfl, by decide, by decide, by decide, by decide⟩

/-- Completeness walk: a rendered well-formed literal followed by a stop
byte parses to its denotation, consuming exactly the rendered bytes (joint
statement for `parse` and the two container loops, by induction on fuel). -/
theorem renderWalk (f : Nat) :
    (∀ l, WF l → ∀ c, stopByte c → ∀ rest line (pre : List Nat), fuelL l ≤ f →
      parseF f ⟨line, pre.length, pre ++ (render l ++ c :: rest)⟩
        = .ok (denote l)
            ⟨line, pre.length + (render l).length, pre ++ (render l ++ c :: rest)⟩) ∧
    (∀ ll, WFL ll → ∀ c, stopByte c → ∀ rest line (pre : List Nat) acc, fuelLL ll ≤ f →
      arrayLoopF f acc ⟨line, pre.length, pre ++ (renderL ll ++ c :: rest)⟩
        = .ok (Value.array (acc ++ denoteL ll))
            ⟨line, pre.length + (renderL ll).length, pre ++ (renderL ll ++ c :: rest)⟩) ∧
    (∀ ol, WFO ol → ∀ c, stopByte c → ∀ rest line (pre : List Nat) acc, fuelLO ol ≤ f →
      dictLoopF f acc ⟨line, pre.length, pre ++ (renderO ol ++ c :: rest)⟩
        = .ok (Value.dict (denoteO acc ol))
            ⟨line, pre.length + (renderO ol).length, pre ++ (renderO ol ++ c :: rest)⟩) := by
  induction f with
  | zero =>
    refine ⟨fun l _ _ _ _ _ _ hfl => absurd hfl (by have := fuelL_pos l; omega),
      fun ll _ _ _ _ _ _ _ hfl => absurd hfl (by have := fuelLL_pos ll; omega),
      fun ol _ _ _ _ _ _ _ hfl => absurd hfl (by have := fuelLO_pos ol; omega)⟩
  | succ f ih =>
    obtain ⟨ihP, ihA, ihD⟩ := ih
    refine ⟨?_, ?_, ?_⟩
    · intro l hwf c hc rest line pre hfl
      cases l with
      | bool b =>
        cases b with
        | true =>
          rw [show render (Lit.bool true) = bytes ("true") from rfl,
            show denote (Lit.bool true) = Value.boolean true from rfl]
          unfold parseF
          rw [show (bytes ("true") : List ℕ) ++ c :: rest
              = 116 :: ([114, 117, 101] ++ c :: rest) from rfl]
          rw [@skip_mid line pre 116 (by decide) (by decide) (by decide)
            ([114, 117, 101] ++ c :: rest) f (by simp only [fuelL] at hfl; omega),
            PResult.bind_ok]
          rw [peek_mid, PResult.bind_ok]
          rw [if_neg (by decide), if_neg (by decide), if_neg (by decide), if_pos rfl]
          unfold word
          have hw := wordGo_render (bytes ("true")) (bytes ("true")) (c :: rest) line pre
          rw [show (bytes ("true") : List ℕ) ++ c :: rest
              = 116 :: ([114, 117, 101] ++ c :: rest) from rfl] at hw
          rw [hw, PResult.bind_ok]
        | false =>
          rw [show render (Lit.bool false) = bytes ("false") from rfl,
            show denote (Lit.bool false) = Value.boolean false from rfl]
          unfold parseF
          rw [show (bytes ("false") : List ℕ) ++ c :: rest
              = 102 :: ([97, 108, 115, 101] ++ c :: rest) from rfl]
          rw [@skip_mid line pre 102 (by decide) (by decide) (by decide)
            ([97, 108, 115, 101] ++ c :: rest) f (by simp only [fuelL] at hfl; omega),
            PResult.bind_ok]
          rw [peek_mid, PResult.bind_ok]
          rw [if_neg (by decide), if_neg (by decide), if_neg (by decide),
            if_neg (by decide), if_pos rfl]
          unfold word
          have hw := wordGo_render (bytes ("false")) (bytes ("false")) (c :: rest) line pre
          rw [show (bytes ("false") : List ℕ) ++ c :: rest
              = 102 :: ([97, 108, 115, 101] ++ c :: rest) from rfl] at hw
          rw [hw, PResult.bind_ok]
      | nullL =>
        rw [show render Lit.nullL = bytes ("null") from rfl,
          show denote Lit.nullL = Value.null from rfl]
        unfold parseF
        rw [show (bytes ("null") : List ℕ) ++ c :: rest
            = 110 :: ([117, 108, 108] ++ c :: rest) from rfl]
        rw [@skip_mid line pre 110 (by decide) (by decide) (by decide)
          ([117, 108, 108] ++ c :: rest) f (by simp only [fuelL] at hfl; omega),
          PResult.bind_ok]
        rw [peek_mid, PResult.bind_ok]
        rw [if_neg (by decide), if_neg (by decide), if_neg (by decide),
          if_neg (by decide), if_neg (by decide), if_pos rfl]
        unfold word
        have hw := wordGo_render (bytes ("null")) (bytes ("null")) (c :: rest) line pre
        rw [show (bytes ("null") : List ℕ) ++ c :: rest
            = 110 :: ([117, 108, 108] ++ c :: rest) from rfl] at hw
        rw [hw, PResult.bind_ok]
      | str bs =>
        rw [show render (Lit.str bs) = 34 :: (bs ++ [34]) from rfl,
          show denote (Lit.str bs) = Value.string bs from rfl]
        unfold parseF
        rw [List.cons_append]
        rw [show (bs ++ ([34] : List ℕ)) ++ c :: rest = bs ++ 34 :: (c :: rest) by simp]
        rw [@skip_mid line pre 34 (by decide) (by decide) (by decide)
          (bs ++ 34 :: (c :: rest)) f (by simp only [fuelL] at hfl; omega),
          PResult.bind_ok]
        rw [peek_mid, PResult.bind_ok]
        rw [if_neg (by decide), if_neg (by decide), if_pos rfl]
        rw [stringP_render hwf (c :: rest) line pre (by simp only [fuelL] at hfl; omega),
          PResult.bind_ok]
        rw [show pre.length + bs.length + 2
              = pre.length + (34 :: (bs ++ ([34] : List ℕ))).length by simp <;> omega]
      | int neg ds =>
        obtain ⟨hne0, hgd, hrange⟩ := hwf
        cases neg with
        | true =>
          rw [show render (Lit.int true ds) = 45 :: ds from rfl,
            show denote (Lit.int true ds) = Value.integer (-(digitsVal ds : Int)) from rfl]
          unfold parseF
          rw [List.cons_append]
          rw [@skip_mid line pre 45 (by decide) (by decide) (by decide)
            (ds ++ c :: rest) f (by simp only [fuelL] at hfl; omega), PResult.bind_ok]
          rw [peek_mid, PResult.bind_ok]
          rw [if_neg (by decide), if_neg (by decide), if_neg (by decide),
            if_neg (by decide), if_neg (by decide), if_neg (by decide)]
          rw [← List.cons_append]
          rw [show (45 :: ds : List ℕ) ++ c :: rest = 45 :: (ds ++ c :: rest) from rfl]
          rw [number_int_render_neg hne0 hgd (by rw [if_pos rfl] at hrange; exact hrange)
            hc rest line pre (by simp only [fuelL] at hfl; omega)]
          rw [show pre.length + (1 + ds.length)
                = pre.length + ((45 :: ds : List ℕ)).length by simp <;> omega]
        | false =>
          rw [show render (Lit.int false ds) = ds from rfl,
            show denote (Lit.int false ds) = Value.integer (digitsVal ds : Int) from rfl]
          obtain ⟨d0, tl, rfl⟩ : ∃ d0 tl, ds = d0 :: tl := by
            cases ds with
            | nil => exact absurd rfl hne0
            | cons a b => exact ⟨a, b, rfl⟩
          obtain ⟨hd, htl2⟩ := all_head hgd.1
          obtain ⟨h48, h57⟩ := digit_ge hd
          unfold parseF
          rw [List.cons_append]
          rw [@skip_mid line pre d0 (by omega) (by omega) (by omega)
            (tl ++ c :: rest) f (by simp only [fuelL] at hfl; omega), PResult.bind_ok]
          rw [peek_mid, PResult.bind_ok]
          rw [if_neg (by omega), if_neg (by omega), if_neg (by omega),
            if_neg (by omega), if_neg (by omega), if_neg (by omega)]
          rw [← List.cons_append]
          rw [number_int_render_pos hne0 hgd
            (by rw [if_neg Bool.false_ne_true] at hrange; exact hrange)
            hc rest line pre (by simp only [fuelL] at hfl; omega)]
      | floatL neg ds fs es =>
        obtain ⟨hgd, hfsall, hdfne, hes⟩ := hwf
        cases neg with
        | true =>
          rw [show render (Lit.floatL true ds fs es)
                = 45 :: (ds ++ 46 :: (fs ++ expRender es)) from rfl,
            show denote (Lit.floatL true ds fs es)
                = Value.float (floatVal true ds fs es) from rfl]
          unfold parseF
          rw [List.cons_append]
          rw [@skip_mid line pre 45 (by decide) (by decide) (by decide)
            ((ds ++ 46 :: (fs ++ expRender es)) ++ c :: rest) f
            (by simp only [fuelL] at hfl; omega), PResult.bind_ok]
          rw [peek_mid, PResult.bind_ok]
          rw [if_neg (by decide), if_neg (by decide), if_neg (by decide),
            if_neg (by decide), if_neg (by decide), if_neg (by decide)]
          rw [number_float_render_neg hgd hfsall hdfne hes hc rest line pre
            (by simp only [fuelL] at hfl; omega) (by simp only [fuelL] at hfl; omega)
            (fun e he => by subst he; simp only [fuelL] at hfl; omega)]
          rw [show pre.length + (1 + (ds ++ 46 :: (fs ++ expRender es)).length)
                = pre.length + ((45 : ℕ) :: (ds ++ 46 :: (fs ++ expRender es))).length by
              simp <;> omega]
        | false =>
          cases ds with
          | nil =>
            rw [show render (Lit.floatL false [] fs es)
                  = 46 :: (fs ++ expRender es) from rfl,
              show denote (Lit.floatL false [] fs es)
                  = Value.float (floatVal false [] fs es) from rfl]
            unfold parseF
            rw [List.cons_append]
            rw [@skip_mid line pre 46 (by decide) (by decide) (by decide)
              ((fs ++ expRender es) ++ c :: rest) f (by simp only [fuelL] at hfl; omega),
              PResult.bind_ok]
            rw [peek_mid, PResult.bind_ok]
            rw [if_neg (by decide), if_neg (by decide), if_neg (by decide),
              if_neg (by decide), if_neg (by decide), if_neg (by decide)]
            have hnum := @number_float_render_pos [] fs es hgd hfsall hdfne hes c hc rest
              line pre f (by simp only [fuelL] at hfl; omega)
              (by simp only [fuelL] at hfl; omega)
              (fun e he => by subst he; simp only [fuelL] at hfl; omega)
            simp only [List.nil_append, List.cons_append] at hnum
            rw [hnum]
          | cons d0 tl =>
            rw [show render (Lit.floatL false (d0 :: tl) fs es)
                  = (d0 :: tl) ++ 46 :: (fs ++ expRender es) from rfl,
              show denote (Lit.floatL false (d0 :: tl) fs es)
                  = Value.float (floatVal false (d0 :: tl) fs es) from rfl]
            obtain ⟨hd, htl2⟩ := all_head hgd.1
            obtain ⟨h48, h57⟩ := digit_ge hd
            rw [show ((d0 :: tl) ++ 46 :: (fs ++ expRender es)) ++ c :: rest
                  = d0 :: (tl ++ 46 :: ((fs ++ expRender es) ++ c :: rest)) by simp]
            unfold parseF
            rw [@skip_mid line pre d0 (by omega) (by omega) (by omega)
              (tl ++ 46 :: ((fs ++ expRender es) ++ c :: rest)) f
              (by simp only [fuelL] at hfl; omega), PResult.bind_ok]
            rw [peek_mid, PResult.bind_ok]
            rw [if_neg (by omega), if_neg (by omega), if_neg (by omega),
              if_neg (by omega), if_neg (by omega), if_neg (by omega)]
            have hnum := @number_float_render_pos (d0 :: tl) fs es hgd hfsall hdfne hes c hc
              rest line pre f (by simp only [fuelL] at hfl; omega)
              (by simp only [fuelL] at hfl; omega)
              (fun e he => by subst he; simp only [fuelL] at hfl; omega)
            rw [show ((d0 :: tl) ++ 46 :: (fs ++ expRender es)) ++ c :: rest
                  = d0 :: (tl ++ 46 :: ((fs ++ expRender es) ++ c :: rest)) by simp] at hnum
            rw [hnum]
      | arr elems =>
        rw [show render (Lit.arr elems) = 91 :: renderL elems from rfl,
          show denote (Lit.arr elems) = Value.array (denoteL elems) from rfl]
        unfold parseF
        rw [List.cons_append]
        rw [@skip_mid line pre 91 (by decide) (by decide) (by decide)
          (renderL elems ++ c :: rest) f
          (by have := fuelLL_pos elems; simp only [fuelL] at hfl; omega),
          PResult.bind_ok]
        rw [peek_mid, PResult.bind_ok]
        rw [if_neg (by decide), if_pos rfl]
        rw [advance_mid, PResult.bind_ok]
        rw [show pre.length + 1 = (pre ++ ([91] : List ℕ)).length by simp,
          List.append_cons pre 91 (renderL elems ++ c :: rest)]
        rw [ihA elems hwf c hc rest line (pre ++ [91]) []
          (by simp only [fuelL] at hfl; omega)]
        rw [show (pre ++ ([91] : List ℕ)).length + (renderL elems).length
              = pre.length + ((91 : ℕ) :: renderL elems).length by simp <;> omega]
        rw [show ([] : List Value) ++ denoteL elems = denoteL elems from
          List.nil_append (denoteL elems)]
      | obj entries =>
        rw [show render (Lit.obj entries) = 123 :: renderO entries from rfl,
          show denote (Lit.obj entries) = Value.dict (denoteO [] entries) from rfl]
        unfold parseF
        rw [List.cons_append]
        rw [@skip_mid line pre 123 (by decide) (by decide) (by decide)
          (renderO entries ++ c :: rest) f
          (by have := fuelLO_pos entries; simp only [fuelL] at hfl; omega),
          PResult.bind_ok]
        rw [peek_mid, PResult.bind_ok]
        rw [if_pos rfl]
        rw [advance_mid, PResult.bind_ok]
        rw [show pre.length + 1 = (pre ++ ([123] : List ℕ)).length by simp,
          List.append_cons pre 123 (renderO entries ++ c :: rest)]
        rw [ihD entries hwf c hc rest line (pre ++ [123]) []
          (by simp only [fuelL] at hfl; omega)]
        rw [show (pre ++ ([123] : List ℕ)).length + (renderO entries).length
              = pre.length + ((123 : ℕ) :: renderO entries).length by simp <;> omega]
    · intro ll hwl c hc rest line pre acc hfll
      cases ll with
      | nil =>
        rw [show renderL LitList.nil = [93] from rfl,
          show acc ++ denoteL LitList.nil = acc by simp [denoteL]]
        rw [show ([93] : List ℕ) ++ c :: rest = 93 :: (c :: rest) from rfl]
        unfold arrayLoopF
        rw [@skip_mid line pre 93 (by decide) (by decide) (by decide) (c :: rest) f
          (by simp only [fuelLL] at hfll; omega), PResult.bind_ok]
        rw [check_mid_eq line pre 93 (c :: rest), PResult.bind_ok]
        rw [if_pos rfl]
        rfl
      | cons x tl =>
        have hwx : WF x := hwl.1
        have hwtl : WFL tl := hwl.2
        cases tl with
        | nil =>
          rw [show renderL (LitList.cons x LitList.nil) = render x ++ [93] by
              simp [renderL, renderT],
            show acc ++ denoteL (LitList.cons x LitList.nil) = acc ++ [denote x] by
              simp [denoteL]]
          rw [show (render x ++ ([93] : List ℕ)) ++ c :: rest
                = render x ++ 93 :: (c :: rest) by simp]
          unfold arrayLoopF
          obtain ⟨h, t, hxe, h32, h9, h10, h93⟩ := render_head x hwx
          rw [hxe, List.cons_append]
          rw [@skip_mid line pre h h32 h9 h10 (t ++ 93 :: (c :: rest)) f
            (by simp only [fuelLL] at hfll; omega), PResult.bind_ok]
          rw [check_mid_ne line pre h93 (t ++ 93 :: (c :: rest)), PResult.bind_ok]
          rw [if_neg Bool.false_ne_true]
          rw [← List.cons_append, ← hxe]
          rw [ihP x hwx 93 stopByte93 (c :: rest) line pre
            (by simp only [fuelLL] at hfll; omega), PResult.bind_ok]
          rw [show pre ++ (render x ++ 93 :: (c :: rest))
                = (pre ++ render x) ++ 93 :: (c :: rest) by simp,
            show pre.length + (render x).length = (pre ++ render x).length by simp]
          rw [@skip_mid line (pre ++ render x) 93 (by decide) (by decide) (by decide)
            (c :: rest) f (by simp only [fuelLL] at hfll; omega), PResult.bind_ok]
          rw [peek_mid, PResult.bind_ok]
          rw [if_neg (show ¬((93 : ℕ) ≠ 93) by decide)]
          have hloop := ihA LitList.nil trivial c hc rest line (pre ++ render x)
            (acc ++ [denote x]) (by simp only [fuelLL] at hfll ⊢; omega)
          rw [show renderL LitList.nil ++ c :: rest = 93 :: (c :: rest) from rfl] at hloop
          rw [hloop]
          rw [show (acc ++ [denote x]) ++ denoteL LitList.nil = acc ++ [denote x] by
            simp [denoteL]]
          rw [show (pre ++ render x).length + (renderL LitList.nil).length
                = pre.length + (render x ++ ([93] : List ℕ)).length by
              simp [renderL] <;> omega]
        | cons y tl2 =>
          rw [show renderL (LitList.cons x (LitList.cons y tl2))
                = render x ++ 44 :: renderL (LitList.cons y tl2) by simp [renderL, renderT],
            show acc ++ denoteL (LitList.cons x (LitList.cons y tl2))
                = acc ++ denote x :: denoteL (LitList.cons y tl2) by simp [denoteL]]
          rw [show (render x ++ 44 :: renderL (LitList.cons y tl2)) ++ c :: rest
                = render x ++ 44 :: (renderL (LitList.cons y tl2) ++ c :: rest) by simp]
          unfold arrayLoopF
          obtain ⟨h, t, hxe, h32, h9, h10, h93⟩ := render_head x hwx
          rw [hxe, List.cons_append]
          rw [@skip_mid line pre h h32 h9 h10
            (t ++ 44 :: (renderL (LitList.cons y tl2) ++ c :: rest)) f
            (by simp only [fuelLL] at hfll; omega), PResult.bind_ok]
          rw [check_mid_ne line pre h93
            (t ++ 44 :: (renderL (LitList.cons y tl2) ++ c :: rest)), PResult.bind_ok]
          rw [if_neg Bool.false_ne_true]
          rw [← List.cons_append, ← hxe]
          rw [ihP x hwx 44 stopByte44 (renderL (LitList.cons y tl2) ++ c :: rest) line pre
            (by simp only [fuelLL] at hfll; omega), PResult.bind_ok]
          rw [show pre ++ (render x ++ 44 :: (renderL (LitList.cons y tl2) ++ c :: rest))
                = (pre ++ render x) ++ 44 :: (renderL (LitList.cons y tl2) ++ c :: rest) by
              simp,
            show pre.length + (render x).length = (pre ++ render x).length by simp]
          rw [@skip_mid line (pre ++ render x) 44 (by decide) (by decide) (by decide)
            (renderL (LitList.cons y tl2) ++ c :: rest) f
            (by simp only [fuelLL] at hfll; omega), PResult.bind_ok]
          rw [peek_mid, PResult.bind_ok]
          rw [if_pos (show (44 : ℕ) ≠ 93 by decide)]
          rw [check_mid_eq line (pre ++ render x) 44
            (renderL (LitList.cons y tl2) ++ c :: rest), PResult.bind_ok]
          rw [if_neg (show ¬(true = false) by decide)]
          rw [show (pre ++ render x).length + 1
                = ((pre ++ render x) ++ ([44] : List ℕ)).length by simp <;> omega,
            List.append_cons (pre ++ render x) 44 (renderL (LitList.cons y tl2) ++ c :: rest)]
          rw [ihA (LitList.cons y tl2) hwtl c hc rest line ((pre ++ render x) ++ [44])
            (acc ++ [denote x]) (by simp only [fuelLL] at hfll ⊢; omega)]
          rw [show (acc ++ [denote x]) ++ denoteL (LitList.cons y tl2)
                = acc ++ denote x :: denoteL (LitList.cons y tl2) by simp]
          rw [show ((pre ++ render x) ++ ([44] : List ℕ)).length
                  + (renderL (LitList.cons y tl2)).length
                = pre.length + (render x ++ 44 :: renderL (LitList.cons y tl2)).length by
              simp <;> omega]
    · intro ol hwo c hc rest line pre acc hflo
      cases ol with
      | nil =>
        rw [show renderO ObjList.nil = [125] from rfl]
        rw [show ([125] : List ℕ) ++ c :: rest = 125 :: (c :: rest) from rfl]
        unfold dictLoopF
        rw [@skip_mid line pre 125 (by decide) (by decide) (by decide) (c :: rest) f
          (by simp only [fuelLO] at hflo; omega), PResult.bind_ok]
        rw [check_mid_eq line pre 125 (c :: rest), PResult.bind_ok]
        rw [if_pos rfl]
        rfl
      | cons k v tl =>
        have hk : ∀ b ∈ k, cleanByte b := hwo.1
        have hv : WF v := hwo.2.1
        have hwtl : WFO tl := hwo.2.2
        rw [show renderO (ObjList.cons k v tl)
              = 34 :: (k ++ 34 :: (58 :: (render v ++ renderOT tl))) from rfl]
        rw [show ((34 : ℕ) :: (k ++ 34 :: (58 :: (render v ++ renderOT tl)))) ++ c :: rest
              = 34 :: (k ++ 34 :: (58 :: (render v ++ (renderOT tl ++ c :: rest)))) by simp]
        unfold dictLoopF
        rw [@skip_mid line pre 34 (by decide) (by decide) (by decide)
          (k ++ 34 :: (58 :: (render v ++ (renderOT tl ++ c :: rest)))) f
          (by simp only [fuelLO] at hflo; omega), PResult.bind_ok]
        rw [check_mid_ne line pre (show (34 : ℕ) ≠ 125 by decide)
          (k ++ 34 :: (58 :: (render v ++ (renderOT tl ++ c :: rest)))), PResult.bind_ok]
        rw [if_neg Bool.false_ne_true]
        rw [peek_mid, PResult.bind_ok]
        rw [if_neg (show ¬(bitnot8 34 = 34) by decide)]
        rw [stringP_render hk (58 :: (render v ++ (renderOT tl ++ c :: rest))) line pre
          (by simp only [fuelLO] at hflo; omega), PResult.bind_ok]
        have hd1 : pre ++ 34 :: (k ++ 34 :: (58 :: (render v ++ (renderOT tl ++ c :: rest))))
            = (pre ++ 34 :: (k ++ [34])) ++ 58 :: (render v ++ (renderOT tl ++ c :: rest)) := by
          simp
        have hd2 : pre.length + k.length + 2 = (pre ++ 34 :: (k ++ [34])).length := by
          simp <;> omega
        rw [hd1, hd2]
        rw [@skip_mid line (pre ++ 34 :: (k ++ [34])) 58 (by decide) (by decide) (by decide)
          (render v ++ (renderOT tl ++ c :: rest)) f
          (by simp only [fuelLO] at hflo; omega), PResult.bind_ok]
        rw [check_mid_eq line (pre ++ 34 :: (k ++ [34])) 58
          (render v ++ (renderOT tl ++ c :: rest)), PResult.bind_ok]
        rw [if_neg (show ¬(true = false) by decide)]
        have hd3 : (pre ++ 34 :: (k ++ ([34] : List ℕ))).length + 1
            = ((pre ++ 34 :: (k ++ [34])) ++ [58]).length := by simp <;> omega
        rw [hd3, List.append_cons (pre ++ 34 :: (k ++ [34])) 58
          (render v ++ (renderOT tl ++ c :: rest))]
        obtain ⟨h, t, hxe, h32, h9, h10, h93⟩ := render_head v hv
        rw [hxe, List.cons_append]
        rw [@skip_mid line ((pre ++ 34 :: (k ++ [34])) ++ [58]) h h32 h9 h10
          (t ++ (renderOT tl ++ c :: rest)) f (by simp only [fuelLO] at hflo; omega),
          PResult.bind_ok]
        rw [show h :: (t ++ (renderOT tl ++ c :: rest))
              = render v ++ (renderOT tl ++ c :: rest) by rw [hxe, List.cons_append]]
        cases tl with
        | nil =>
          rw [show renderOT ObjList.nil ++ c :: rest = 125 :: (c :: rest) from rfl]
          rw [ihP v hv 125 stopByte125 (c :: rest) line ((pre ++ 34 :: (k ++ [34])) ++ [58])
            (by simp only [fuelLO] at hflo; omega), PResult.bind_ok]
          have hd4 : ((pre ++ 34 :: (k ++ [34])) ++ [58]) ++ (render v ++ 125 :: (c :: rest))
              = (((pre ++ 34 :: (k ++ [34])) ++ [58]) ++ render v) ++ 125 :: (c :: rest) := by
            simp
          have hd5 : ((pre ++ 34 :: (k ++ ([34] : List ℕ))) ++ ([58] : List ℕ)).length
                + (render v).length
              = ((((pre ++ 34 :: (k ++ [34])) ++ [58]) ++ render v)).length := by
            simp <;> omega
          rw [hd4, hd5]
          rw [@skip_mid line (((pre ++ 34 :: (k ++ [34])) ++ [58]) ++ render v) 125
            (by decide) (by decide) (by decide) (c :: rest) f
            (by simp only [fuelLO] at hflo; omega), PResult.bind_ok]
          rw [peek_mid, PResult.bind_ok]
          rw [if_neg (show ¬((125 : ℕ) ≠ 125) by decide)]
          have hloop := ihD ObjList.nil trivial c hc rest line
            (((pre ++ 34 :: (k ++ [34])) ++ [58]) ++ render v) (insertKV acc k (denote v))
            (by simp only [fuelLO] at hflo ⊢; omega)
          rw [show renderO ObjList.nil ++ c :: rest = 125 :: (c :: rest) from rfl] at hloop
          rw [hloop]
          rw [show ((((pre ++ 34 :: (k ++ ([34] : List ℕ))) ++ ([58] : List ℕ)) ++
                  render v)).length + (renderO ObjList.nil).length
              = pre.length
                  + ((34 : ℕ) :: (k ++ 34 :: (58 :: (render v ++ renderOT ObjList.nil)))).length
              by simp [renderO, renderOT] <;> omega]
          rw [show denoteO acc (ObjList.cons k v ObjList.nil)
                = denoteO (insertKV acc k (denote v)) ObjList.nil by simp [denoteO]]
          rw [← hxe]
        | cons k2 v2 tl2 =>
          rw [show renderOT (ObjList.cons k2 v2 tl2) ++ c :: rest
                = 44 :: (renderO (ObjList.cons k2 v2 tl2) ++ c :: rest) by
              simp [renderOT, renderO]]
          rw [ihP v hv 44 stopByte44 (renderO (ObjList.cons k2 v2 tl2) ++ c :: rest) line
            ((pre ++ 34 :: (k ++ [34])) ++ [58])
            (by simp only [fuelLO] at hflo; omega), PResult.bind_ok]
          have hd4 : ((pre ++ 34 :: (k ++ [34])) ++ [58])
                ++ (render v ++ 44 :: (renderO (ObjList.cons k2 v2 tl2) ++ c :: rest))
              = (((pre ++ 34 :: (k ++ [34])) ++ [58]) ++ render v)
                ++ 44 :: (renderO (ObjList.cons k2 v2 tl2) ++ c :: rest) := by
            simp
          have hd5 : ((pre ++ 34 :: (k ++ ([34] : List ℕ))) ++ ([58] : List ℕ)).length
                + (render v).length
              = ((((pre ++ 34 :: (k ++ [34])) ++ [58]) ++ render v)).length := by
            simp <;> omega
          rw [hd4, hd5]
          rw [@skip_mid line (((pre ++ 34 :: (k ++ [34])) ++ [58]) ++ render v) 44
            (by decide) (by decide) (by decide)
            (renderO (ObjList.cons k2 v2 tl2) ++ c :: rest) f
            (by simp only [fuelLO] at hflo; omega), PResult.bind_ok]
          rw [peek_mid, PResult.bind_ok]
          rw [if_pos (show (44 : ℕ) ≠ 125 by decide)]
          rw [check_mid_eq line ((((pre ++ 34 :: (k ++ [34])) ++ [58]) ++ render v)) 44
            (renderO (ObjList.cons k2 v2 tl2) ++ c :: rest), PResult.bind_ok]
          rw [if_neg (show ¬(true = false) by decide)]
          rw [show ((((pre ++ 34 :: (k ++ ([34] : List ℕ))) ++ ([58] : List ℕ)) ++
                  render v)).length + 1
              = (((((pre ++ 34 :: (k ++ [34])) ++ [58]) ++ render v)) ++ [44]).length by
              simp <;> omega,
            List.append_cons ((((pre ++ 34 :: (k ++ [34])) ++ [58]) ++ render v)) 44
              (renderO (ObjList.cons k2 v2 tl2) ++ c :: rest)]
          rw [ihD (ObjList.cons k2 v2 tl2) hwtl c hc rest line
            (((((pre ++ 34 :: (k ++ [34])) ++ [58]) ++ render v)) ++ [44])
            (insertKV acc k (denote v)) (by simp only [fuelLO] at hflo ⊢; omega)]
          rw [show ((((((pre ++ 34 :: (k ++ ([34] : List ℕ))) ++ ([58] : List ℕ)) ++
                    render v)) ++ ([44] : List ℕ))).length
                  + (renderO (ObjList.cons k2 v2 tl2)).length
              = pre.length + ((34 : ℕ) :: (k ++ 34 ::
                  (58 :: (render v ++ renderOT (ObjList.cons k2 v2 tl2))))).length by
              simp [renderOT, renderO] <;> omega]
          rw [show denoteO acc (ObjList.cons k v (ObjList.cons k2 v2 tl2))
                = denoteO (insertKV acc k (denote v)) (ObjList.cons k2 v2 tl2) by
              simp [denoteO]]
          rw [← hxe]

mutual

/-- The walk's fuel requirement stays within the linear budget that
`fuelFor` supplies: under eight steps per rendered byte. -/
theorem fuelL_le (l : Lit) (h : WF l) : fuelL l + 2 ≤ 8 * (render l).length := by
  cases l with
  | bool b =>
    cases b with
    | true =>
      have hr : (render (Lit.bool true)).length = 4 := rfl
      simp only [fuelL]
      omega
    | false =>
      have hr : (render (Lit.bool false)).length = 5 := rfl
      simp only [fuelL]
      omega
  | nullL =>
    have hr : (render Lit.nullL).length = 4 := rfl
    simp only [fuelL]
    omega
  | str bs =>
    have hr : (render (Lit.str bs)).length = bs.length + 2 := by
      simp [render] <;> omega
    simp only [fuelL]
    omega
  | int neg ds =>
    have hds : 1 ≤ ds.length := List.length_pos.mpr h.1
    cases neg with
    | true =>
      have hr : (render (Lit.int true ds)).length = 1 + ds.length := by
        simp [render] <;> omega
      simp only [fuelL]
      omega
    | false =>
      have hr : (render (Lit.int false ds)).length = ds.length := by
        simp [render] <;> omega
      simp only [fuelL]
      omega
  | floatL neg ds fs es =>
    have hlen2 : 1 ≤ ds.length + fs.length := by
      by_cases hd : ds = []
      · have := List.length_pos.mpr (h.2.2.1 hd)
        omega
      · have := List.length_pos.mpr hd
        omega
    cases neg with
    | true =>
      cases es with
      | none =>
        have hr : (render (Lit.floatL true ds fs none)).length
            = ds.length + fs.length + 2 := by
          simp [render, expRender] <;> omega
        simp only [fuelL]
        omega
      | some e =>
        have hr : (render (Lit.floatL true ds fs (some e))).length
            = ds.length + fs.length + e.length + 3 := by
          simp [render, expRender] <;> omega
        simp only [fuelL]
        omega
    | false =>
      cases es with
      | none =>
        have hr : (render (Lit.floatL false ds fs none)).length
            = ds.length + fs.length + 1 := by
          simp [render, expRender] <;> omega
        simp only [fuelL]
        omega
      | some e =>
        have hr : (render (Lit.floatL false ds fs (some e))).length
            = ds.length + fs.length + e.length + 2 := by
          simp [render, expRender] <;> omega
        simp only [fuelL]
        omega
  | arr elems =>
    have ih := fuelLL_le elems h
    have hr : (render (Lit.arr elems)).length = 1 + (renderL elems).length := by
      simp [render] <;> omega
    simp only [fuelL]
    omega
  | obj entries =>
    have ih := fuelLO_le entries h
    have hr : (render (Lit.obj entries)).length = 1 + (renderO entries).length := by
      simp [render] <;> omega
    simp only [fuelL]
    omega
termination_by sizeOf l

/-- Fuel bound for the array-loop body over the remaining elements. -/
theorem fuelLL_le (ll : LitList) (h : WFL ll) : fuelLL ll + 2 ≤ 8 * (renderL ll).length := by
  cases ll with
  | nil =>
    have hr : (renderL LitList.nil).length = 1 := rfl
    simp only [fuelLL]
    omega
  | cons x tl =>
    have ihx := fuelL_le x h.1
    have he : fuelLL (LitList.cons x tl) = fuelL x + fuelLL tl + 4 := by
      simp only [fuelLL]
    have hr : (renderL (LitList.cons x tl)).length
        = (render x).length + (renderT tl).length := by simp [renderL]
    cases tl with
    | nil =>
      have hrt : (renderT LitList.nil).length = 1 := rfl
      have hft : fuelLL LitList.nil = 2 := by simp only [fuelLL]
      omega
    | cons y tl2 =>
      have ihtl := fuelLL_le (LitList.cons y tl2) h.2
      have hrt : (renderT (LitList.cons y tl2)).length
          = 1 + (renderL (LitList.cons y tl2)).length := by
        simp [renderT, renderL] <;> omega
      omega
termination_by sizeOf ll

/-- Fuel bound for the object-loop body over the remaining entries. -/
theorem fuelLO_le (ol : ObjList) (h : WFO ol) : fuelLO ol + 2 ≤ 8 * (renderO ol).length := by
  cases ol with
  | nil =>
    have hr : (renderO ObjList.nil).length = 1 := rfl
    simp only [fuelLO]
    omega
  | cons k v tl =>
    have ihv := fuelL_le v h.2.1
    have he : fuelLO (ObjList.cons k v tl) = k.length + fuelL v + fuelLO tl + 8 := by
      simp only [fuelLO]
    have hr : (renderO (ObjList.cons k v tl)).length
        = k.length + (render v).length + (renderOT tl).length + 3 := by
      simp [renderO] <;> omega
    cases tl with
    | nil =>
      have hrt : (renderOT ObjList.nil).length = 1 := rfl
      have hft : fuelLO ObjList.nil = 2 := by simp only [fuelLO]
      omega
    | cons k2 v2 tl2 =>
      have ihtl := fuelLO_le (ObjList.cons k2 v2 tl2) h.2.2
      have hrt : (renderOT (ObjList.cons k2 v2 tl2)).length
          = 1 + (renderO (ObjList.cons k2 v2 tl2)).length := by
        simp [renderOT, renderO] <;> omega
      omega
termination_by sizeOf ol

end

/-- Parser completeness for the public entry point: every rendered
well-formed literal, followed by a space, is accepted and yields exactly its
denoted `Value`. -/
theorem parse_render_complete (l : Lit) (hwf : WF l) :
    parse_string (render l ++ [32]) = ParseOutcome.ok (denote l) := by
  have hfuel : fuelL l ≤ fuelFor (render l ++ [32]) := by
    have hb := fuelL_le l hwf
    simp only [fuelFor, List.length_append]
    omega
  have h := (renderWalk (fuelFor (render l ++ [32]))).1 l hwf 32 stopByte32 [] 0 [] hfuel
  simp only [List.nil_append, List.length_nil, Nat.zero_add] at h
  unfold parse_string
  rw [h]

/-!  ### Claim C7: truncated input fails with `UnexpectedEndOfFile`.  -/

/-- C7: if a document `p ++ q` parses successfully (with any fuel `f`), then
running the parser on the truncated document `p` with the same fuel either
also succeeds (with the same value — `p` was not actually cut
mid-construct), or fails with an error whose kind is exactly
`UnexpectedEndOfFile`: no other error kind, panic, or fuel exhaustion can
occur.  The four sample documents of the claim all fail that way
concretely. -/
theorem c7_truncation_eof :
    (∀ f p q v t, parseF f ⟨0, 0, p ++ q⟩ = .ok v t →
      (∃ t2, parseF f ⟨0, 0, p⟩ = .ok v t2 ∧ t = extD q t2) ∨
        ∃ n, parseF f ⟨0, 0, p⟩ = .err ⟨n, .unexpectedEndOfFile⟩) ∧
    parse_string (bytes ("\x7b")) = .err ⟨0, .unexpectedEndOfFile⟩ ∧
    parse_string (bytes ("[1")) = .err ⟨0, .unexpectedEndOfFile⟩ ∧
    parse_string (bytes ("\"abc")) = .err ⟨0, .unexpectedEndOfFile⟩ ∧
    parse_string (bytes ("tru")) = .err ⟨0, .unexpectedEndOfFile⟩ := by
  refine ⟨?_, rfl, rfl, rfl, rfl⟩
  intro f p q v t h
  exact (parse_pre q f).1 ⟨0, 0, p⟩ v t h

/-- C7 witness: the general half applied to `p = "[1"`, `q = "]"`: the
extension parses as `[1]`, and the truncated run indeed returns
`UnexpectedEndOfFile` (line 0). -/
theorem c7_witness :
    (∃ t2, parseF (fuelFor (bytes ("[1]"))) ⟨0, 0, bytes ("[1")⟩
        = .ok (Value.array [Value.integer 1]) t2 ∧
        (⟨0, 3, bytes ("[1]")⟩ : PState) = extD (bytes ("]")) t2) ∨
      ∃ n, parseF (fuelFor (bytes ("[1]"))) ⟨0, 0, bytes ("[1")⟩
        = .err ⟨n, .unexpectedEndOfFile⟩ :=
  c7_truncation_eof.1 (fuelFor (bytes ("[1]"))) (bytes ("[1")) (bytes ("]"))
    (Value.array [Value.integer 1]) ⟨0, 3, bytes ("[1]")⟩ (by rfl)

/-!  ### Claim C10: trailing bytes are ignored.  -/

/-- C10: the public entry point consumes only the bytes the grammar of the
leading value demands; whatever parses successfully still parses to the
same value when arbitrary extra bytes are appended (the entry never checks
for leftover input), and in particular `[1]xyz` yields the array `[1]` and
`0123` yields the integer 0 with `123` left unread. -/
theorem c10_trailing_ignored :
    (∀ p q v, parse_string p = .ok v → parse_string (p ++ q) = .ok v) ∧
    parse_string (bytes ("[1]xyz")) = .ok (Value.array [Value.integer 1]) ∧
    parse_string (bytes ("0123")) = .ok (Value.integer 0) := by
  refine ⟨?_, rfl, rfl⟩
  intro p q v h
  unfold parse_string at h ⊢
  revert h
  cases hrun : parseF (fuelFor p) ⟨0, 0, p⟩ with
  | ok w t =>
    intro h
    cases h
    have hfle : fuelFor p ≤ fuelFor (p ++ q) := by
      unfold fuelFor
      rw [List.length_append]
      omega
    have := (parse_ext q (fuelFor p)).1 (fuelFor (p ++ q)) hfle ⟨0, 0, p⟩ v t hrun
    rw [show extD q ⟨0, 0, p⟩ = (⟨0, 0, p ++ q⟩ : PState) from rfl] at this
    rw [this]
  | err e =>
    intro h
    cases h
  | abort =>
    intro h
    cases h
  | oob =>
    intro h
    cases h
  | outOfFuel =>
    intro h
    cases h

/-- C10 witness: the general half applied to `p = "[1]"`, `q = "xyz"`. -/
theorem c10_witness :
    parse_string (bytes ("[1]") ++ bytes ("xyz")) = .ok (Value.array [Value.integer 1]) :=
  c10_trailing_ignored.1 (bytes ("[1]")) (bytes ("xyz")) (Value.array [Value.integer 1])
    (by rfl)

/-!  ### Claim C1: trailing commas.

Contrary to the claim, the loop bodies of `Parser::array` and
`Parser::dict` re-test for the closing bracket/brace at the top of every
iteration, before requiring another value, so a comma directly followed by
the closing delimiter is accepted.  -/

/-- C1 counterexample: the claim says `[1,]` must fail to parse, but the
code parses it successfully as the one-element array `[1]`. -/
theorem c1_counterexample :
    parse_string (bytes ("[1,]")) = .ok (Value.array [Value.integer 1]) := rfl

/-- C1 (amended): whenever the array (resp. object) loop comes back around —
in particular right after a comma was consumed — and the next byte after
whitespace is `]` (resp. `\x7d`), the loop consumes it and returns the
accumulated container, so trailing commas are accepted: `[1,]` parses as the
array `[1]` and `\x7b"a":1,\x7d` parses as the object with the single entry
`a ↦ 1`. -/
theorem c1_trailing_comma_accepted :
    (∀ f acc s t, skip_whitespace f s = .ok () t →
      t.document.get? t.caret = some 93 →
      arrayLoopF (f + 1) acc s = .ok (Value.array acc) { t with caret := t.caret + 1 }) ∧
    (∀ f acc s t, skip_whitespace f s = .ok () t →
      t.document.get? t.caret = some 125 →
      dictLoopF (f + 1) acc s = .ok (Value.dict acc) { t with caret := t.caret + 1 }) ∧
    parse_string (bytes ("[1,]")) = .ok (Value.array [Value.integer 1]) ∧
    parse_string (bytes ("\x7b\"a\":1,\x7d")) =
      .ok (Value.dict [(bytes ("a"), Value.integer 1)]) := by
  refine ⟨?_, ?_, rfl, rfl⟩
  · intro f acc s t hws hb
    obtain ⟨hlt, hget⟩ := List.get?_eq_some.mp hb
    unfold arrayLoopF
    rw [hws, PResult.bind_ok, check_of_eq hlt hget, PResult.bind_ok, if_pos rfl]
  · intro f acc s t hws hb
    obtain ⟨hlt, hget⟩ := List.get?_eq_some.mp hb
    unfold dictLoopF
    rw [hws, PResult.bind_ok, check_of_eq hlt hget, PResult.bind_ok, if_pos rfl]

/-- C1 witness: the array-loop half of the amended theorem applied right
after the comma of `[1,]` (caret 3, one parsed element), and the dict-loop
half applied right after the comma of `\x7b"a":1,\x7d` (caret 7). -/
theorem c1_witness :
    arrayLoopF 91 [Value.integer 1] ⟨0, 3, bytes ("[1,]")⟩ =
      .ok (Value.array [Value.integer 1]) ⟨0, 4, bytes ("[1,]")⟩ ∧
    dictLoopF 131 [(bytes ("a"), Value.integer 1)] ⟨0, 7, bytes ("\x7b\"a\":1,\x7d")⟩ =
      .ok (Value.dict [(bytes ("a"), Value.integer 1)]) ⟨0, 8, bytes ("\x7b\"a\":1,\x7d")⟩ :=
  ⟨c1_trailing_comma_accepted.1 90 [Value.integer 1] ⟨0, 3, bytes ("[1,]")⟩
      ⟨0, 3, bytes ("[1,]")⟩ (by rfl) (by rfl),
    c1_trailing_comma_accepted.2.1 130 [(bytes ("a"), Value.integer 1)]
      ⟨0, 7, bytes ("\x7b\"a\":1,\x7d")⟩ ⟨0, 7, bytes ("\x7b\"a\":1,\x7d")⟩ (by rfl) (by rfl)⟩

/-!  ### Claim C2: the object-key test.

The source line `if !self.peek()? == b'\x22'` applies Rust's bitwise NOT to
the peeked byte (`!` on `u8`), so the comparison is `255 - byte == 34`,
which holds only for byte 221.  For any other non-`\x7d` byte the parser
falls through to `Parser::string`, which treats that byte as the opening
quote.  -/

/-- C2: on `\x7bx: 1\x7d` the claim demands `ExpectedDictKey`; instead the
code consumes `x` as if it were an opening quote and scans for a closing
quote until it falls off the end of the document (`UnexpectedEndOfFile`).
The `ExpectedDictKey` branch fires exactly for byte 221 (`!221 == 34`). -/
theorem c2_dict_key_eval :
    parse_string (bytes ("\x7bx: 1\x7d")) = .err ⟨0, .unexpectedEndOfFile⟩ ∧
    parse_string [123, 221] = .err ⟨0, .expectedDictKey⟩ := ⟨rfl, rfl⟩

/-!  ### Claim C3: well-formed single values.

All literal forms parse correctly except a numeric literal whose digit scan
reaches the end of the document: the `while self.peek()?.is_ascii_digit()`
loop propagates `peek`'s `UnexpectedEndOfFile` instead of stopping, so the
bare documents `123` and `2.5` fail even though `123 ` and `2.5 ` (trailing
whitespace) succeed.  -/

/-- C3 counterexample: the claim says the bare document `123` yields
`Integer 123`; the code returns an `UnexpectedEndOfFile` error because the
digit loop peeks past the end of the input. -/
theorem c3_counterexample :
    parse_string (bytes ("123")) = .err ⟨0, .unexpectedEndOfFile⟩ := rfl

/-- C3 (amended): every well-formed single-literal document — booleans,
`null`, escape-free strings, in-range integers, decimal floats with an
optional exponent, and arbitrarily nested arrays and objects of such values
(the grammar `Lit`, rendered to bytes by `render`) — parses to exactly its
denoted `Value` once at least one byte follows a bare numeric literal (here
a single trailing space); a bare numeric document that ends at its last
digit instead fails with `UnexpectedEndOfFile` (the digit loop propagates
`peek`'s EOF), so of the claim's own examples `123` and `2.5` fail while
all other literal forms, and `123 `/`2.5 ` with a trailing byte, succeed. -/
theorem c3_literals :
    (∀ l, WF l → parse_string (render l ++ [32]) = .ok (denote l)) ∧
    parse_string (bytes ("true")) = .ok (Value.boolean true) ∧
    parse_string (bytes ("false")) = .ok (Value.boolean false) ∧
    parse_string (bytes ("null")) = .ok Value.null ∧
    parse_string (bytes ("\"abc\"")) = .ok (Value.string (bytes ("abc"))) ∧
    parse_string (bytes ("123 ")) = .ok (Value.integer 123) ∧
    parse_string (bytes ("-45 ")) = .ok (Value.integer (-45)) ∧
    (∃ q : ℚ, parse_string (bytes ("2.5 ")) = .ok (Value.float q) ∧ q = 5 / 2) ∧
    (∃ q : ℚ, parse_string (bytes ("-1.5e3 ")) = .ok (Value.float q) ∧ q = -1500) ∧
    parse_string (bytes ("[1]")) = .ok (Value.array [Value.integer 1]) ∧
    parse_string (bytes ("\x7b\"a\":1\x7d")) =
      .ok (Value.dict [(bytes ("a"), Value.integer 1)]) ∧
    parse_string (bytes ("2.5")) = .err ⟨0, .unexpectedEndOfFile⟩ := by
  refine ⟨parse_render_complete, rfl, rfl, rfl, rfl, rfl, rfl, ⟨_, rfl, ?_⟩,
    ⟨_, rfl, ?_⟩, rfl, rfl, rfl⟩
  · norm_num [digitsVal, splitDigits, List.foldl, show Char.toNat ('2') = 50 from rfl,
      show Char.toNat ('5') = 53 from rfl]
  · norm_num [digitsVal, splitDigits, List.foldl, show Char.toNat ('1') = 49 from rfl,
      show Char.toNat ('3') = 51 from rfl, show Char.toNat ('5') = 53 from rfl,
      show Char.toNat ('e') = 101 from rfl]

/-- C3 witness: the universal half applied to the concrete well-formed
literal `[42]` (rendered with its trailing space as the document `[42] `):
the parse returns the array holding integer 42. -/
theorem c3_witness :
    WF (Lit.arr (LitList.cons (Lit.int false [52, 50]) LitList.nil)) ∧
    parse_string
        (render (Lit.arr (LitList.cons (Lit.int false [52, 50]) LitList.nil)) ++ [32])
      = .ok (denote (Lit.arr (LitList.cons (Lit.int false [52, 50]) LitList.nil))) :=
  ⟨⟨⟨by decide, ⟨by decide, by decide⟩, by rw [if_neg Bool.false_ne_true]; decide⟩,
      trivial⟩,
    c3_literals.1 (Lit.arr (LitList.cons (Lit.int false [52, 50]) LitList.nil))
      ⟨⟨by decide, ⟨by decide, by decide⟩, by rw [if_neg Bool.false_ne_true]; decide⟩,
        trivial⟩⟩

/-!  ### Claim C4: unknown bare words.  -/

/-- C4 counterexample: the claim says the document `nul` fails with
`UnknownKeyword`; the code fails with `UnexpectedEndOfFile` because
`Parser::word` runs out of input while matching `null`. -/
theorem c4_counterexample :
    parse_string (bytes ("nul")) = .err ⟨0, .unexpectedEndOfFile⟩ := rfl

/-- C4 (amended): `UnknownKeyword` (carrying the expected literal) is
produced only when a byte read within the input mismatches the expected
keyword (`nulx`, `truu`); a bare word that is a strict prefix of the keyword
ending at end of input (`nul`) yields `UnexpectedEndOfFile`, and a word not
starting with lowercase `t`/`f`/`n` (`True`) is dispatched to number
parsing, whose integer conversion of the empty slice panics (abort). -/
theorem c4_unknown_keyword :
    parse_string (bytes ("nulx")) = .err ⟨0, .unknownKeyword (bytes ("null"))⟩ ∧
    parse_string (bytes ("truu")) = .err ⟨0, .unknownKeyword (bytes ("true"))⟩ ∧
    parse_string (bytes ("nul")) = .err ⟨0, .unexpectedEndOfFile⟩ ∧
    parse_string (bytes ("True")) = .abort := ⟨rfl, rfl, rfl, rfl⟩

/-!  ### Claim C5: line numbers.

The `line` counter is incremented only inside `skip_whitespace`; the byte
loop of `Parser::string` advances the caret directly, so newline bytes
inside string literals are consumed without incrementing `line`.  -/

/-- C5 counterexample: in the document `["a\nb" x]` exactly one newline byte
(inside the string literal, at offset 3) is consumed strictly before the
failure at `x` (offset 7), so the claim demands line 1; the code reports
line 0. -/
theorem c5_counterexample :
    parse_string (bytes ("[\"a\nb\" x]")) = .err ⟨0, .expectedArrayCloseOrComma⟩ ∧
    (bytes ("[\"a\nb\" x]")).count 10 = 1 ∧
    (bytes ("[\"a\nb\" x]")).get? 3 = some 10 := ⟨rfl, rfl, rfl⟩

/-- C5 (amended): the reported line is the parser's `line` field at the
point of failure; that field is incremented exactly once per newline byte
consumed by `skip_whitespace` and is never changed by string parsing or
keyword matching, so newline bytes consumed inside string literals do not
count. -/
theorem c5_line_accounting :
    (∀ f s t (u : Unit), skip_whitespace f s = .ok u t →
      t.line = s.line + ((s.document.drop s.caret).take (t.caret - s.caret)).count 10) ∧
    (∀ f s r t, stringP f s = .ok r t → t.line = s.line) ∧
    (∀ full s t (u : Unit), word full s = .ok u t → t.line = s.line) :=
  ⟨fun _ _ _ _ h => (skip_whitespace_ok h).2.2,
    fun _ _ _ _ h => (stringP_ok h).2.2.1,
    fun _ _ _ _ h => (wordGo_ok h).2.2⟩

/-- C5 witness: a concrete whitespace run ` \n ]` crosses one newline
(`line` goes from 0 to 1), and a concrete string literal containing a
newline (`"a\nb"`) leaves `line` unchanged at 0. -/
theorem c5_witness :
    (PState.mk 1 3 (bytes (" \n ]"))).line
        = (PState.mk 0 0 (bytes (" \n ]"))).line +
          ((((PState.mk 0 0 (bytes (" \n ]"))).document.drop 0).take (3 - 0)).count 10) ∧
    (PState.mk 0 5 (bytes ("\"a\nb\" x"))).line
        = (PState.mk 0 0 (bytes ("\"a\nb\" x"))).line :=
  ⟨c5_line_accounting.1 8 ⟨0, 0, bytes (" \n ]")⟩ ⟨1, 3, bytes (" \n ]")⟩ () (by rfl),
    c5_line_accounting.2.1 9 ⟨0, 0, bytes ("\"a\nb\" x")⟩ (bytes ("a\nb"))
      ⟨0, 5, bytes ("\"a\nb\" x")⟩ (by rfl)⟩

/-!  ### Claim C8: missing colon after an object key.  -/

/-- C8: whenever the object loop successfully parses a key (the byte opening
it is neither `\x7d` nor the bitwise-NOT special case 221) and the next byte
after whitespace exists but is not a colon, the loop fails with
`ExpectedDictColonAfterKey` carrying exactly that key; concretely,
`\x7b"a" 1\x7d` fails with the key `a`. -/
theorem c8_missing_colon :
    (∀ f acc s s1 c0 key s2 s3 c,
      skip_whitespace f s = .ok () s1 →
      s1.document.get? s1.caret = some c0 → c0 ≠ 125 → bitnot8 c0 ≠ 34 →
      stringP f s1 = .ok key s2 →
      skip_whitespace f s2 = .ok () s3 →
      s3.document.get? s3.caret = some c → c ≠ 58 →
      dictLoopF (f + 1) acc s = .err ⟨s3.line, .expectedDictColonAfterKey key⟩) ∧
    parse_string (bytes ("\x7b\"a\" 1\x7d")) =
      .err ⟨0, .expectedDictColonAfterKey (bytes ("a"))⟩ := by
  refine ⟨?_, rfl⟩
  intro f acc s s1 c0 key s2 s3 c hws1 hb0 hne125 hnot hstr hws2 hbc hne58
  obtain ⟨hlt0, hget0⟩ := List.get?_eq_some.mp hb0
  obtain ⟨hltc, hgetc⟩ := List.get?_eq_some.mp hbc
  unfold dictLoopF
  rw [hws1, PResult.bind_ok, check_of_ne hlt0 (by rw [hget0]; exact hne125),
    PResult.bind_ok, if_neg Bool.false_ne_true, peek_of_lt hlt0, PResult.bind_ok,
    hget0, if_neg hnot, hstr, PResult.bind_ok, hws2, PResult.bind_ok,
    check_of_ne hltc (by rw [hgetc]; exact hne58), PResult.bind_ok, if_pos rfl]
  rfl

/-- C8 witness: the loop-level statement applied to `\x7b"a" 1\x7d` right
after the opening brace (caret 1): the key `a` is parsed, the next
non-whitespace byte is `1`, and the loop returns the colon error carrying
`a`. -/
theorem c8_witness :
    dictLoopF 121 [] ⟨0, 1, bytes ("\x7b\"a\" 1\x7d")⟩ =
      .err ⟨0, .expectedDictColonAfterKey (bytes ("a"))⟩ :=
  c8_missing_colon.1 120 [] ⟨0, 1, bytes ("\x7b\"a\" 1\x7d")⟩
    ⟨0, 1, bytes ("\x7b\"a\" 1\x7d")⟩ 34 (bytes ("a")) ⟨0, 4, bytes ("\x7b\"a\" 1\x7d")⟩
    ⟨0, 5, bytes ("\x7b\"a\" 1\x7d")⟩ 49 (by rfl) (by rfl) (by decide) (by decide)
    (by rfl) (by rfl) (by rfl) (by decide)

/-!  ### Claim C6: verbatim escape skipping in string parsing.  -/

theorem get?_of_get {d : List Nat} {i c : Nat} (hlt : i < d.length)
    (h : d.get? i = some c) : d[i] = c := by
  rw [List.get?_eq_get hlt] at h
  have h2 := Option.some.inj h
  rw [List.get_eq_getElem] at h2
  exact h2

theorem get?_of_ne {d : List Nat} {i c : Nat} (hlt : i < d.length)
    (h : d.get? i ≠ some c) : d[i] ≠ c := by
  intro hx
  apply h
  rw [List.get?_eq_get hlt, List.get_eq_getElem, hx]

theorem specScan_quote (rest : List Nat) : specScan (34 :: rest) = some ([], 1) := by
  unfold specScan
  rw [if_pos rfl]

theorem specScan_backslash {rest : List Nat} {p : List Nat × Nat} (b : Nat)
    (h : specScan rest = some p) :
    specScan (92 :: b :: rest) = some (92 :: b :: p.1, p.2 + 2) := by
  have hstep : specScan (92 :: b :: rest)
      = (match specScan rest with
          | some p => some (92 :: b :: p.1, p.2 + 2)
          | none => none) := rfl
  rw [hstep, h]

theorem specScan_other {c : Nat} {rest : List Nat} {p : List Nat × Nat}
    (hc34 : c ≠ 34) (hc92 : c ≠ 92) (h : specScan rest = some p) :
    specScan (c :: rest) = some (c :: p.1, p.2 + 1) := by
  unfold specScan
  rw [if_neg hc34, if_neg hc92, h]

theorem stringGo_spec {f start : Nat} {s t : PState} {r : List Nat}
    (hle : start ≤ s.caret) (h : stringGo start f s = .ok r t) :
    ∃ k, 1 ≤ k ∧
      specScan (s.document.drop s.caret)
        = some ((s.document.drop s.caret).take (k - 1), k) ∧
      t = { s with caret := s.caret + k } ∧
      sliceChk s.document start (s.caret + k - 1) = some r := by
  induction f generalizing s with
  | zero => cases h
  | succ f ih =>
    unfold stringGo at h
    obtain ⟨b, s1, hc, hbody⟩ := PResult.bind_eq_ok h
    clear h
    obtain ⟨hlt, hsh⟩ := check_ok hc
    cases hsh with
    | inr htrue =>
      obtain ⟨hb, hs1, hq⟩ := htrue
      subst hb
      subst hs1
      simp only [if_true] at hbody
      rw [show (s.caret + 1) - 1 = s.caret by omega] at hbody
      cases hsl : sliceChk s.document start s.caret with
      | some content =>
        rw [hsl] at hbody
        cases hbody
        refine ⟨1, Nat.le_refl _, ?_, by rfl,
          by rw [show s.caret + 1 - 1 = s.caret by omega]; exact hsl⟩
        rw [List.drop_eq_getElem_cons hlt, get?_of_get hlt hq, specScan_quote]
        simp
      | none =>
        rw [hsl] at hbody
        cases hbody
    | inl hfalse =>
      obtain ⟨hb, hs1eq, hne⟩ := hfalse
      subst hb
      rw [if_neg Bool.false_ne_true] at hbody
      rw [hs1eq] at hbody
      clear hs1eq hc
      obtain ⟨b2, s2, hc2, hrec⟩ := PResult.bind_eq_ok hbody
      clear hbody
      obtain ⟨hlt2, hsh2⟩ := check_ok hc2
      have hcne34 : s.document[s.caret] ≠ 34 := get?_of_ne hlt hne
      cases hsh2 with
      | inr hbs =>
        obtain ⟨hb2, hs2, hq2⟩ := hbs
        subst hs2
        obtain ⟨k, hk1, hspec, ht, hsl⟩ := ih (by dsimp only; omega) hrec
        dsimp only at hspec ht hsl
        have h92 : s.document[s.caret] = 92 := get?_of_get hlt hq2
        have hlen2 : s.caret + 2 ≤ s.document.length := by
          by_contra hge
          have hnil : s.document.drop (s.caret + 2) = [] :=
            List.drop_eq_nil_of_le (by omega)
          rw [hnil] at hspec
          cases hspec
        have hlt1 : s.caret + 1 < s.document.length := by omega
        refine ⟨k + 2, by omega, ?_, ?_, ?_⟩
        · rw [List.drop_eq_getElem_cons hlt, List.drop_eq_getElem_cons hlt1, h92,
            specScan_backslash _ hspec]
          rw [show k + 2 - 1 = (k - 1) + 1 + 1 by omega]
          rw [List.take_succ_cons, List.take_succ_cons]
        · rw [ht, show s.caret + 1 + 1 + k = s.caret + (k + 2) by omega]
        · rw [show s.caret + (k + 2) - 1 = s.caret + 1 + 1 + k - 1 by omega]
          exact hsl
      | inl hnb =>
        obtain ⟨hb2, hs2eq, hq2⟩ := hnb
        rw [hs2eq] at hrec
        obtain ⟨k, hk1, hspec, ht, hsl⟩ := ih (by dsimp only; omega) hrec
        dsimp only at hspec ht hsl
        have hcne92 : s.document[s.caret] ≠ 92 := get?_of_ne hlt hq2
        refine ⟨k + 1, by omega, ?_, ?_, ?_⟩
        · rw [List.drop_eq_getElem_cons hlt, specScan_other hcne34 hcne92 hspec]
          rw [show k + 1 - 1 = (k - 1) + 1 by omega, List.take_succ_cons]
        · rw [ht, show s.caret + 1 + k = s.caret + (k + 1) by omega]
        · rw [show s.caret + (k + 1) - 1 = s.caret + 1 + k - 1 by omega]
          exact hsl

/-- C6: whenever `Parser::string` returns a content string, that content and
the final caret are exactly as described by the spec-side scan `specScan`:
each backslash plus the following byte is skipped as a verbatim two-byte
unit (no escape decoding), an escaped quote does not terminate, and the
content is exactly the raw bytes strictly between the opening quote and the
terminating quote. -/
theorem c6_string_verbatim {f : Nat} {s t : PState} {r : List Nat}
    (h : stringP f s = .ok r t) :
    ∃ k, specScan (s.document.drop (s.caret + 1))
        = some ((s.document.drop (s.caret + 1)).take (k - 1), k) ∧
      r = (s.document.drop (s.caret + 1)).take (k - 1) ∧
      t = { s with caret := s.caret + 1 + k } := by
  unfold stringP at h
  obtain ⟨c, s1, ha, hgo⟩ := PResult.bind_eq_ok h
  clear h
  obtain ⟨hs1, hlt, hg⟩ := advance_ok ha
  subst hs1
  obtain ⟨k, hk1, hspec, ht, hsl⟩ := stringGo_spec (Nat.le_refl _) hgo
  dsimp only at hspec ht hsl
  refine ⟨k, hspec, ?_, ?_⟩
  · unfold sliceChk at hsl
    by_cases hb : s.caret + 1 ≤ s.caret + 1 + k - 1 ∧ s.caret + 1 + k - 1 ≤ s.document.length
    · rw [if_pos hb] at hsl
      have := Option.some.inj hsl
      rw [← this, show s.caret + 1 + k - 1 - (s.caret + 1) = k - 1 by omega]
    · rw [if_neg hb] at hsl
      cases hsl
  · rw [ht]

/-- C6 witness: on the document `"a\\"b"` (escaped quote inside), the parsed
content is the verbatim bytes `a\\"b` — four bytes including the raw
backslash — and the scan consumed six bytes. -/
theorem c6_witness :
    ∃ k, specScan (((PState.mk 0 0 (bytes ("\"a\\\"b\" "))).document.drop (0 + 1)))
        = some ((((PState.mk 0 0 (bytes ("\"a\\\"b\" "))).document.drop (0 + 1)).take (k - 1)), k)
      ∧ (bytes ("a\\\"b"))
          = ((PState.mk 0 0 (bytes ("\"a\\\"b\" "))).document.drop (0 + 1)).take (k - 1)
      ∧ (PState.mk 0 6 (bytes ("\"a\\\"b\" ")))
          = { PState.mk 0 0 (bytes ("\"a\\\"b\" ")) with caret := 0 + 1 + k } := by
  have := @c6_string_verbatim 20 (PState.mk 0 0 (bytes ("\"a\\\"b\" ")))
    (PState.mk 0 6 (bytes ("\"a\\\"b\" "))) (bytes ("a\\\"b")) (by rfl)
  exact this

end Mb
